import Mathlib

/-!
# asset-discovery: address codec, CIDR expansion, OUI loading and lookup

A shallow embedding of `src/src/asset-discovery.c`.

Conventions of the embedding.

* A C string is the list of its characters before the terminating NUL, so the
  end of the list plays the role of the terminator and `*p == 0` reads `p = []`.
* A `char *` into a string is the suffix of the list that starts there.
* `unsigned` is a natural number reduced modulo `2 ^ 32`; `int` results are
  integers, with `toInt32` where the source converts an unsigned value.
* `long` is the 64-bit type of the LP64 platforms the Linux and macOS branches
  are built for; `strtol` saturates at its bounds.
* A function that returns a status and writes through an out-pointer is a
  function into `Option`: `none` is the error return with nothing written.
* A file is the list of the characters of a text file (no NUL byte); `malloc`
  and `realloc` are taken to succeed.
* The parsers of the three platforms are all embedded, whatever the platform
  the source is compiled for.
-/

namespace AssetDiscovery

/-! ## The C library functions the source calls -/

/-- The `isspace` of the C locale: space, `\t`, `\n`, `\v`, `\f`, `\r`. -/
def isspace (c : Char) : Bool :=
  c.toNat = 32 || (9 ≤ c.toNat && c.toNat ≤ 13)

/-- The `isdigit` of the C locale. -/
def isdigit (c : Char) : Bool :=
  48 ≤ c.toNat && c.toNat ≤ 57

/-- The `toupper` of the C locale: only `a`..`z` change. -/
def toupper (c : Char) : Char :=
  if 97 ≤ c.toNat ∧ c.toNat ≤ 122 then Char.ofNat (c.toNat - 32) else c

/-- Value of a character as a digit in the largest base `strtol` supports:
`0`..`9`, then letters of either case from 10 on. -/
def digitVal (c : Char) : Option Nat :=
  if 48 ≤ c.toNat ∧ c.toNat ≤ 57 then some (c.toNat - 48)
  else if 97 ≤ c.toNat ∧ c.toNat ≤ 122 then some (c.toNat - 97 + 10)
  else if 65 ≤ c.toNat ∧ c.toNat ≤ 90 then some (c.toNat - 65 + 10)
  else none

/-- Value of a character as a digit of the given base, if it is one. -/
def baseDigit (base : Nat) (c : Char) : Option Nat :=
  match digitVal c with
  | some d => if d < base then some d else none
  | none => none

/-- The digit loop of `strtol`: consumes the longest run of digits of the base,
accumulating their value, and returns the value and the unconsumed text. -/
def strtolDigits (base : Nat) : List Char → Nat → Nat × List Char
  | [], acc => (acc, [])
  | c :: s, acc =>
    match baseDigit base c with
    | some d => strtolDigits base s (acc * base + d)
    | none => (acc, c :: s)

def LONG_MAX : Int := 9223372036854775807

def LONG_MIN : Int := -9223372036854775808

/-- Saturation of an out-of-range `strtol` result. -/
def clampLong (v : Int) : Int :=
  if v > LONG_MAX then LONG_MAX else if v < LONG_MIN then LONG_MIN else v

/-- Text after the optional sign, and whether the sign was `-`. -/
def strtolSign : List Char → Bool × List Char
  | [] => (false, [])
  | c :: s => if c = '-' then (true, s) else if c = '+' then (false, s) else (false, c :: s)

/-- Text after the optional `0x` / `0X` of base 16; the prefix is only skipped
when a hex digit follows it. -/
def strtolHexPrefix (base : Nat) : List Char → List Char
  | c0 :: c1 :: c2 :: s =>
    if base = 16 ∧ c0 = '0' ∧ (c1 = 'x' ∨ c1 = 'X') ∧ (baseDigit 16 c2).isSome then c2 :: s
    else c0 :: c1 :: c2 :: s
  | s => s

/-- The `strtol(nptr, &end, base)` of the C library for base 10 and 16: skips
leading white space, takes an optional sign (and `0x` for base 16), then the
longest run of digits. `none` is the "no conversion" outcome (`end == nptr`,
value 0); otherwise the saturated value and the text `end` points to. -/
def strtol (nptr : List Char) (base : Nat) : Option (Int × List Char) :=
  let sg := strtolSign (nptr.dropWhile isspace)
  let s := strtolHexPrefix base sg.2
  match s with
  | [] => none
  | c :: _ =>
    if (baseDigit base c).isSome then
      let r := strtolDigits base s 0
      some (clampLong (if sg.1 then -(r.1 : Int) else (r.1 : Int)), r.2)
    else none

/-- Digits of `n`, most significant first, in front of `acc`; `fuel` bounds
the number of digits. -/
def decAux : Nat → Nat → List Char → List Char
  | 0, _, acc => acc
  | fuel + 1, n, acc =>
    if n < 10 then Char.ofNat (48 + n) :: acc
    else decAux fuel (n / 10) (Char.ofNat (48 + n % 10) :: acc)

/-- What `sprintf` writes for `%u` given a 32-bit unsigned value: its decimal
digits without padding (ten digits cover every 32-bit value). -/
def fmtU (n : Nat) : List Char := decAux 10 n []

/-! ## IP conversions -/

/-- Source `parse_octet`: `strtol` in base 10, failing on no conversion or a
value outside 0..255. Returns the octet and the text at `p + *len`. -/
def parse_octet (p : List Char) : Option (Nat × List Char) :=
  match strtol p 10 with
  | none => none
  | some (v, e) => if v < 0 ∨ v > 255 then none else some (v.toNat, e)

/-- The `for` loop of `ipstr_to_uint32` with `n` iterations left (`i = 4 - n`):
the octets read and the final position of `p`. -/
def ipstr_octets : Nat → List Char → Option (List Nat × List Char)
  | 0, p => some ([], p)
  | n + 1, p =>
    match parse_octet p with
    | none => none
    | some (o, p1) =>
      if 0 < n then
        match p1 with
        | [] => none
        | c :: p2 =>
          if c = '.' then
            match ipstr_octets n p2 with
            | none => none
            | some (os, e) => some (o :: os, e)
          else none
      else some ([o], p1)

/-- Source `ipstr_to_uint32`: `none` is the return `-1`, `some v` is the return
`0` with `*out = v`. -/
def ipstr_to_uint32 (ipstr : List Char) : Option Nat :=
  match ipstr_octets 4 ipstr with
  | some ([o0, o1, o2, o3], []) =>
    some (((o0 <<< 24) ||| (o1 <<< 16) ||| (o2 <<< 8) ||| o3) % 2 ^ 32)
  | _ => none

/-- Source `uint32_to_ipstr`: the text written into `buf`. -/
def uint32_to_ipstr (ip : Nat) : List Char :=
  let o0 := (ip >>> 24) &&& 0xFF
  let o1 := (ip >>> 16) &&& 0xFF
  let o2 := (ip >>> 8) &&& 0xFF
  let o3 := ip &&& 0xFF
  fmtU o0 ++ '.' :: fmtU o1 ++ '.' :: fmtU o2 ++ '.' :: fmtU o3

/-! ## CIDR expansion -/

/-- The `strchr` of the C library: the text from the first occurrence of `c`
on, `none` for the null pointer. -/
def strchr : List Char → Char → Option (List Char)
  | [], _ => none
  | x :: r, c => if x = c then some (x :: r) else strchr r c

/-- Conversion of an integer to `int`: reduction to the 32-bit two's-complement
range. -/
def toInt32 (v : Int) : Int := (v + 2147483648) % 4294967296 - 2147483648

/-- The `atoi` of the C library, as `(int) strtol(s, NULL, 10)`: 0 when no
digit is read; what follows the digits is ignored. -/
def atoi (s : List Char) : Int :=
  match strtol s 10 with
  | none => 0
  | some (v, _) => toInt32 v

/-- The shift `a << n` on `unsigned`: defined only for `n < 32`. -/
def shl32 (a n : Nat) : Option Nat :=
  if n < 32 then some ((a <<< n) % 2 ^ 32) else none

/-- Outcomes of `expand_cidr`. `error` is the return `-1` with `*ips_out`
untouched; `ok ret ips` is the return `ret` with the list `ips` stored in
`*ips_out`; `undefinedShift` is the execution that evaluates `1U << 32`, for
which C defines no result. Allocation is taken to succeed. -/
inductive CidrResult where
  | error : CidrResult
  | undefinedShift : CidrResult
  | ok (ret : Int) (ips : List (List Char)) : CidrResult
  deriving DecidableEq

/-- The value returned with a stored list, if a list is stored. -/
def CidrResult.ret? : CidrResult → Option Int
  | .ok ret _ => some ret
  | _ => none

/-- The stored list, if one is stored. -/
def CidrResult.ips? : CidrResult → Option (List (List Char))
  | .ok _ ips => some ips
  | _ => none

/-- The allocation loop of `expand_cidr`: element `i` is the text of the
`unsigned` sum `base_ip + i`. -/
def expand_list (base_ip count : Nat) : List (List Char) :=
  (List.range count).map fun i => uint32_to_ipstr ((base_ip + i) % 2 ^ 32)

/-- Lines 71-87 of `expand_cidr`, run once the base address and the prefix
length are known: host bits, count, and the allocation loop. -/
def expand_ok (base_ip : Nat) (pfx : Int) : CidrResult :=
  let hostbits : Nat := if pfx = 32 then 0 else 32 - pfx.toNat
  if hostbits = 0 then .ok (toInt32 1) (expand_list base_ip 1)
  else
    match shl32 1 hostbits with
    | none => .undefinedShift
    | some count => .ok (toInt32 count) (expand_list base_ip count)

/-- Source `expand_cidr`. -/
def expand_cidr (cidr : List Char) : CidrResult :=
  match strchr cidr '/' with
  | none => .error
  | some s =>
    let base_len := cidr.length - s.length
    if base_len ≥ 32 then .error
    else
      let base := cidr.take base_len
      let pfx := atoi s.tail
      if pfx < 0 ∨ pfx > 32 then .error
      else
        match ipstr_to_uint32 base with
        | none => .error
        | some base_ip => expand_ok base_ip pfx

/-! ## OUI lookup -/

/-- The separators `mac_to_oui_prefix` skips: `:`, `-`, `.` and white space. -/
def isMacSep (c : Char) : Bool :=
  c = ':' || c = '-' || c = '.' || isspace c

/-- The inner copy loop of `mac_to_oui_prefix`: copies characters into `token`
up to the next separator, the end of the text, or `cap` characters
(`sizeof(token) - 1`, that is 15). Returns the token and the position of `p`. -/
def readToken : Nat → List Char → List Char × List Char
  | 0, p => ([], p)
  | _ + 1, [] => ([], [])
  | cap + 1, c :: p =>
    if isMacSep c then ([], c :: p)
    else ((c :: (readToken cap p).1), (readToken cap p).2)

/-- The string literal indexed for the output digits. -/
def hexTable : List Char := "0123456789ABCDEF".toList

/-- The two characters written for one octet:
`"0123456789ABCDEF"[(uv >> 4) & 0xF]` and `"0123456789ABCDEF"[uv & 0xF]`. -/
def hexPair (uv : Nat) : List Char :=
  [hexTable.getD ((uv >>> 4) &&& 0xF) '0', hexTable.getD (uv &&& 0xF) '0']

/-- The outer loop of `mac_to_oui_prefix` with `n` octets still to read
(`octet = 3 - n`): `none` is the return `-1`, otherwise the characters written
to `out` from position `octet * 2` on. -/
def mac_loop : Nat → List Char → Option (List Char)
  | 0, _ => some []
  | n + 1, p =>
    if p = [] then none
    else
      let tk := readToken 15 p
      let p2 := tk.2.dropWhile isMacSep
      if tk.1 = [] then none
      else
        match strtol tk.1 16 with
        | none => none
        | some (v, _) =>
          if v < 0 ∨ v > 255 then none
          else
            match mac_loop n p2 with
            | none => none
            | some out => some (hexPair v.toNat ++ out)

/-- Source `mac_to_oui_prefix`: `none` is the return `-1`, `some s` is the
return `0` with the text `s` in `out`. -/
def mac_to_oui_prefix (mac : List Char) : Option (List Char) := mac_loop 3 mac

/-- The `for` loop of `lookup_oui_vendor` over the parallel arrays, `k` entries
left to visit; `strcmp(...) == 0` is equality of texts. -/
def lookup_scan (norm : List Char) : List (List Char) → List (List Char) → Nat →
    Option (List Char)
  | p :: ps, v :: vs, k + 1 => if p = norm then some v else lookup_scan norm ps vs k
  | _, _, _ => none

/-- Source `lookup_oui_vendor`: `none` is the null pointer. The arrays are
lists (a null array is the empty list) and `count` is the `int` passed. -/
def lookup_oui_vendor (mac : List Char) (prefixes vendors : List (List Char)) (count : Int) :
    Option (List Char) :=
  if count ≤ 0 then none
  else
    match mac_to_oui_prefix mac with
    | none => none
    | some norm => lookup_scan norm prefixes vendors count.toNat

/-! ## OUI loading -/

/-- The scanset `[0-9A-Fa-f]` of the `sscanf` format: a hexadecimal digit of
either case. -/
def isHexChar (c : Char) : Bool :=
  isdigit c || (97 ≤ c.toNat && c.toNat ≤ 102) || (65 ≤ c.toNat && c.toNat ≤ 70)

/-- The read loop of `fgets` with room for `k` more characters: stops after a
newline, at the end of the stream, or when the room is used up. Returns the
characters stored and the rest of the stream. -/
def fgetsAux : Nat → List Char → List Char × List Char
  | 0, s => ([], s)
  | _ + 1, [] => ([], [])
  | k + 1, c :: s =>
    if c = '\n' then ([c], s)
    else (c :: (fgetsAux k s).1, (fgetsAux k s).2)

/-- The `fgets(line, size, f)` of the C library on a text stream: `none` is
the null pointer at end of file, otherwise the line stored (at most `size - 1`
characters, the newline included when it was reached) and the rest of the
stream. -/
def fgets (size : Nat) (stream : List Char) : Option (List Char × List Char) :=
  match stream with
  | [] => none
  | _ :: _ => some (fgetsAux (size - 1) stream)

/-- One `%2[0-9A-Fa-f]` conversion: one or two characters of the scanset;
`none` when the first character is not in the set. -/
def scanHex2 (s : List Char) : Option (List Char × List Char) :=
  match s with
  | c :: d :: r =>
    if isHexChar c then
      if isHexChar d then some ([c, d], r) else some ([c], d :: r)
    else none
  | [c] => if isHexChar c then some ([c], []) else none
  | [] => none

/-- The call `sscanf(line, " %2[0-9A-Fa-f]-%2[0-9A-Fa-f]-%2[0-9A-Fa-f]", a, b, c)`
compared with 3: the three strings when all three conversions succeed. -/
def sscanf_oui (line : List Char) : Option (List Char × List Char × List Char) :=
  match scanHex2 (line.dropWhile isspace) with
  | none => none
  | some (a, s1) =>
    match s1 with
    | [] => none
    | x :: s2 =>
      if x = '-' then
        match scanHex2 s2 with
        | none => none
        | some (b, s3) =>
          match s3 with
          | [] => none
          | y :: s4 =>
            if y = '-' then
              match scanHex2 s4 with
              | none => none
              | some (c, _) => some (a, b, c)
            else none
      else none

/-- The loop of `normalize_prefix` with room for `k` more characters
(`k = 6 - di`). -/
def normalize_loop : List Char → Nat → List Char
  | [], _ => []
  | c :: p, k =>
    match k with
    | 0 => []
    | k2 + 1 =>
      if c = '-' ∨ c = ':' ∨ c = ' ' then normalize_loop p (k2 + 1)
      else toupper c :: normalize_loop p k2

/-- Source `normalize_prefix`: the text written to `dest`. -/
def normalize_prefix (inp : List Char) : List Char := normalize_loop inp 6

/-- The `strstr` of the C library: the text from the first occurrence of the
needle on, `none` for the null pointer. -/
def strstr : List Char → List Char → Option (List Char)
  | [], needle => if needle = [] then some [] else none
  | c :: s, needle =>
    if needle.isPrefixOf (c :: s) then some (c :: s) else strstr s needle

/-- Whether `strncmp(a, b, n) == 0`: the texts agree on their first `n`
characters, the terminator counting as a character. -/
def strncmpEq : List Char → List Char → Nat → Bool
  | _, _, 0 => true
  | [], [], _ + 1 => true
  | x :: a, y :: b, n + 1 => x = y && strncmpEq a b n
  | _, _, _ + 1 => false

/-- The token-skipping loop of the fallback branch, `k` tokens still to count
(`k = 3 - tokens`): a run of white space counts as one token end. `fuel`
bounds the iterations; the length of the text is enough. -/
def skipTokens : Nat → Nat → List Char → List Char
  | 0, _, p => p
  | _ + 1, 0, p => p
  | _ + 1, _ + 1, [] => []
  | fuel + 1, k + 1, c :: p =>
    if isspace c then skipTokens fuel k ((c :: p).dropWhile isspace)
    else skipTokens fuel (k + 1) p

/-- The pointer `vendor` of `load_oui_db` after the marker search or the
fallback: `none` is the null pointer. -/
def vendor_ptr (line : List Char) : Option (List Char) :=
  let phex := match strstr line "(hex)".toList with
    | some q => some q
    | none => strstr line "(base 16)".toList
  match phex with
  | some q =>
    let q2 :=
      if strncmpEq q "(base 16)".toList 10 then
        match strstr line "(base 16)".toList with
        | some r => r.drop 9
        | none => q.drop 5
      else q.drop 5
    some (q2.dropWhile isspace)
  | none =>
    let p := (skipTokens line.length 3 line).dropWhile isspace
    if p = [] then none else some p

/-- The text between `vend_trim` and `end`: leading blanks and tabs and
trailing white space removed. -/
def vendor_trim (vendor : List Char) : List Char :=
  ((vendor.dropWhile fun c => c = '\t' || c = ' ').reverse.dropWhile isspace).reverse

/-- The body of the read loop of `load_oui_db` for one line: the record
stored, if any. -/
def oui_line (line : List Char) : Option (List Char × List Char) :=
  match sscanf_oui line with
  | none => none
  | some (a, b, c) =>
    let pref := normalize_prefix (a ++ b ++ c)
    match vendor_ptr line with
    | none => none
    | some vendor =>
      if (vendor_trim vendor).length > 0 then some (pref, vendor_trim vendor) else none

/-- The read loop of `load_oui_db`: the records stored, in order. `fuel` bounds
the number of `fgets` calls; every call consumes a character, so the length of
the stream is enough. -/
def load_loop : Nat → List Char → List (List Char × List Char)
  | 0, _ => []
  | fuel + 1, s =>
    match fgets 1024 s with
    | none => []
    | some (line, rest) =>
      match oui_line line with
      | none => load_loop fuel rest
      | some r => r :: load_loop fuel rest

/-- The records `load_oui_db` stores for a file of the given content. -/
def load_records (content : List Char) : List (List Char × List Char) :=
  load_loop content.length content

/-- Source `load_oui_db`. The argument is the content of the file at `path`, a
text without NUL bytes, or `none` when `fopen` fails. `none` is the return
`-1`; otherwise the returned `(int)n` and the arrays stored in `*prefixes_out`
and `*vendors_out` (the null arrays of the empty table are empty lists).
Allocation is taken to succeed. -/
def load_oui_db (file : Option (List Char)) :
    Option (Int × List (List Char) × List (List Char)) :=
  match file with
  | none => none
  | some content =>
    let recs := load_records content
    some (toInt32 recs.length, recs.map Prod.fst, recs.map Prod.snd)

/-! ## ARP line parsers -/

/-- The entry of the header: `ip` is a `char[16]`, `mac` a `char[32]`; the
texts are what the zero-initialised fields hold up to the first NUL. -/
structure arp_entry_t where
  ip : List Char
  mac : List Char
  deriving DecidableEq

/-- One `%Ns` conversion of `sscanf`: white space is skipped, then up to
`width` characters that are not white space are stored. `none` is the input
failure at the end of the text; otherwise the string stored and the text left
unread. -/
def scanStr (width : Nat) (s : List Char) : Option (List Char × List Char) :=
  let t := s.dropWhile isspace
  if t = [] then none
  else
    let tok := (t.takeWhile fun c => !isspace c).take width
    some (tok, t.drop tok.length)

/-- The two `strncpy` calls that end every parser, into the zeroed entry:
at most `sizeof(out->ip) - 1 = 15` and `sizeof(out->mac) - 1 = 31`
characters are copied. -/
def store_entry (ip mac : List Char) : arp_entry_t :=
  { ip := ip.take 15, mac := mac.take 31 }

/-- The `sscanf(m, "<marker> %63s", mac)` of `parse_linux_line` on the text
`m` that `strstr` found (it starts with the marker, of length `len`), followed
by `mac[0] = 0` on failure: the content of `mac`. -/
def scan_after_marker (len : Nat) (m : List Char) : List Char :=
  match scanStr 63 (m.drop len) with
  | some (mac, _) => mac
  | none => []

/-- The local buffers `ip` and `mac` of `parse_linux_line` when it reaches its
`strncpy` calls; `none` is the return `0`. -/
def linux_fields (line : List Char) : Option (List Char × List Char) :=
  match scanStr 31 line with
  | none => none
  | some (ip, _) =>
    match strstr line "lladdr".toList with
    | some ll =>
      if scan_after_marker 6 ll = [] then none else some (ip, scan_after_marker 6 ll)
    | none =>
      match strstr line "ether".toList with
      | some et =>
        if scan_after_marker 5 et = [] then none else some (ip, scan_after_marker 5 et)
      | none => none

/-- Source `parse_linux_line`: `none` is the return `0`, `some e` the return
`1` with the entry written. -/
def parse_linux_line (line : List Char) : Option arp_entry_t :=
  match linux_fields line with
  | none => none
  | some (ip, mac) => some (store_entry ip mac)

/-- The conversion `%31[^)]`: up to 31 characters other than `)`; `none` when
there is none. -/
def scanNotParen (s : List Char) : Option (List Char) :=
  let t := (s.takeWhile fun c => c != ')').take 31
  if t = [] then none else some t

/-- The local buffers `ip` and `mac` of `parse_macos_line` when it reaches its
`strncpy` calls; `none` is the return `0`. -/
def macos_fields (line : List Char) : Option (List Char × List Char) :=
  match strchr line '(' with
  | none => none
  | some p =>
    match scanNotParen p.tail with
    | none => none
    | some ip =>
      match strstr line " at ".toList with
      | none => none
      | some a =>
        match scanStr 63 (a.drop 4) with
        | none => none
        | some (mac, _) =>
          if (strstr mac "(incomplete)".toList).isSome then none else some (ip, mac)

/-- Source `parse_macos_line`. -/
def parse_macos_line (line : List Char) : Option arp_entry_t :=
  match macos_fields line with
  | none => none
  | some (ip, mac) => some (store_entry ip mac)

/-- The local buffers `ip` and `mac` of `parse_windows_line` when it reaches
its `strncpy` calls, hyphens already replaced; `none` is the return `0`. -/
def windows_fields (line : List Char) : Option (List Char × List Char) :=
  let p := line.dropWhile fun c => c = ' ' || c = '\t'
  match p with
  | [] => none
  | c :: _ =>
    if isdigit c then
      match scanStr 31 p with
      | none => none
      | some (ip, r) =>
        match scanStr 63 r with
        | none => none
        | some (mac, _) => some (ip, mac.map fun q => if q = '-' then ':' else q)
    else none

/-- Source `parse_windows_line`. -/
def parse_windows_line (line : List Char) : Option arp_entry_t :=
  match windows_fields line with
  | none => none
  | some (ip, mac) => some (store_entry ip mac)

/-! ## Vocabulary of the statements -/

/-- Value of a run of decimal digits, most significant first. -/
def decVal (ds : List Char) : Nat :=
  ds.foldl (fun a c => a * 10 + (c.toNat - 48)) 0

/-- A decimal octet written without leading zeros: a non-empty run of decimal
digits of value 0..255 that is `0` itself or does not start with `0`. -/
def isOctetText (ds : List Char) : Bool :=
  !ds.isEmpty && ds.all isdigit && (ds.head? != some '0' || ds.length == 1)
    && decide (decVal ds ≤ 255)

/-- Dotted text of four fields joined by single dots. -/
def dotted (a b c d : List Char) : List Char :=
  a ++ '.' :: (b ++ '.' :: (c ++ '.' :: d))

/-- Shape of a text at the point where a run satisfying `p` ends. -/
def stopsAt (p : Char → Bool) (rest : List Char) : Prop :=
  ∀ c ∈ rest.head?, p c = false

/-- The fields of a text between occurrences of a separator character. -/
def splitOnChar (sep : Char) : List Char → List (List Char)
  | [] => [[]]
  | c :: s =>
    if c = sep then [] :: splitOnChar sep s
    else
      match splitOnChar sep s with
      | [] => [[c]]
      | f :: fs => (c :: f) :: fs

/-- A run of decimal digits of value 0..255 (leading zeros allowed). -/
def isStrictField (f : List Char) : Bool :=
  !f.isEmpty && f.all isdigit && decide (decVal f ≤ 255)

/-- The form the address text is specified to have: exactly four runs of
decimal digits, each of value 0..255, separated by single dots, and no other
character anywhere. -/
def isStrictDotted (t : List Char) : Bool :=
  match splitOnChar '.' t with
  | [a, b, c, d] => isStrictField a && isStrictField b && isStrictField c && isStrictField d
  | _ => false

/-- The digits of a field once leading white space and one sign are removed. -/
def fieldDigits (f : List Char) : List Char :=
  let s := f.dropWhile isspace
  if s.head? = some '-' ∨ s.head? = some '+' then s.tail else s

/-- A field as the parser really reads it: optional white space, an optional
`+` or `-`, then a non-empty run of decimal digits up to the end of the field,
of value 0..255 (after `-` only the value 0). -/
def isLaxField (f : List Char) : Bool :=
  !(fieldDigits f).isEmpty && (fieldDigits f).all isdigit &&
    (if (f.dropWhile isspace).head? = some '-' then decide (decVal (fieldDigits f) = 0)
     else decide (decVal (fieldDigits f) ≤ 255))

/-- The texts the parser really accepts: exactly four lax fields separated by
single dots. -/
def isLaxDotted (t : List Char) : Bool :=
  match splitOnChar '.' t with
  | [a, b, c, d] => isLaxField a && isLaxField b && isLaxField c && isLaxField d
  | _ => false

/-- Fields joined by single occurrences of a separator character. -/
def joinSep (sep : Char) : List (List Char) → List Char
  | [] => []
  | [f] => f
  | f :: g :: fs => f ++ sep :: joinSep sep (g :: fs)

/-- The form the prefix length is specified to have: a decimal integer in
0..32 and nothing else. -/
def isPrefixLenText (r : List Char) : Bool :=
  !r.isEmpty && r.all isdigit && decide (decVal r ≤ 32)

/-- Text left of the first `/`. -/
def leftOfSlash (cidr : List Char) : List Char := cidr.takeWhile (· != '/')

/-- Text right of the first `/` (empty when there is none). -/
def rightOfSlash (cidr : List Char) : List Char := (cidr.dropWhile (· != '/')).tail

/-- Value of a hexadecimal digit of either case. -/
def hexCharVal (c : Char) : Nat :=
  if isdigit c then c.toNat - 48 else if 97 ≤ c.toNat then c.toNat - 87 else c.toNat - 55

/-- Value of a run of hexadecimal digits, most significant first. -/
def hexVal (t : List Char) : Nat :=
  t.foldl (fun a c => a * 16 + hexCharVal c) 0

/-- An octet of a hardware address as text: one or two hexadecimal digits of
either case (so one digit only for values below 16). -/
def isHexOctetText (t : List Char) : Bool :=
  (t.length == 1 || t.length == 2) && t.all isHexChar

/-- The uppercase hexadecimal digit of a value below 16. -/
def upperHexDigit (d : Nat) : Char :=
  if d < 10 then Char.ofNat (48 + d) else Char.ofNat (55 + d)

/-- A byte value as exactly two uppercase hexadecimal digits. -/
def upperHex2 (b : Nat) : List Char :=
  [upperHexDigit (b / 16), upperHexDigit (b % 16)]

/-- The separators of the written forms of a hardware address: `:` and `-`. -/
def isOctetSep (c : Char) : Bool := c = ':' || c = '-'

/-- What may follow the third octet: the end of the text, or a separator and
any remainder. -/
def isMacTail (r : List Char) : Bool :=
  match r with
  | [] => true
  | c :: _ => isOctetSep c

/-- The pieces of a text between the characters that satisfy `p`. -/
def splitWhere (p : Char → Bool) : List Char → List (List Char)
  | [] => [[]]
  | c :: s =>
    if p c then [] :: splitWhere p s
    else
      match splitWhere p s with
      | [] => [[c]]
      | f :: fs => (c :: f) :: fs

/-- The tokens of a hardware-address text: what is left, piece by piece, when
the text is split on `:`, `-`, `.` and white space (empty pieces dropped). -/
def macRuns (m : List Char) : List (List Char) :=
  (splitWhere isMacSep m).filter fun t => !t.isEmpty

/-- A hex numeral of a byte: a non-empty run of hexadecimal digits and nothing
else, of value 0..255. -/
def isHexByteText (t : List Char) : Bool :=
  !t.isEmpty && t.all isHexChar && decide (hexVal t ≤ 255)

/-- A token as the code really reads it: base-16 `strtol` converts a leading
numeral (an optional sign and an optional `0x` allowed) to a value 0..255;
what follows the numeral inside the token is not looked at. -/
def startsWithHexByte (t : List Char) : Bool :=
  match strtol t 16 with
  | none => false
  | some (v, _) => decide (0 ≤ v ∧ v ≤ 255)

/-- White space that does not end a line. -/
def isLineSpace (c : Char) : Bool := isspace c && c != '\n'

/-- An octet of an OUI token: exactly two hexadecimal digits of either case. -/
def isTwoHex (o : List Char) : Bool := o.length == 2 && o.all isHexChar

/-- A vendor text: not empty, within one line, without leading or trailing
white space. -/
def isVendorText (v : List Char) : Bool :=
  !v.isEmpty && v.all (· != '\n') && (v.head?.map isspace != some true)
    && (v.getLast?.map isspace != some true)

/-- A record line of the tagged form: optional leading white space, the token
`o1-o2-o3`, white space, the marker `(hex)`, white space, the vendor text, and
the end of the line. -/
def hexRecordLine (ws0 o1 o2 o3 ws1 ws2 v eol : List Char) : List Char :=
  ws0 ++ (o1 ++ '-' :: (o2 ++ '-' :: (o3 ++ (ws1 ++ ("(hex)".toList ++ (ws2 ++ (v ++ eol)))))))

/-- A text with leading and trailing white space removed. -/
def trimSpace (t : List Char) : List Char :=
  ((t.dropWhile isspace).reverse.dropWhile isspace).reverse

/-- A line as `fgets` can deliver it: not empty, at most 1023 characters, and
without a newline except as its last character; a line without a final newline
ends the file. -/
def isFileLine (line post : List Char) : Prop :=
  line ≠ [] ∧ line.length ≤ 1023 ∧
    ((∃ body, line = body ++ ['\n'] ∧ ∀ c ∈ body, c ≠ '\n') ∨
      ((∀ c ∈ line, c ≠ '\n') ∧ post = []))

/-- A file made of `n` copies of one line. -/
def repeatLine (line : List Char) : Nat → List Char
  | 0 => []
  | n + 1 => line ++ repeatLine line n

/-- The first token of a text: after leading white space, the characters up
to the next white space. -/
def firstToken (s : List Char) : List Char :=
  (s.dropWhile isspace).takeWhile fun c => !isspace c

/-- The tokens of a line delimited by white space. -/
def wsTokens (s : List Char) : List (List Char) :=
  (splitWhere isspace s).filter fun t => !t.isEmpty

/-- The token that follows the first token equal to `name`, if any. -/
def tokenAfter (name : List Char) : List (List Char) → Option (List Char)
  | a :: b :: r => if a = name then some b else tokenAfter name (b :: r)
  | _ => none

/-- The text between the first `(` of a line and the next `)`, or the end of
the line when no `)` follows (empty when the line has no `(`). -/
def parenText (line : List Char) : List Char :=
  (line.dropWhile fun c => c != '(').tail.takeWhile fun c => c != ')'

/-! ## Lemmas on the library functions -/

theorem baseDigit_ten_of_isdigit {c : Char} (h : isdigit c = true) :
    baseDigit 10 c = some (c.toNat - 48) := by
  simp only [isdigit, Bool.and_eq_true, decide_eq_true_eq] at h
  have h2 : c.toNat - 48 < 10 := by omega
  simp [baseDigit, digitVal, h.1, h.2, h2]

theorem baseDigit_ten_of_not_isdigit {c : Char} (h : isdigit c = false) :
    baseDigit 10 c = none := by
  simp only [isdigit, Bool.and_eq_false_iff, decide_eq_false_iff_not] at h
  unfold baseDigit digitVal
  split_ifs <;> simp_all

theorem baseDigit_ten_isSome (c : Char) : (baseDigit 10 c).isSome = isdigit c := by
  cases h : isdigit c
  · simp [baseDigit_ten_of_not_isdigit h]
  · simp [baseDigit_ten_of_isdigit h]

/-- The digit loop reads exactly the leading run of digits of the base. -/
theorem strtolDigits_eq (base : Nat) (s : List Char) (acc : Nat) :
    strtolDigits base s acc =
      ((s.takeWhile fun c => (baseDigit base c).isSome).foldl
          (fun a c => a * base + (baseDigit base c).getD 0) acc,
        s.dropWhile fun c => (baseDigit base c).isSome) := by
  induction s generalizing acc with
  | nil => simp [strtolDigits]
  | cons c s ih =>
    cases h : baseDigit base c with
    | none => simp [strtolDigits, h, List.takeWhile_cons, List.dropWhile_cons]
    | some d => simp [strtolDigits, h, List.takeWhile_cons, List.dropWhile_cons, ih]

theorem takeWhile_isdigit_eq (s : List Char) :
    (s.takeWhile fun c => (baseDigit 10 c).isSome) = s.takeWhile isdigit := by
  congr 1
  funext c
  exact baseDigit_ten_isSome c

theorem dropWhile_isdigit_eq (s : List Char) :
    (s.dropWhile fun c => (baseDigit 10 c).isSome) = s.dropWhile isdigit := by
  congr 1
  funext c
  exact baseDigit_ten_isSome c

theorem foldl_digits_eq (ds : List Char) (h : ∀ c ∈ ds, isdigit c = true) (acc : Nat) :
    ds.foldl (fun a c => a * 10 + (baseDigit 10 c).getD 0) acc
      = ds.foldl (fun a c => a * 10 + (c.toNat - 48)) acc := by
  induction ds generalizing acc with
  | nil => rfl
  | cons c ds ih =>
    have hc := h c (List.mem_cons_self _ _)
    simp only [List.foldl_cons, baseDigit_ten_of_isdigit hc, Option.getD_some]
    exact ih (fun x hx => h x (List.mem_cons_of_mem _ hx)) _

/-- In base 10 the digit loop yields the value of the leading digit run. -/
theorem strtolDigits_ten (s : List Char) :
    strtolDigits 10 s 0 = (decVal (s.takeWhile isdigit), s.dropWhile isdigit) := by
  rw [strtolDigits_eq, takeWhile_isdigit_eq, dropWhile_isdigit_eq, foldl_digits_eq]
  · rfl
  · intro c hc
    exact (List.mem_takeWhile_imp hc)

theorem strtolHexPrefix_ten (s : List Char) : strtolHexPrefix 10 s = s := by
  unfold strtolHexPrefix
  split <;> simp

theorem char_ne_of_toNat_ne {c d : Char} (h : c.toNat ≠ d.toNat) : c ≠ d :=
  fun e => h (congrArg Char.toNat e)

theorem isspace_of_isdigit {c : Char} (h : isdigit c = true) : isspace c = false := by
  simp only [isdigit, Bool.and_eq_true, decide_eq_true_eq] at h
  simp only [isspace, Bool.or_eq_false_iff, decide_eq_false_iff_not, Bool.and_eq_false_iff]
  omega

theorem strtolSign_of_isdigit {c : Char} (h : isdigit c = true) (s : List Char) :
    strtolSign (c :: s) = (false, c :: s) := by
  simp only [isdigit, Bool.and_eq_true, decide_eq_true_eq] at h
  have h1 : c ≠ '-' := char_ne_of_toNat_ne (by simp; omega)
  have h2 : c ≠ '+' := char_ne_of_toNat_ne (by simp; omega)
  simp [strtolSign, h1, h2]

theorem takeWhile_run (p : Char → Bool) (ds rest : List Char)
    (h : ∀ c ∈ ds, p c = true) (hr : stopsAt p rest) :
    (ds ++ rest).takeWhile p = ds ∧ (ds ++ rest).dropWhile p = rest := by
  induction ds with
  | nil =>
    cases rest with
    | nil => simp
    | cons c r =>
      have := hr c (by simp)
      simp [List.takeWhile_cons, List.dropWhile_cons, this]
  | cons c ds ih =>
    have hc := h c (List.mem_cons_self _ _)
    have := ih (fun x hx => h x (List.mem_cons_of_mem _ hx))
    simp [List.takeWhile_cons, List.dropWhile_cons, hc, this]

theorem clampLong_of_small {v : Int} (h1 : -256 ≤ v) (h2 : v ≤ 256) : clampLong v = v := by
  unfold clampLong LONG_MAX LONG_MIN
  split_ifs <;> omega

/-- On a non-empty digit run followed by a non-digit (or the end), base-10
`strtol` returns the value of the run and stops right after it. -/
theorem strtol_ten_run (ds rest : List Char) (hne : ds ≠ [])
    (h : ∀ c ∈ ds, isdigit c = true) (hr : stopsAt isdigit rest) :
    strtol (ds ++ rest) 10 = some (clampLong (decVal ds), rest) := by
  obtain ⟨c, t, rfl⟩ := List.exists_cons_of_ne_nil hne
  have hc := h c (List.mem_cons_self _ _)
  have hrun := takeWhile_run isdigit (c :: t) rest h hr
  have hd : (c :: t ++ rest).dropWhile isspace = c :: (t ++ rest) := by
    simp [List.dropWhile_cons, isspace_of_isdigit hc]
  unfold strtol
  simp only [hd, strtolSign_of_isdigit hc, strtolHexPrefix_ten, baseDigit_ten_isSome, hc,
    if_true, strtolDigits_ten]
  rw [← List.cons_append, hrun.1, hrun.2]
  simp

theorem parse_octet_run (ds rest : List Char) (hne : ds ≠ [])
    (h : ∀ c ∈ ds, isdigit c = true) (hr : stopsAt isdigit rest) (hv : decVal ds ≤ 255) :
    parse_octet (ds ++ rest) = some (decVal ds, rest) := by
  unfold parse_octet
  rw [strtol_ten_run ds rest hne h hr, clampLong_of_small (by omega) (by omega)]
  have : ¬ ((decVal ds : Int) < 0 ∨ (decVal ds : Int) > 255) := by omega
  simp [hv]

/-! ## Decimal output -/

theorem decVal_append_singleton (ds : List Char) (c : Char) :
    decVal (ds ++ [c]) = decVal ds * 10 + (c.toNat - 48) := by
  simp [decVal, List.foldl_append]

theorem foldl_dec_ge (ds : List Char) (acc : Nat) :
    acc ≤ ds.foldl (fun a c => a * 10 + (c.toNat - 48)) acc := by
  induction ds generalizing acc with
  | nil => simp
  | cons c ds ih =>
    simp only [List.foldl_cons]
    exact le_trans (by omega) (ih _)

theorem decVal_pos {c : Char} (t : List Char) (hc : isdigit c = true) (h0 : c ≠ '0') :
    1 ≤ decVal (c :: t) := by
  simp only [isdigit, Bool.and_eq_true, decide_eq_true_eq] at hc
  have hne : c.toNat ≠ 48 := fun e => h0 (by rw [← Char.ofNat_toNat c, e])
  have := foldl_dec_ge t (0 * 10 + (c.toNat - 48))
  simp only [decVal, List.foldl_cons]
  omega

theorem ofNat_digit {c : Char} (hc : isdigit c = true) :
    Char.ofNat (48 + (c.toNat - 48)) = c := by
  simp only [isdigit, Bool.and_eq_true, decide_eq_true_eq] at hc
  have : 48 + (c.toNat - 48) = c.toNat := by omega
  rw [this, Char.ofNat_toNat]

/-- Printing the value of a digit run without a leading zero gives the run
back, whenever the fuel covers the value. -/
theorem decAux_decVal (ds : List Char) :
    ds ≠ [] → (∀ c ∈ ds, isdigit c = true) → ds.head? ≠ some '0' →
    ∀ fuel acc, decVal ds < 10 ^ fuel → decAux fuel (decVal ds) acc = ds ++ acc := by
  induction ds using List.reverseRecOn with
  | nil => intro h; exact absurd rfl h
  | append_singleton ds c ih =>
    intro _ hd h0 fuel acc hlt
    have hc : isdigit c = true := hd c (by simp)
    have hcr : c.toNat - 48 < 10 := by
      simp only [isdigit, Bool.and_eq_true, decide_eq_true_eq] at hc
      omega
    rw [decVal_append_singleton] at hlt ⊢
    cases ds with
    | nil =>
      have hv : decVal [] = 0 := rfl
      have hc0 : c.toNat ≠ 48 := fun e => h0 (by rw [← Char.ofNat_toNat c, e]; rfl)
      have hcpos : 1 ≤ c.toNat - 48 := by
        simp only [isdigit, Bool.and_eq_true, decide_eq_true_eq] at hc
        omega
      cases fuel with
      | zero => simp [hv] at hlt; omega
      | succ fuel =>
        simp only [hv, Nat.zero_mul, Nat.zero_add, decAux, hcr, if_true, ofNat_digit hc,
          List.nil_append, List.singleton_append]
    | cons d t =>
      have hdd : isdigit d = true := hd d (by simp)
      have hd0 : d ≠ '0' := by
        intro e
        apply h0
        simp [e]
      have hpos := decVal_pos t hdd hd0
      cases fuel with
      | zero => simp at hlt; omega
      | succ fuel =>
        have hge : ¬ (decVal (d :: t) * 10 + (c.toNat - 48) < 10) := by omega
        have hdiv : (decVal (d :: t) * 10 + (c.toNat - 48)) / 10 = decVal (d :: t) := by omega
        have hmod : (decVal (d :: t) * 10 + (c.toNat - 48)) % 10 = c.toNat - 48 := by omega
        have hlt2 : decVal (d :: t) < 10 ^ fuel := by
          rw [pow_succ] at hlt
          omega
        simp only [decAux, hge, if_false, hdiv, hmod, ofNat_digit hc]
        rw [ih (by simp) (fun x hx => hd x (by simp [List.mem_append] at hx ⊢; tauto))
          (by simpa using hd0) fuel _ hlt2]
        simp

/-- Printing the value of a canonical octet text gives the text back. -/
theorem fmtU_decVal (ds : List Char) (h : isOctetText ds = true) : fmtU (decVal ds) = ds := by
  simp only [isOctetText, Bool.and_eq_true, Bool.not_eq_true', List.isEmpty_eq_false,
    List.all_eq_true, Bool.or_eq_true, bne_iff_ne, ne_eq, beq_iff_eq, decide_eq_true_eq] at h
  obtain ⟨⟨⟨hne, hd⟩, hz⟩, hv⟩ := h
  by_cases h0 : ds.head? = some '0'
  · have hlen : ds.length = 1 := by tauto
    match ds, hlen, h0 with
    | [c], _, h0 =>
      simp only [List.head?_cons, Option.some.injEq] at h0
      subst h0
      rfl
  · have := decAux_decVal ds hne hd h0 10 [] (by omega)
    simpa [fmtU] using this

/-! ## Packing and unpacking octets -/

theorem pack_eq {a b c d : Nat} (hb : b < 256) (hc : c < 256) (hd : d < 256) :
    ((a <<< 24) ||| (b <<< 16) ||| (c <<< 8) ||| d)
      = a * 16777216 + b * 65536 + c * 256 + d := by
  have e1 : (a <<< 24) ||| (b <<< 16) = a * 16777216 + b * 65536 := by
    have := Nat.mul_add_lt_is_or (i := 24) (b := b <<< 16)
      (by rw [Nat.shiftLeft_eq]; omega) a
    rw [Nat.shiftLeft_eq a 24, show a * 2 ^ 24 = 2 ^ 24 * a by ring, ← this, Nat.shiftLeft_eq]
    omega
  have e2 : (a * 16777216 + b * 65536) ||| (c <<< 8) = a * 16777216 + b * 65536 + c * 256 := by
    have := Nat.mul_add_lt_is_or (i := 16) (b := c <<< 8)
      (by rw [Nat.shiftLeft_eq]; omega) (a * 256 + b)
    rw [show a * 16777216 + b * 65536 = 2 ^ 16 * (a * 256 + b) by omega, ← this,
      Nat.shiftLeft_eq]
  have e3 : (a * 16777216 + b * 65536 + c * 256) ||| d
      = a * 16777216 + b * 65536 + c * 256 + d := by
    have := Nat.mul_add_lt_is_or (i := 8) (b := d) (by omega) (a * 65536 + b * 256 + c)
    rw [show a * 16777216 + b * 65536 + c * 256 = 2 ^ 8 * (a * 65536 + b * 256 + c) by omega,
      ← this]
  rw [e1, e2, e3]

theorem shift_mask (ip k : Nat) : (ip >>> k) &&& 0xFF = ip / 2 ^ k % 256 := by
  rw [Nat.shiftRight_eq_div_pow]
  exact Nat.and_pow_two_sub_one_eq_mod _ 8

theorem uint32_to_ipstr_eq (ip : Nat) :
    uint32_to_ipstr ip = dotted (fmtU (ip / 16777216 % 256)) (fmtU (ip / 65536 % 256))
      (fmtU (ip / 256 % 256)) (fmtU (ip % 256)) := by
  have h0 : ip &&& 0xFF = ip % 256 := Nat.and_pow_two_sub_one_eq_mod _ 8
  simp only [uint32_to_ipstr, dotted, shift_mask, h0]
  norm_num

/-! ## The address parser on well-formed text -/

theorem stopsAt_dot (rest : List Char) : stopsAt isdigit ('.' :: rest) := by
  intro c hc
  simp only [List.head?_cons, Option.mem_def, Option.some.injEq] at hc
  subst hc
  decide

theorem stopsAt_nil (p : Char → Bool) : stopsAt p [] := by
  intro c hc
  simp at hc

theorem isOctetText_parts {ds : List Char} (h : isOctetText ds = true) :
    ds ≠ [] ∧ (∀ c ∈ ds, isdigit c = true) ∧ decVal ds ≤ 255 := by
  simp only [isOctetText, Bool.and_eq_true, Bool.not_eq_true', List.isEmpty_eq_false,
    List.all_eq_true, Bool.or_eq_true, bne_iff_ne, ne_eq, beq_iff_eq, decide_eq_true_eq] at h
  exact ⟨h.1.1.1, h.1.1.2, h.2⟩

/-- Four digit runs of value at most 255 joined by dots parse to their packed
value. -/
theorem ipstr_to_uint32_dotted (a b c d : List Char)
    (ha : a ≠ [] ∧ (∀ x ∈ a, isdigit x = true) ∧ decVal a ≤ 255)
    (hb : b ≠ [] ∧ (∀ x ∈ b, isdigit x = true) ∧ decVal b ≤ 255)
    (hc : c ≠ [] ∧ (∀ x ∈ c, isdigit x = true) ∧ decVal c ≤ 255)
    (hd : d ≠ [] ∧ (∀ x ∈ d, isdigit x = true) ∧ decVal d ≤ 255) :
    ipstr_to_uint32 (dotted a b c d)
      = some (decVal a * 16777216 + decVal b * 65536 + decVal c * 256 + decVal d) := by
  have pa := parse_octet_run a _ ha.1 ha.2.1 (stopsAt_dot (b ++ '.' :: (c ++ '.' :: d))) ha.2.2
  have pb := parse_octet_run b _ hb.1 hb.2.1 (stopsAt_dot (c ++ '.' :: d)) hb.2.2
  have pc := parse_octet_run c _ hc.1 hc.2.1 (stopsAt_dot d) hc.2.2
  have pd := parse_octet_run d [] hd.1 hd.2.1 (stopsAt_nil _) hd.2.2
  rw [List.append_nil] at pd
  have hb2 : decVal b < 256 := by omega
  have hc2 : decVal c < 256 := by omega
  have hd2 : decVal d < 256 := by omega
  simp only [ipstr_to_uint32, dotted, ipstr_octets, pa, pb, pc, pd]
  simp only [Nat.lt_irrefl, if_false, if_true, Nat.zero_lt_succ, Nat.zero_lt_one, pack_eq hb2 hc2 hd2,
    Nat.reduceLT]
  congr 1
  omega

/-! ## Exact behaviour of `parse_octet` -/

theorem clampLong_neg_iff (v : Int) : clampLong v < 0 ↔ v < 0 := by
  unfold clampLong LONG_MAX LONG_MIN
  split_ifs <;> omega

theorem clampLong_gt_iff (v : Int) : clampLong v > 255 ↔ v > 255 := by
  unfold clampLong LONG_MAX LONG_MIN
  split_ifs <;> omega

theorem takeWhile_eq_nil_iff_head (p : Char → Bool) (s : List Char) :
    s.takeWhile p = [] ↔ ∀ c ∈ s.head?, p c = false := by
  cases s with
  | nil => simp
  | cons c s =>
    cases h : p c <;> simp [List.takeWhile_cons, h]

/-- Base-10 `strtol` in closed form: white space is dropped, one sign is taken,
and the conversion succeeds exactly when a digit follows. -/
theorem strtol_ten_eq (p : List Char) :
    strtol p 10 =
      if (strtolSign (p.dropWhile isspace)).2.takeWhile isdigit = [] then none
      else some (clampLong (if (strtolSign (p.dropWhile isspace)).1
          then -(decVal ((strtolSign (p.dropWhile isspace)).2.takeWhile isdigit) : Int)
          else (decVal ((strtolSign (p.dropWhile isspace)).2.takeWhile isdigit) : Int)),
        (strtolSign (p.dropWhile isspace)).2.dropWhile isdigit) := by
  unfold strtol
  simp only [strtolHexPrefix_ten, strtolDigits_ten, baseDigit_ten_isSome]
  cases h : (strtolSign (p.dropWhile isspace)).2 with
  | nil => simp
  | cons c s =>
    cases hc : isdigit c <;> simp [List.takeWhile_cons, hc]

/-- Source `parse_octet` in closed form: it succeeds exactly when, after white
space and one optional sign, a digit run follows whose signed value is in
0..255. -/
theorem parse_octet_eq (p : List Char) :
    parse_octet p =
      if (strtolSign (p.dropWhile isspace)).2.takeWhile isdigit ≠ [] ∧
          (if (strtolSign (p.dropWhile isspace)).1
            then decVal ((strtolSign (p.dropWhile isspace)).2.takeWhile isdigit) = 0
            else decVal ((strtolSign (p.dropWhile isspace)).2.takeWhile isdigit) ≤ 255)
      then some (decVal ((strtolSign (p.dropWhile isspace)).2.takeWhile isdigit),
        (strtolSign (p.dropWhile isspace)).2.dropWhile isdigit)
      else none := by
  unfold parse_octet
  rw [strtol_ten_eq]
  generalize (strtolSign (p.dropWhile isspace)).1 = neg
  generalize (strtolSign (p.dropWhile isspace)).2 = t
  by_cases hnil : t.takeWhile isdigit = []
  · simp [hnil]
  · simp only [hnil, if_false, ne_eq, not_false_eq_true, true_and, clampLong_neg_iff,
      clampLong_gt_iff]
    cases neg
    · simp only [Bool.false_eq_true, if_false]
      by_cases hv : decVal (t.takeWhile isdigit) ≤ 255
      · have : ¬ ((decVal (t.takeWhile isdigit) : Int) < 0 ∨
            (decVal (t.takeWhile isdigit) : Int) > 255) := by omega
        rw [if_neg this, if_pos hv, clampLong_of_small (by omega) (by omega)]
        simp
      · have : ((decVal (t.takeWhile isdigit) : Int) < 0 ∨
            (decVal (t.takeWhile isdigit) : Int) > 255) := by omega
        rw [if_pos this, if_neg hv]
    · simp only [if_true]
      by_cases hv : decVal (t.takeWhile isdigit) = 0
      · simp [hv, clampLong_of_small]
      · have : (-(decVal (t.takeWhile isdigit) : Int) < 0 ∨
            -(decVal (t.takeWhile isdigit) : Int) > 255) := by omega
        rw [if_pos this, if_neg hv]

/-! ## Fields and splitting -/

theorem strtolSign_eq (s : List Char) :
    strtolSign s = (decide (s.head? = some '-'),
      if s.head? = some '-' ∨ s.head? = some '+' then s.tail else s) := by
  cases s with
  | nil => simp [strtolSign]
  | cons c s =>
    by_cases h1 : c = '-'
    · simp [strtolSign, h1]
    · by_cases h2 : c = '+'
      · subst h2
        simp [strtolSign]
      · simp [strtolSign, h1, h2]

theorem all_iff_dropWhile_nil (p : Char → Bool) (t : List Char) :
    t.all p = true ↔ t.dropWhile p = [] := by
  induction t with
  | nil => simp
  | cons c t ih =>
    cases h : p c <;> simp [List.dropWhile_cons, h, ih]

theorem takeWhile_of_all (p : Char → Bool) (t : List Char) (h : t.all p = true) :
    t.takeWhile p = t := by
  induction t with
  | nil => simp
  | cons c t ih =>
    simp only [List.all_cons, Bool.and_eq_true] at h
    simp [List.takeWhile_cons, h.1, ih h.2]

theorem lax_core (neg : Prop) [Decidable neg] (t : List Char) :
    (!t.isEmpty && t.all isdigit &&
        (if neg then decide (decVal t = 0) else decide (decVal t ≤ 255))) = true ↔
      ∃ o, (if t.takeWhile isdigit ≠ [] ∧
              (if decide neg = true then decVal (t.takeWhile isdigit) = 0
                else decVal (t.takeWhile isdigit) ≤ 255)
            then some (decVal (t.takeWhile isdigit), t.dropWhile isdigit)
            else none) = some (o, []) := by
  by_cases hall : t.all isdigit = true
  · have h1 := takeWhile_of_all _ _ hall
    have h2 := (all_iff_dropWhile_nil _ _).1 hall
    simp only [h1, h2, hall]
    by_cases hn : neg <;> by_cases ht : t = [] <;> simp [hn, ht]
  · have h2 : t.dropWhile isdigit ≠ [] := fun e => hall ((all_iff_dropWhile_nil _ _).2 e)
    have hall2 : t.all isdigit = false := by simpa using hall
    simp only [hall2, Bool.and_false, Bool.false_and, Bool.false_eq_true, false_iff, not_exists]
    intro o
    split_ifs <;> simp [h2]

/-- A field is lax exactly when `parse_octet` accepts it and consumes it
entirely. -/
theorem isLaxField_iff (f : List Char) :
    isLaxField f = true ↔ ∃ o, parse_octet f = some (o, []) := by
  rw [parse_octet_eq, strtolSign_eq]
  exact lax_core _ _

theorem stopsAt_dropWhile (p : Char → Bool) (l : List Char) : stopsAt p (l.dropWhile p) := by
  induction l with
  | nil => exact stopsAt_nil p
  | cons c l ih =>
    cases h : p c
    · intro x hx
      simp only [List.dropWhile_cons, h, Bool.false_eq_true, if_false, List.head?_cons,
        Option.mem_def, Option.some.injEq] at hx
      rw [← hx]
      exact h
    · simpa [List.dropWhile_cons, h] using ih

theorem dropWhile_append_of_ne (p : Char → Bool) (f r : List Char) (h : f.dropWhile p ≠ []) :
    (f ++ r).dropWhile p = f.dropWhile p ++ r := by
  induction f with
  | nil => simp at h
  | cons c f ih =>
    cases hc : p c
    · simp [List.dropWhile_cons, hc]
    · simp only [List.dropWhile_cons, hc, if_true, List.cons_append] at h ⊢
      exact ih h

theorem strtolSign_append (s r : List Char) (h : s ≠ []) :
    strtolSign (s ++ r) = ((strtolSign s).1, (strtolSign s).2 ++ r) := by
  cases s with
  | nil => exact absurd rfl h
  | cons c s =>
    simp only [List.cons_append, strtolSign]
    split_ifs <;> simp

theorem strtolSign_snd_ne_nil (s : List Char) (h : (strtolSign s).2 ≠ []) : s ≠ [] := by
  intro e
  subst e
  exact h rfl

/-- What `parse_octet` accepts as a whole text it also accepts in front of any
text that does not start with a digit, stopping right there. -/
theorem parse_octet_append (f rest : List Char) (o : Nat)
    (h : parse_octet f = some (o, [])) (hr : stopsAt isdigit rest) :
    parse_octet (f ++ rest) = some (o, rest) := by
  rw [parse_octet_eq] at h ⊢
  have hs : f.dropWhile isspace ≠ [] := by
    intro e
    rw [e] at h
    simp [strtolSign] at h
  rw [dropWhile_append_of_ne _ _ _ hs, strtolSign_append _ _ hs]
  generalize (strtolSign (f.dropWhile isspace)).1 = neg at h ⊢
  generalize (strtolSign (f.dropWhile isspace)).2 = t at h ⊢
  by_cases hc : t.takeWhile isdigit ≠ [] ∧
      (if neg = true then decVal (t.takeWhile isdigit) = 0 else decVal (t.takeWhile isdigit) ≤ 255)
  · rw [if_pos hc] at h
    simp only [Option.some.injEq, Prod.mk.injEq] at h
    obtain ⟨ho, hd⟩ := h
    have hall := (all_iff_dropWhile_nil isdigit _).2 hd
    have hrun := takeWhile_run isdigit t rest (by simpa using hall) hr
    have htk := takeWhile_of_all _ _ hall
    simp only [hrun.1, hrun.2]
    rw [htk] at hc ho
    rw [if_pos hc, ho]
  · rw [if_neg hc] at h
    cases h

theorem all_takeWhile (p : Char → Bool) (t : List Char) : (t.takeWhile p).all p = true := by
  rw [List.all_eq_true]
  intro c hc
  exact List.mem_takeWhile_imp hc

theorem stopsAt_isspace_digits (ds : List Char) (h : ∀ c ∈ ds, isdigit c = true) :
    stopsAt isspace ds := by
  intro c hc
  cases ds with
  | nil => simp at hc
  | cons d ds =>
    simp only [List.head?_cons, Option.mem_def, Option.some.injEq] at hc
    subst hc
    exact isspace_of_isdigit (h _ (List.mem_cons_self _ _))

/-- The sign stage of `strtol`, cut at the end of the digit run. -/
theorem sign_stage (s : List Char)
    (hne : (strtolSign s).2.takeWhile isdigit ≠ []) :
    ∃ pre, s = pre ++ (strtolSign s).2 ∧ (∀ c ∈ pre, c = '-' ∨ c = '+') ∧
      stopsAt isspace (pre ++ (strtolSign s).2.takeWhile isdigit) ∧
      strtolSign (pre ++ (strtolSign s).2.takeWhile isdigit)
        = ((strtolSign s).1, (strtolSign s).2.takeWhile isdigit) := by
  cases s with
  | nil => simp [strtolSign] at hne
  | cons c r =>
    by_cases h1 : c = '-'
    · subst h1
      refine ⟨['-'], by simp [strtolSign], by simp, ?_, by simp [strtolSign]⟩
      intro x hx
      simp only [List.singleton_append, List.head?_cons, Option.mem_def,
        Option.some.injEq] at hx
      subst hx
      decide
    · by_cases h2 : c = '+'
      · subst h2
        refine ⟨['+'], by simp [strtolSign], by simp, ?_, by simp [strtolSign]⟩
        intro x hx
        simp only [List.singleton_append, List.head?_cons, Option.mem_def,
          Option.some.injEq] at hx
        subst hx
        decide
      · have hs : strtolSign (c :: r) = (false, c :: r) := by simp [strtolSign, h1, h2]
        rw [hs] at hne ⊢
        have hd : ∀ x ∈ (c :: r).takeWhile isdigit, isdigit x = true :=
          fun x hx => List.mem_takeWhile_imp hx
        refine ⟨[], by simp, by simp, ?_, ?_⟩
        · simpa using stopsAt_isspace_digits _ hd
        · obtain ⟨d, t, hdt⟩ := List.exists_cons_of_ne_nil hne
          simp only [List.nil_append]
          rw [hdt]
          exact strtolSign_of_isdigit (hd d (by rw [hdt]; exact List.mem_cons_self _ _)) t

/-- Whatever `parse_octet` accepts splits into a field it accepts as a whole
text, free of dots, and the rest, which does not start with a digit. -/
theorem parse_octet_split (p e : List Char) (o : Nat) (h : parse_octet p = some (o, e)) :
    ∃ f, p = f ++ e ∧ parse_octet f = some (o, []) ∧ (∀ c ∈ f, c ≠ '.' ∧ c ≠ '/') ∧
      stopsAt isdigit e := by
  rw [parse_octet_eq] at h
  by_cases hc : (strtolSign (p.dropWhile isspace)).2.takeWhile isdigit ≠ [] ∧
      (if (strtolSign (p.dropWhile isspace)).1 = true
        then decVal ((strtolSign (p.dropWhile isspace)).2.takeWhile isdigit) = 0
        else decVal ((strtolSign (p.dropWhile isspace)).2.takeWhile isdigit) ≤ 255)
  swap
  · rw [if_neg hc] at h
    cases h
  rw [if_pos hc] at h
  simp only [Option.some.injEq, Prod.mk.injEq] at h
  obtain ⟨ho, he⟩ := h
  obtain ⟨pre, hs, hpre, hstop, hsign⟩ := sign_stage (p.dropWhile isspace) hc.1
  generalize (strtolSign (p.dropWhile isspace)).1 = neg at hc hsign
  generalize ht : (strtolSign (p.dropWhile isspace)).2 = t at hc hsign hs hstop ho he
  have hws : ∀ c ∈ p.takeWhile isspace, isspace c = true := fun c hc => List.mem_takeWhile_imp hc
  have hrun := takeWhile_run isspace (p.takeWhile isspace) (pre ++ t.takeWhile isdigit) hws hstop
  have hall := all_takeWhile isdigit t
  refine ⟨p.takeWhile isspace ++ (pre ++ t.takeWhile isdigit), ?_, ?_, ?_, ?_⟩
  · rw [← he, List.append_assoc, List.append_assoc, List.takeWhile_append_dropWhile, ← hs,
      List.takeWhile_append_dropWhile]
  · rw [parse_octet_eq, hrun.2, hsign]
    simp only [takeWhile_of_all _ _ hall, (all_iff_dropWhile_nil _ _).1 hall]
    rw [if_pos hc, ho]
  · intro c hc
    rw [List.mem_append, List.mem_append] at hc
    rcases hc with hc | hc | hc
    · have := hws c hc
      constructor <;> intro e0 <;> rw [e0] at this <;> exact absurd this (by decide)
    · rcases hpre c hc with e0 | e0 <;> rw [e0] <;> decide
    · have : isdigit c = true := List.mem_takeWhile_imp hc
      constructor <;> intro e0 <;> rw [e0] at this <;> exact absurd this (by decide)
  · rw [← he]
    exact stopsAt_dropWhile _ _

theorem splitOnChar_ne_nil (sep : Char) (t : List Char) : splitOnChar sep t ≠ [] := by
  cases t with
  | nil => simp [splitOnChar]
  | cons c s =>
    unfold splitOnChar
    split_ifs
    · simp
    · split <;> simp

/-- Splitting is inverse to joining, and no field contains the separator. -/
theorem splitOnChar_spec (sep : Char) (t : List Char) :
    joinSep sep (splitOnChar sep t) = t ∧ ∀ f ∈ splitOnChar sep t, ∀ c ∈ f, c ≠ sep := by
  induction t with
  | nil => simp [splitOnChar, joinSep]
  | cons c s ih =>
    obtain ⟨g, gs, hg⟩ := List.exists_cons_of_ne_nil (splitOnChar_ne_nil sep s)
    rw [hg] at ih
    by_cases hc : c = sep
    · have e : splitOnChar sep (c :: s) = [] :: g :: gs := by simp [splitOnChar, hc, hg]
      rw [e]
      refine ⟨by simp [joinSep, ih.1, hc], ?_⟩
      intro f hf
      rcases List.mem_cons.1 hf with h | h
      · simp [h]
      · exact ih.2 f h
    · have e : splitOnChar sep (c :: s) = (c :: g) :: gs := by simp [splitOnChar, hc, hg]
      rw [e]
      constructor
      · cases gs with
        | nil => simpa [joinSep] using ih.1
        | cons g2 gs => simpa [joinSep] using ih.1
      · intro f hf
        rcases List.mem_cons.1 hf with h | h
        · subst h
          intro x hx
          rcases List.mem_cons.1 hx with h2 | h2
          · rw [h2]; exact hc
          · exact ih.2 g (List.mem_cons_self _ _) x h2
        · exact ih.2 f (List.mem_cons_of_mem _ h)

theorem splitOnChar_nosep (sep : Char) (f : List Char) (h : ∀ c ∈ f, c ≠ sep) :
    splitOnChar sep f = [f] := by
  induction f with
  | nil => rfl
  | cons c f ih =>
    have hc : c ≠ sep := h c (List.mem_cons_self _ _)
    simp [splitOnChar, hc, ih (fun x hx => h x (List.mem_cons_of_mem _ hx))]

theorem splitOnChar_append (sep : Char) (f rest : List Char) (h : ∀ c ∈ f, c ≠ sep) :
    splitOnChar sep (f ++ sep :: rest) = f :: splitOnChar sep rest := by
  induction f with
  | nil => simp [splitOnChar]
  | cons c f ih =>
    have hc : c ≠ sep := h c (List.mem_cons_self _ _)
    simp [splitOnChar, hc, ih (fun x hx => h x (List.mem_cons_of_mem _ hx))]

theorem splitOnChar_dotted (a b c d : List Char) (ha : ∀ x ∈ a, x ≠ '.')
    (hb : ∀ x ∈ b, x ≠ '.') (hc : ∀ x ∈ c, x ≠ '.') (hd : ∀ x ∈ d, x ≠ '.') :
    splitOnChar '.' (dotted a b c d) = [a, b, c, d] := by
  simp only [dotted]
  rw [splitOnChar_append _ _ _ ha, splitOnChar_append _ _ _ hb, splitOnChar_append _ _ _ hc,
    splitOnChar_nosep _ _ hd]

theorem dotted_of_split (t a b c d : List Char) (h : splitOnChar '.' t = [a, b, c, d]) :
    t = dotted a b c d := by
  have := (splitOnChar_spec '.' t).1
  rw [h] at this
  rw [← this]
  simp [joinSep, dotted]

/-! ## Exact behaviour of `ipstr_to_uint32` -/

theorem parse_octet_le (p e : List Char) (o : Nat) (h : parse_octet p = some (o, e)) :
    o ≤ 255 := by
  rw [parse_octet_eq] at h
  generalize (strtolSign (p.dropWhile isspace)).1 = neg at h
  generalize (strtolSign (p.dropWhile isspace)).2 = t at h
  by_cases hc : t.takeWhile isdigit ≠ [] ∧
      (if neg = true then decVal (t.takeWhile isdigit) = 0 else decVal (t.takeWhile isdigit) ≤ 255)
  · rw [if_pos hc] at h
    simp only [Option.some.injEq, Prod.mk.injEq] at h
    rw [← h.1]
    cases neg
    · simpa using hc.2
    · have := hc.2
      simp only [if_true] at this
      omega
  · rw [if_neg hc] at h
    cases h

/-- Four fields that `parse_octet` accepts as whole texts, joined by single
dots, parse to the packed value of their octets. -/
theorem ipstr_to_uint32_fields (f0 f1 f2 f3 : List Char) (o0 o1 o2 o3 : Nat)
    (h0 : parse_octet f0 = some (o0, [])) (h1 : parse_octet f1 = some (o1, []))
    (h2 : parse_octet f2 = some (o2, [])) (h3 : parse_octet f3 = some (o3, [])) :
    ipstr_to_uint32 (dotted f0 f1 f2 f3)
      = some (o0 * 16777216 + o1 * 65536 + o2 * 256 + o3) := by
  have pa := parse_octet_append f0 _ o0 h0 (stopsAt_dot (f1 ++ '.' :: (f2 ++ '.' :: f3)))
  have pb := parse_octet_append f1 _ o1 h1 (stopsAt_dot (f2 ++ '.' :: f3))
  have pc := parse_octet_append f2 _ o2 h2 (stopsAt_dot f3)
  have l0 := parse_octet_le _ _ _ h0
  have l1 := parse_octet_le _ _ _ h1
  have l2 := parse_octet_le _ _ _ h2
  have l3 := parse_octet_le _ _ _ h3
  simp only [ipstr_to_uint32, dotted, ipstr_octets, pa, pb, pc, h3]
  simp only [Nat.lt_irrefl, if_false, if_true, Nat.zero_lt_succ, Nat.zero_lt_one,
    pack_eq (show o1 < 256 by omega) (show o2 < 256 by omega) (show o3 < 256 by omega),
    Nat.reduceLT]
  congr 1
  omega

/-- One iteration of the loop of `ipstr_to_uint32` that is followed by
another: an octet, a dot, and the remaining iterations. -/
theorem ipstr_octets_step (n : Nat) (p e : List Char) (os : List Nat)
    (h : ipstr_octets (n + 2) p = some (os, e)) :
    ∃ o p2 os2, parse_octet p = some (o, '.' :: p2) ∧
      ipstr_octets (n + 1) p2 = some (os2, e) ∧ os = o :: os2 := by
  rw [ipstr_octets] at h
  cases hp : parse_octet p with
  | none => simp [hp] at h
  | some r =>
    obtain ⟨o, p1⟩ := r
    simp only [hp, Nat.zero_lt_succ, if_true] at h
    cases p1 with
    | nil => simp at h
    | cons c p2 =>
      by_cases hc : c = '.'
      · subst hc
        simp only [if_true] at h
        cases hr : ipstr_octets (n + 1) p2 with
        | none => simp [hr] at h
        | some r2 =>
          obtain ⟨os2, e2⟩ := r2
          simp only [hr, Option.some.injEq, Prod.mk.injEq] at h
          exact ⟨o, p2, os2, rfl, by rw [hr, h.2], h.1.symm⟩
      · simp [hc] at h

theorem ipstr_octets_last (p e : List Char) (os : List Nat)
    (h : ipstr_octets 1 p = some (os, e)) :
    ∃ o, parse_octet p = some (o, e) ∧ os = [o] := by
  rw [ipstr_octets] at h
  cases hp : parse_octet p with
  | none => simp [hp] at h
  | some r =>
    obtain ⟨o, p1⟩ := r
    simp only [hp, Nat.lt_irrefl, if_false, Option.some.injEq, Prod.mk.injEq] at h
    exact ⟨o, by rw [h.2], h.1.symm⟩

/-- Every accepted text is four dot-free fields joined by single dots, each
accepted by `parse_octet` as a whole text. -/
theorem ipstr_to_uint32_some (t : List Char) (v : Nat) (h : ipstr_to_uint32 t = some v) :
    ∃ f0 f1 f2 f3 o0 o1 o2 o3, t = dotted f0 f1 f2 f3 ∧
      ((∀ c ∈ f0, c ≠ '.' ∧ c ≠ '/') ∧ (∀ c ∈ f1, c ≠ '.' ∧ c ≠ '/') ∧
        (∀ c ∈ f2, c ≠ '.' ∧ c ≠ '/') ∧ (∀ c ∈ f3, c ≠ '.' ∧ c ≠ '/')) ∧
      (parse_octet f0 = some (o0, []) ∧ parse_octet f1 = some (o1, []) ∧
        parse_octet f2 = some (o2, []) ∧ parse_octet f3 = some (o3, [])) ∧
      v = o0 * 16777216 + o1 * 65536 + o2 * 256 + o3 := by
  cases hr : ipstr_octets 4 t with
  | none => simp [ipstr_to_uint32, hr] at h
  | some r =>
    obtain ⟨os, e⟩ := r
    obtain ⟨o0, p1, os1, h0, hr1, e1⟩ := ipstr_octets_step 2 t e os hr
    obtain ⟨o1, p2, os2, h1, hr2, e2⟩ := ipstr_octets_step 1 p1 e os1 hr1
    obtain ⟨o2, p3, os3, h2, hr3, e3⟩ := ipstr_octets_step 0 p2 e os2 hr2
    obtain ⟨o3, h3, e4⟩ := ipstr_octets_last p3 e os3 hr3
    subst e4 e3 e2 e1
    cases e with
    | cons c e => simp [ipstr_to_uint32, hr] at h
    | nil =>
      obtain ⟨f0, q0, a0, d0, _⟩ := parse_octet_split _ _ _ h0
      obtain ⟨f1, q1, a1, d1, _⟩ := parse_octet_split _ _ _ h1
      obtain ⟨f2, q2, a2, d2, _⟩ := parse_octet_split _ _ _ h2
      obtain ⟨f3, q3, a3, d3, _⟩ := parse_octet_split _ _ _ h3
      rw [List.append_nil] at q3
      have ht : t = dotted f0 f1 f2 f3 := by
        rw [q0, q1, q2, q3]
        rfl
      refine ⟨f0, f1, f2, f3, o0, o1, o2, o3, ht, ⟨d0, d1, d2, d3⟩, ⟨a0, a1, a2, a3⟩, ?_⟩
      have := ipstr_to_uint32_fields f0 f1 f2 f3 o0 o1 o2 o3 a0 a1 a2 a3
      rw [← ht, h] at this
      exact Option.some.inj this

theorem isLaxDotted_iff (t : List Char) :
    isLaxDotted t = true ↔ ∃ v, ipstr_to_uint32 t = some v := by
  constructor
  · intro h
    unfold isLaxDotted at h
    split at h
    · rename_i a b c d hs
      simp only [Bool.and_eq_true] at h
      obtain ⟨⟨⟨ha, hb⟩, hc⟩, hd⟩ := h
      obtain ⟨o0, h0⟩ := (isLaxField_iff a).1 ha
      obtain ⟨o1, h1⟩ := (isLaxField_iff b).1 hb
      obtain ⟨o2, h2⟩ := (isLaxField_iff c).1 hc
      obtain ⟨o3, h3⟩ := (isLaxField_iff d).1 hd
      rw [dotted_of_split t a b c d hs]
      exact ⟨_, ipstr_to_uint32_fields a b c d o0 o1 o2 o3 h0 h1 h2 h3⟩
    · cases h
  · rintro ⟨v, h⟩
    obtain ⟨f0, f1, f2, f3, o0, o1, o2, o3, ht, ⟨d0, d1, d2, d3⟩, ⟨a0, a1, a2, a3⟩, _⟩ :=
      ipstr_to_uint32_some t v h
    unfold isLaxDotted
    rw [ht, splitOnChar_dotted f0 f1 f2 f3 (fun c hc => (d0 c hc).1) (fun c hc => (d1 c hc).1)
      (fun c hc => (d2 c hc).1) (fun c hc => (d3 c hc).1)]
    simp only [Bool.and_eq_true]
    exact ⟨⟨⟨(isLaxField_iff f0).2 ⟨o0, a0⟩, (isLaxField_iff f1).2 ⟨o1, a1⟩⟩,
      (isLaxField_iff f2).2 ⟨o2, a2⟩⟩, (isLaxField_iff f3).2 ⟨o3, a3⟩⟩

theorem ipstr_to_uint32_lt (t : List Char) (v : Nat) (h : ipstr_to_uint32 t = some v) :
    v < 4294967296 := by
  obtain ⟨f0, f1, f2, f3, o0, o1, o2, o3, _, _, ⟨a0, a1, a2, a3⟩, hv⟩ :=
    ipstr_to_uint32_some t v h
  have l0 := parse_octet_le _ _ _ a0
  have l1 := parse_octet_le _ _ _ a1
  have l2 := parse_octet_le _ _ _ a2
  have l3 := parse_octet_le _ _ _ a3
  omega

theorem ipstr_to_uint32_no_slash (t : List Char) (v : Nat) (h : ipstr_to_uint32 t = some v) :
    ∀ c ∈ t, c ≠ '/' := by
  obtain ⟨f0, f1, f2, f3, o0, o1, o2, o3, ht, ⟨d0, d1, d2, d3⟩, _, _⟩ :=
    ipstr_to_uint32_some t v h
  intro c hc
  rw [ht] at hc
  simp only [dotted, List.mem_append, List.mem_cons] at hc
  rcases hc with hc | hc | hc | hc | hc | hc | hc
  · exact (d0 c hc).2
  · rw [hc]; decide
  · exact (d1 c hc).2
  · rw [hc]; decide
  · exact (d2 c hc).2
  · rw [hc]; decide
  · exact (d3 c hc).2

/-! ## Exact behaviour of `expand_cidr` -/

theorem strchr_eq (s : List Char) (c : Char) :
    strchr s c = if s.dropWhile (· != c) = [] then none else some (s.dropWhile (· != c)) := by
  induction s with
  | nil => simp [strchr]
  | cons x r ih =>
    by_cases h : x = c
    · simp [strchr, h, List.dropWhile_cons]
    · simp [strchr, h, List.dropWhile_cons, ih]

theorem length_sub_dropWhile (p : Char → Bool) (s : List Char) :
    s.length - (s.dropWhile p).length = (s.takeWhile p).length := by
  have h := congrArg List.length (List.takeWhile_append_dropWhile p s)
  rw [List.length_append] at h
  omega

theorem take_takeWhile_length (p : Char → Bool) (s : List Char) :
    s.take (s.takeWhile p).length = s.takeWhile p := by
  induction s with
  | nil => simp
  | cons c s ih =>
    cases h : p c <;> simp [List.takeWhile_cons, h, ih]

/-- Source `expand_cidr` in closed form, over the texts left and right of the
first slash. -/
theorem expand_cidr_eq (cidr : List Char) :
    expand_cidr cidr =
      if cidr.dropWhile (· != '/') = [] then .error
      else if (leftOfSlash cidr).length ≥ 32 then .error
      else if atoi (rightOfSlash cidr) < 0 ∨ atoi (rightOfSlash cidr) > 32 then .error
      else
        match ipstr_to_uint32 (leftOfSlash cidr) with
        | none => .error
        | some base_ip => expand_ok base_ip (atoi (rightOfSlash cidr)) := by
  unfold expand_cidr
  rw [strchr_eq]
  by_cases h : cidr.dropWhile (· != '/') = []
  · simp [h]
  · simp only [h, if_false, length_sub_dropWhile, take_takeWhile_length]
    rfl

theorem slash_split (x r : List Char) (hx : ∀ c ∈ x, c ≠ '/') :
    (x ++ '/' :: r).dropWhile (· != '/') = '/' :: r ∧ leftOfSlash (x ++ '/' :: r) = x ∧
      rightOfSlash (x ++ '/' :: r) = r := by
  have hs : stopsAt (· != '/') ('/' :: r) := by
    intro c hc
    simp only [List.head?_cons, Option.mem_def, Option.some.injEq] at hc
    subst hc
    decide
  have hrun := takeWhile_run (· != '/') x ('/' :: r) (by simpa using hx) hs
  refine ⟨hrun.2, hrun.1, ?_⟩
  simp [rightOfSlash, hrun.2]

theorem atoi_digits (ds : List Char) (hne : ds ≠ []) (h : ∀ c ∈ ds, isdigit c = true)
    (hv : decVal ds ≤ 32) : atoi ds = decVal ds := by
  have := strtol_ten_run ds [] hne h (stopsAt_nil _)
  rw [List.append_nil] at this
  simp only [atoi, this, clampLong_of_small (v := (decVal ds : Int)) (by omega) (by omega)]
  unfold toInt32
  omega

theorem expand_ok_eq (b p : Nat) (h2 : 2 ≤ p) (h32 : p ≤ 32) :
    expand_ok b (p : Int) = .ok ((2 ^ (32 - p) : Nat) : Int) (expand_list b (2 ^ (32 - p))) := by
  unfold expand_ok
  by_cases hp : p = 32
  · subst hp
    rfl
  · have h1 : ((p : Int) = 32) = False := by simp; omega
    have h3 : (32 - (p : Int).toNat) = 32 - p := by simp
    have h4 : ¬ (32 - p = 0) := by omega
    have hlt : 32 - p < 32 := by omega
    have hpow : 2 ^ (32 - p) ≤ 2 ^ 30 := Nat.pow_le_pow_right (by omega) (by omega)
    have hmod : (1 <<< (32 - p)) % 2 ^ 32 = 2 ^ (32 - p) := by
      rw [Nat.shiftLeft_eq, Nat.one_mul]
      exact Nat.mod_eq_of_lt (by omega)
    have ht : toInt32 ((2 ^ (32 - p) : Nat) : Int) = ((2 ^ (32 - p) : Nat) : Int) := by
      generalize 2 ^ (32 - p) = k at hpow
      unfold toInt32
      omega
    simp only [h1, if_false, h3, h4, shl32, hlt, if_true, hmod, ht]

theorem expand_list_length (b n : Nat) : (expand_list b n).length = n := by
  simp [expand_list]

theorem shl32_one_pos (h n : Nat) (e : shl32 1 h = some n) : 0 < n := by
  unfold shl32 at e
  split_ifs at e with hlt
  simp only [Option.some.injEq] at e
  rw [← e, Nat.shiftLeft_eq, Nat.one_mul,
    Nat.mod_eq_of_lt (Nat.pow_lt_pow_right (by omega) hlt)]
  exact Nat.pos_pow_of_pos _ (by omega)

theorem expand_ok_ips (b : Nat) (pfx ret : Int) (ips : List (List Char))
    (h : expand_ok b pfx = .ok ret ips) :
    ∃ n, 0 < n ∧ ips = expand_list b n ∧ ret = toInt32 n := by
  unfold expand_ok at h
  simp only at h
  generalize (if pfx = 32 then 0 else 32 - pfx.toNat) = hb at h
  by_cases h0 : hb = 0
  · rw [if_pos h0] at h
    simp only [CidrResult.ok.injEq] at h
    exact ⟨1, by omega, h.2.symm, h.1.symm⟩
  · rw [if_neg h0] at h
    cases hs : shl32 1 hb with
    | none => simp [hs] at h
    | some count =>
      simp only [hs, CidrResult.ok.injEq] at h
      exact ⟨count, shl32_one_pos hb count hs, h.2.symm, h.1.symm⟩

/-- A stored list comes from an accepted base and is the non-empty run of
consecutive 32-bit sums that starts at it. -/
theorem expand_cidr_ok (cidr : List Char) (ret : Int) (ips : List (List Char))
    (h : expand_cidr cidr = .ok ret ips) :
    ∃ b n, ipstr_to_uint32 (leftOfSlash cidr) = some b ∧ 0 < n ∧ ips = expand_list b n ∧
      ret = toInt32 n := by
  rw [expand_cidr_eq] at h
  split_ifs at h
  cases hb : ipstr_to_uint32 (leftOfSlash cidr) with
  | none => simp [hb] at h
  | some b =>
    simp only [hb] at h
    obtain ⟨n, h0, h1, h2⟩ := expand_ok_ips b _ ret ips h
    exact ⟨b, n, rfl, h0, h1, h2⟩

theorem uint32_to_ipstr_mod (x : Nat) :
    uint32_to_ipstr (x % 2 ^ 32) = uint32_to_ipstr x := by
  rw [uint32_to_ipstr_eq, uint32_to_ipstr_eq]
  have e0 : x % 2 ^ 32 / 16777216 % 256 = x / 16777216 % 256 := by omega
  have e1 : x % 2 ^ 32 / 65536 % 256 = x / 65536 % 256 := by omega
  have e2 : x % 2 ^ 32 / 256 % 256 = x / 256 % 256 := by omega
  have e3 : x % 2 ^ 32 % 256 = x % 256 := by omega
  rw [e0, e1, e2, e3]

theorem expand_list_get (b n i : Nat) (hi : i < n) :
    (expand_list b n)[i]? = some (uint32_to_ipstr ((b + i) % 2 ^ 32)) := by
  simp [expand_list, List.getElem?_map, List.getElem?_range hi]

/-! ## Decimal output read back -/

theorem toNat_ofNat_digit (k : Nat) (hk : k < 10) : (Char.ofNat (48 + k)).toNat = 48 + k := by
  interval_cases k <;> rfl

/-- What `%u` prints: a non-empty digit run without a leading zero whose value
is the number printed. -/
theorem decAux_spec (fuel : Nat) :
    ∀ n acc, n < 10 ^ (fuel + 1) →
      ∃ ds, decAux (fuel + 1) n acc = ds ++ acc ∧ ds ≠ [] ∧ (∀ c ∈ ds, isdigit c = true) ∧
        decVal ds = n ∧ (ds.head? = some '0' → ds = ['0']) := by
  induction fuel with
  | zero =>
    intro n acc hn
    have hn10 : n < 10 := by simpa using hn
    have ht := toNat_ofNat_digit n hn10
    refine ⟨[Char.ofNat (48 + n)], by simp [decAux, hn10], by simp, ?_, ?_, ?_⟩
    · intro c hc
      simp only [List.mem_singleton] at hc
      subst hc
      simp only [isdigit, ht, Bool.and_eq_true, decide_eq_true_eq]
      omega
    · simp [decVal, ht]
    · intro h
      simp only [List.head?_cons, Option.some.injEq] at h
      rw [h]
  | succ f ih =>
    intro n acc hn
    by_cases hn10 : n < 10
    · have ht := toNat_ofNat_digit n hn10
      refine ⟨[Char.ofNat (48 + n)], by simp [decAux, hn10], by simp, ?_, ?_, ?_⟩
      · intro c hc
        simp only [List.mem_singleton] at hc
        subst hc
        simp only [isdigit, ht, Bool.and_eq_true, decide_eq_true_eq]
        omega
      · simp [decVal, ht]
      · intro h
        simp only [List.head?_cons, Option.some.injEq] at h
        rw [h]
    · have hm : n % 10 < 10 := Nat.mod_lt _ (by omega)
      have ht := toNat_ofNat_digit (n % 10) hm
      have hdiv : n / 10 < 10 ^ (f + 1) := by
        rw [pow_succ] at hn
        omega
      obtain ⟨ds, h1, h2, h3, h4, h5⟩ := ih (n / 10) (Char.ofNat (48 + n % 10) :: acc) hdiv
      refine ⟨ds ++ [Char.ofNat (48 + n % 10)], ?_, by simp, ?_, ?_, ?_⟩
      · rw [decAux, if_neg hn10, h1]
        simp
      · intro c hc
        rcases List.mem_append.1 hc with hc | hc
        · exact h3 c hc
        · simp only [List.mem_singleton] at hc
          subst hc
          simp only [isdigit, ht, Bool.and_eq_true, decide_eq_true_eq]
          omega
      · rw [decVal_append_singleton, h4, ht]
        omega
      · intro h
        obtain ⟨d, t, hdt⟩ := List.exists_cons_of_ne_nil h2
        rw [hdt] at h h5 h4
        have := h5 (by simpa using h)
        rw [this] at h4
        have : decVal ['0'] = 0 := rfl
        omega

theorem fmtU_spec (n : Nat) (hn : n < 256) :
    fmtU n ≠ [] ∧ (∀ c ∈ fmtU n, isdigit c = true) ∧ decVal (fmtU n) = n ∧
      ((fmtU n).head? = some '0' → fmtU n = ['0']) := by
  obtain ⟨ds, h1, h2, h3, h4, h5⟩ := decAux_spec 9 n [] (by omega)
  have : fmtU n = ds := by simpa [fmtU] using h1
  rw [this]
  exact ⟨h2, h3, h4, h5⟩

/-- Reading back what `uint32_to_ipstr` writes gives the 32-bit value. -/
theorem ipstr_to_uint32_roundtrip (x : Nat) (hx : x < 4294967296) :
    ipstr_to_uint32 (uint32_to_ipstr x) = some x := by
  rw [uint32_to_ipstr_eq]
  have s0 := fmtU_spec (x / 16777216 % 256) (Nat.mod_lt _ (by omega))
  have s1 := fmtU_spec (x / 65536 % 256) (Nat.mod_lt _ (by omega))
  have s2 := fmtU_spec (x / 256 % 256) (Nat.mod_lt _ (by omega))
  have s3 := fmtU_spec (x % 256) (Nat.mod_lt _ (by omega))
  rw [ipstr_to_uint32_dotted _ _ _ _ ⟨s0.1, s0.2.1, by omega⟩ ⟨s1.1, s1.2.1, by omega⟩
    ⟨s2.1, s2.2.1, by omega⟩ ⟨s3.1, s3.2.1, by omega⟩, s0.2.2.1, s1.2.2.1, s2.2.2.1, s3.2.2.1]
  congr 1
  omega

theorem expand_ok_ne_error (b : Nat) (pfx : Int) : expand_ok b pfx ≠ .error := by
  unfold expand_ok
  simp only
  generalize (if pfx = 32 then 0 else 32 - pfx.toNat) = hb
  by_cases h0 : hb = 0
  · simp [h0]
  · rw [if_neg h0]
    split <;> simp

theorem no_slash_iff (cidr : List Char) :
    cidr.dropWhile (· != '/') = [] ↔ '/' ∉ cidr := by
  rw [List.dropWhile_eq_nil_iff]
  constructor
  · intro h hm
    simpa using h _ hm
  · intro h x hx
    have : x ≠ '/' := fun e => h (e ▸ hx)
    simpa using this

/-! ## Hardware-address prefix -/

theorem isHexChar_cases {c : Char} (h : isHexChar c = true) :
    (48 ≤ c.toNat ∧ c.toNat ≤ 57) ∨ (97 ≤ c.toNat ∧ c.toNat ≤ 102) ∨
      (65 ≤ c.toNat ∧ c.toNat ≤ 70) := by
  simp only [isHexChar, isdigit, Bool.or_eq_true, Bool.and_eq_true, decide_eq_true_eq] at h
  tauto

theorem baseDigit_hex {c : Char} (h : isHexChar c = true) :
    baseDigit 16 c = some (hexCharVal c) := by
  rcases isHexChar_cases h with h | h | h
  · have h2 : c.toNat - 48 < 16 := by omega
    simp [baseDigit, digitVal, hexCharVal, isdigit, h.1, h.2, h2]
  · have h1 : ¬ (48 ≤ c.toNat ∧ c.toNat ≤ 57) := by omega
    have h2 : 97 ≤ c.toNat ∧ c.toNat ≤ 122 := by omega
    have h3 : c.toNat - 97 + 10 < 16 := by omega
    have h4 : c.toNat - 97 + 10 = c.toNat - 87 := by omega
    have h5 : isdigit c = false := by
      simp only [isdigit, Bool.and_eq_false_iff, decide_eq_false_iff_not]; omega
    simp [baseDigit, digitVal, hexCharVal, h1, h2, h3, h4, h5, h.1]
    omega
  · have h1 : ¬ (48 ≤ c.toNat ∧ c.toNat ≤ 57) := by omega
    have h2 : ¬ (97 ≤ c.toNat ∧ c.toNat ≤ 122) := by omega
    have h2b : ¬ (97 ≤ c.toNat) := by omega
    have h3 : 65 ≤ c.toNat ∧ c.toNat ≤ 90 := by omega
    have h4 : c.toNat - 65 + 10 < 16 := by omega
    have h6 : c.toNat - 65 + 10 = c.toNat - 55 := by omega
    have h5 : isdigit c = false := by
      simp only [isdigit, Bool.and_eq_false_iff, decide_eq_false_iff_not]; omega
    simp [baseDigit, digitVal, hexCharVal, h1, h2, h2b, h3, h4, h5, h6]
    omega

theorem hexCharVal_lt {c : Char} (h : isHexChar c = true) : hexCharVal c < 16 := by
  have := baseDigit_hex h
  unfold baseDigit at this
  split at this
  · split_ifs at this with hlt
    simp only [Option.some.injEq] at this
    omega
  · cases this

theorem not_sep_of_hex {c : Char} (h : isHexChar c = true) :
    isMacSep c = false ∧ isspace c = false ∧ c ≠ '-' ∧ c ≠ '+' := by
  have hc := isHexChar_cases h
  have e1 : c ≠ ':' := char_ne_of_toNat_ne (by simp; omega)
  have e2 : c ≠ '-' := char_ne_of_toNat_ne (by simp; omega)
  have e3 : c ≠ '.' := char_ne_of_toNat_ne (by simp; omega)
  have e4 : c ≠ '+' := char_ne_of_toNat_ne (by simp; omega)
  have e5 : isspace c = false := by
    simp only [isspace, Bool.or_eq_false_iff, decide_eq_false_iff_not, Bool.and_eq_false_iff]
    omega
  simp [isMacSep, e1, e2, e3, e4, e5]

theorem readToken_run (t rest : List Char) (cap : Nat) (hlen : t.length ≤ cap)
    (ht : ∀ c ∈ t, isMacSep c = false) (hr : ∀ c ∈ rest.head?, isMacSep c = true) :
    readToken cap (t ++ rest) = (t, rest) := by
  induction t generalizing cap with
  | nil =>
    cases cap with
    | zero => rfl
    | succ cap =>
      cases rest with
      | nil => rfl
      | cons c r => simp [readToken, hr c (by simp)]
  | cons c t ih =>
    cases cap with
    | zero => simp at hlen
    | succ cap =>
      have hc := ht c (List.mem_cons_self _ _)
      have := ih cap (by simpa using hlen) (fun x hx => ht x (List.mem_cons_of_mem _ hx))
      simp [readToken, hc, this]

theorem isHexOctetText_cases {t : List Char} (h : isHexOctetText t = true) :
    (∃ c, t = [c] ∧ isHexChar c = true) ∨
      (∃ c d, t = [c, d] ∧ isHexChar c = true ∧ isHexChar d = true) := by
  simp only [isHexOctetText, Bool.and_eq_true, Bool.or_eq_true, beq_iff_eq,
    List.all_eq_true] at h
  obtain ⟨hl, ha⟩ := h
  match t, hl, ha with
  | [c], _, ha => exact Or.inl ⟨c, rfl, ha c (by simp)⟩
  | [c, d], _, ha => exact Or.inr ⟨c, d, rfl, ha c (by simp), ha d (by simp)⟩
  | [], hl, _ => simp at hl
  | _ :: _ :: _ :: _, hl, _ => simp at hl

theorem hexVal_lt {t : List Char} (h : isHexOctetText t = true) : hexVal t < 256 := by
  rcases isHexOctetText_cases h with ⟨c, rfl, hc⟩ | ⟨c, d, rfl, hc, hd⟩
  · have := hexCharVal_lt hc
    simp only [hexVal, List.foldl_cons, List.foldl_nil]
    omega
  · have := hexCharVal_lt hc
    have := hexCharVal_lt hd
    simp only [hexVal, List.foldl_cons, List.foldl_nil]
    omega

/-- On one or two hexadecimal digits base-16 `strtol` consumes the whole text
and returns their value. -/
theorem strtol_hexOctet {t : List Char} (h : isHexOctetText t = true) :
    strtol t 16 = some ((hexVal t : Int), []) := by
  have hv := hexVal_lt h
  rcases isHexOctetText_cases h with ⟨c, rfl, hc⟩ | ⟨c, d, rfl, hc, hd⟩
  · obtain ⟨_, hsp, hm, hp⟩ := not_sep_of_hex hc
    have hb := baseDigit_hex hc
    simp only [strtol, List.dropWhile_cons, hsp, Bool.false_eq_true, if_false, strtolSign, hm, hp,
      strtolHexPrefix, hb, Option.isSome_some, if_true, strtolDigits]
    rw [clampLong_of_small (by simp [hexVal] at hv ⊢; omega) (by simp [hexVal] at hv ⊢; omega)]
    simp [hexVal]
  · obtain ⟨_, hsp, hm, hp⟩ := not_sep_of_hex hc
    have hb := baseDigit_hex hc
    have hb2 := baseDigit_hex hd
    simp only [strtol, List.dropWhile_cons, hsp, Bool.false_eq_true, if_false, strtolSign, hm, hp,
      strtolHexPrefix, hb, hb2, Option.isSome_some, if_true, strtolDigits]
    rw [clampLong_of_small (by simp [hexVal] at hv ⊢; omega) (by simp [hexVal] at hv ⊢; omega)]
    simp [hexVal]

theorem hexTable_eq (d : Nat) (hd : d < 16) : hexTable.getD d '0' = upperHexDigit d := by
  interval_cases d <;> rfl

theorem hexPair_eq (v : Nat) (hv : v < 256) : hexPair v = upperHex2 v := by
  have h1 : (v >>> 4) &&& 0xF = v / 16 := by
    rw [Nat.shiftRight_eq_div_pow]
    have := Nat.and_pow_two_sub_one_eq_mod (v / 2 ^ 4) 4
    simp only [Nat.reducePow, Nat.add_one_sub_one] at this ⊢
    rw [this]
    omega
  have h2 : v &&& 0xF = v % 16 := Nat.and_pow_two_sub_one_eq_mod v 4
  simp only [hexPair, upperHex2, h1, h2]
  rw [hexTable_eq _ (by omega), hexTable_eq _ (by omega)]

/-- One round of the loop of `mac_to_oui_prefix` on an octet written as one or
two hexadecimal digits and followed by a separator or the end of the text. -/
theorem mac_loop_hexOctet (n : Nat) (t rest : List Char) (ht : isHexOctetText t = true)
    (hr : ∀ c ∈ rest.head?, isMacSep c = true) :
    mac_loop (n + 1) (t ++ rest) =
      match mac_loop n (rest.dropWhile isMacSep) with
      | none => none
      | some out => some (upperHex2 (hexVal t) ++ out) := by
  have hlen : t.length ≤ 15 := by
    rcases isHexOctetText_cases ht with ⟨c, rfl, _⟩ | ⟨c, d, rfl, _, _⟩ <;> simp
  have hne : t ≠ [] := by
    rcases isHexOctetText_cases ht with ⟨c, rfl, _⟩ | ⟨c, d, rfl, _, _⟩ <;> simp
  have hns : ∀ c ∈ t, isMacSep c = false := by
    intro c hc
    simp only [isHexOctetText, Bool.and_eq_true, List.all_eq_true] at ht
    exact (not_sep_of_hex (ht.2 c hc)).1
  have hrd := readToken_run t rest 15 hlen hns hr
  have hv := hexVal_lt ht
  have hne2 : t ++ rest ≠ [] := by simp [hne]
  have hrange : ¬ ((hexVal t : Int) < 0 ∨ (hexVal t : Int) > 255) := by omega
  rw [mac_loop]
  simp only [hne2, if_false, hrd, hne, strtol_hexOctet ht, hrange, Int.toNat_ofNat,
    hexPair_eq _ hv]

theorem dropWhile_sep_octet (s : Char) (t r : List Char) (hs : isOctetSep s = true)
    (ht : isHexOctetText t = true) :
    (s :: (t ++ r)).dropWhile isMacSep = t ++ r := by
  have h1 : isMacSep s = true := by
    simp only [isOctetSep, Bool.or_eq_true, decide_eq_true_eq] at hs
    rcases hs with hs | hs <;> subst hs <;> decide
  rcases isHexOctetText_cases ht with ⟨c, rfl, hc⟩ | ⟨c, d, rfl, hc, _⟩ <;>
    simp [List.dropWhile_cons, h1, (not_sep_of_hex hc).1]

theorem head_sep_of_octetSep (s : Char) (r : List Char) (hs : isOctetSep s = true) :
    ∀ c ∈ (s :: r).head?, isMacSep c = true := by
  intro c hc
  simp only [List.head?_cons, Option.mem_def, Option.some.injEq] at hc
  subst hc
  simp only [isOctetSep, Bool.or_eq_true, decide_eq_true_eq] at hs
  rcases hs with hs | hs <;> subst hs <;> decide

theorem head_sep_of_macTail (r : List Char) (h : isMacTail r = true) :
    ∀ c ∈ r.head?, isMacSep c = true := by
  cases r with
  | nil => intro c hc; simp at hc
  | cons x r => exact head_sep_of_octetSep x r h

/-- The prefix of a hardware address written as three one- or two-digit
hexadecimal octets with single `:` or `-` between them. -/
theorem mac_to_oui_prefix_octets (t0 t1 t2 tl : List Char) (s1 s2 : Char)
    (h0 : isHexOctetText t0 = true) (h1 : isHexOctetText t1 = true)
    (h2 : isHexOctetText t2 = true) (hs1 : isOctetSep s1 = true) (hs2 : isOctetSep s2 = true)
    (htl : isMacTail tl = true) :
    mac_to_oui_prefix (t0 ++ s1 :: (t1 ++ s2 :: (t2 ++ tl)))
      = some (upperHex2 (hexVal t0) ++ upperHex2 (hexVal t1) ++ upperHex2 (hexVal t2)) := by
  unfold mac_to_oui_prefix
  rw [mac_loop_hexOctet 2 t0 _ h0 (head_sep_of_octetSep s1 _ hs1),
    dropWhile_sep_octet s1 t1 _ hs1 h1,
    mac_loop_hexOctet 1 t1 _ h1 (head_sep_of_octetSep s2 _ hs2),
    dropWhile_sep_octet s2 t2 _ hs2 h2,
    mac_loop_hexOctet 0 t2 _ h2 (head_sep_of_macTail tl htl)]
  simp [mac_loop]

/-! ## Tokens of a hardware address -/

theorem splitWhere_ne_nil (p : Char → Bool) (s : List Char) : splitWhere p s ≠ [] := by
  cases s with
  | nil => simp [splitWhere]
  | cons c s =>
    unfold splitWhere
    split_ifs
    · simp
    · split <;> simp

/-- The first piece is the leading run of characters that do not satisfy `p`;
the other pieces come from what follows the character that ends it. -/
theorem splitWhere_eq (p : Char → Bool) (s : List Char) :
    splitWhere p s = s.takeWhile (fun c => !p c) ::
      (match s.dropWhile (fun c => !p c) with
        | [] => []
        | _ :: r => splitWhere p r) := by
  induction s with
  | nil => simp [splitWhere]
  | cons c s ih =>
    cases hc : p c
    · rw [splitWhere, if_neg (by simp [hc]), ih]
      simp [List.takeWhile_cons, List.dropWhile_cons, hc]
    · rw [splitWhere, if_pos hc]
      simp [List.takeWhile_cons, List.dropWhile_cons, hc]

theorem macRuns_nil : macRuns [] = [] := rfl

theorem macRuns_sep (c : Char) (s : List Char) (hc : isMacSep c = true) :
    macRuns (c :: s) = macRuns s := by
  simp [macRuns, splitWhere, hc]

theorem macRuns_dropWhile (q : List Char) : macRuns (q.dropWhile isMacSep) = macRuns q := by
  induction q with
  | nil => rfl
  | cons c q ih =>
    cases hc : isMacSep c
    · simp [List.dropWhile_cons, hc]
    · simp only [List.dropWhile_cons, hc, if_true, ih, macRuns_sep c q hc]

/-- A text that starts with a token character: its first token is the leading
run of token characters, and the others are those of the rest. -/
theorem macRuns_cons (c : Char) (s : List Char) (hc : isMacSep c = false) :
    macRuns (c :: s) = (c :: s).takeWhile (fun x => !isMacSep x) ::
      macRuns ((c :: s).dropWhile (fun x => !isMacSep x)) := by
  have hne : (c :: s).takeWhile (fun x => !isMacSep x) ≠ [] := by
    simp [List.takeWhile_cons, hc]
  have hstop := stopsAt_dropWhile (fun x => !isMacSep x) (c :: s)
  conv_lhs => rw [macRuns, splitWhere_eq]
  rw [List.filter_cons_of_pos (by simpa using hne)]
  congr 1
  cases hd : (c :: s).dropWhile (fun x => !isMacSep x) with
  | nil => rfl
  | cons x r =>
    have hx : isMacSep x = true := by
      have := hstop x (by rw [hd]; simp)
      simpa using this
    rw [macRuns_sep x r hx]
    rfl

/-- What a successful run of the loop of `mac_to_oui_prefix` says about the
tokens of the text, when no token exceeds the 15 characters of the buffer. -/
theorem mac_loop_tokens (n : Nat) :
    ∀ p out, (∀ t ∈ macRuns p, t.length ≤ 15) → mac_loop n p = some out →
      n ≤ (macRuns p).length ∧ ∀ t ∈ (macRuns p).take n, startsWithHexByte t = true := by
  induction n with
  | zero => intro p out _ _; simp
  | succ n ih =>
    intro p out h15 h
    rw [mac_loop] at h
    cases p with
    | nil => simp at h
    | cons c s =>
      simp only [reduceCtorEq, if_false] at h
      cases hc : isMacSep c
      swap
      · simp [readToken, hc] at h
      have hruns := macRuns_cons c s hc
      have hlen : ((c :: s).takeWhile (fun x => !isMacSep x)).length ≤ 15 :=
        h15 _ (by rw [hruns]; exact List.mem_cons_self _ _)
      have hstop : ∀ x ∈ ((c :: s).dropWhile (fun x => !isMacSep x)).head?, isMacSep x = true := by
        intro x hx
        simpa using stopsAt_dropWhile (fun x => !isMacSep x) (c :: s) x hx
      have hrd := readToken_run ((c :: s).takeWhile (fun x => !isMacSep x))
        ((c :: s).dropWhile (fun x => !isMacSep x)) 15 hlen
        (fun x hx => by simpa using List.mem_takeWhile_imp hx) hstop
      rw [List.takeWhile_append_dropWhile] at hrd
      rw [hrd] at h
      simp only at h
      split_ifs at h with hnil
      cases hs : strtol ((c :: s).takeWhile (fun x => !isMacSep x)) 16 with
      | none => simp [hs] at h
      | some r =>
        obtain ⟨v, e⟩ := r
        simp only [hs] at h
        split_ifs at h with hv
        cases hm : mac_loop n (((c :: s).dropWhile (fun x => !isMacSep x)).dropWhile isMacSep) with
        | none => simp [hm] at h
        | some out2 =>
          have h15b : ∀ t ∈ macRuns
              (((c :: s).dropWhile (fun x => !isMacSep x)).dropWhile isMacSep),
              t.length ≤ 15 := by
            intro t ht
            rw [macRuns_dropWhile] at ht
            exact h15 t (by rw [hruns]; exact List.mem_cons_of_mem _ ht)
          obtain ⟨i1, i2⟩ := ih _ out2 h15b hm
          rw [macRuns_dropWhile] at i1 i2
          rw [hruns]
          refine ⟨by simpa using i1, ?_⟩
          intro t ht
          rw [List.take_succ_cons] at ht
          rcases List.mem_cons.1 ht with e1 | e1
          · subst e1
            simp only [startsWithHexByte, hs, decide_eq_true_eq]
            omega
          · exact i2 t e1

/-! ## Vendor lookup -/

theorem lookup_scan_first (norm : List Char) :
    ∀ (prefixes vendors : List (List Char)) (k i : Nat),
      prefixes.length = vendors.length → i < k → prefixes[i]? = some norm →
      (∀ j, j < i → prefixes[j]? ≠ some norm) →
      lookup_scan norm prefixes vendors k = vendors[i]? ∧ i < vendors.length := by
  intro prefixes
  induction prefixes with
  | nil => intro vendors k i _ _ h; simp at h
  | cons p ps ih =>
    intro vendors k i hl hk hi hfirst
    cases vendors with
    | nil => simp at hl
    | cons v vs =>
      cases k with
      | zero => omega
      | succ k =>
        cases i with
        | zero =>
          simp only [List.getElem?_cons_zero, Option.some.injEq] at hi
          simp [lookup_scan, hi]
        | succ i =>
          have hp : p ≠ norm := by
            intro e
            exact hfirst 0 (by omega) (by simp [e])
          have := ih vs k i (by simpa using hl) (by omega) (by simpa using hi)
            (fun j hj => by simpa using hfirst (j + 1) (by omega))
          simp only [lookup_scan, hp, if_false, List.getElem?_cons_succ, List.length_cons]
          exact ⟨this.1, by omega⟩

theorem lookup_scan_none (norm : List Char) :
    ∀ (prefixes vendors : List (List Char)) (k : Nat), norm ∉ prefixes →
      lookup_scan norm prefixes vendors k = none := by
  intro prefixes
  induction prefixes with
  | nil => intro vendors k _; cases vendors <;> cases k <;> rfl
  | cons p ps ih =>
    intro vendors k h
    cases vendors with
    | nil => cases k <;> rfl
    | cons v vs =>
      cases k with
      | zero => rfl
      | succ k =>
        have hp : p ≠ norm := fun e => h (by simp [e])
        simp only [lookup_scan, hp, if_false]
        exact ih vs k (fun hm => h (List.mem_cons_of_mem _ hm))

/-! ## One tagged record line -/

theorem isTwoHex_cases {o : List Char} (h : isTwoHex o = true) :
    ∃ c d, o = [c, d] ∧ isHexChar c = true ∧ isHexChar d = true := by
  simp only [isTwoHex, Bool.and_eq_true, beq_iff_eq, List.all_eq_true] at h
  obtain ⟨hl, ha⟩ := h
  match o, hl, ha with
  | [c, d], _, ha => exact ⟨c, d, rfl, ha c (by simp), ha d (by simp)⟩

theorem dropWhile_all (p : Char → Bool) (ws r : List Char) (h : ∀ c ∈ ws, p c = true) :
    (ws ++ r).dropWhile p = r.dropWhile p := by
  induction ws with
  | nil => rfl
  | cons c ws ih =>
    simp only [List.cons_append, List.dropWhile_cons, h c (List.mem_cons_self _ _), if_true]
    exact ih (fun x hx => h x (List.mem_cons_of_mem _ hx))

theorem scanHex2_two (o r : List Char) (h : isTwoHex o = true) :
    scanHex2 (o ++ r) = some (o, r) := by
  obtain ⟨c, d, rfl, hc, hd⟩ := isTwoHex_cases h
  simp [scanHex2, hc, hd]

/-- The `sscanf` call on a line that starts, after white space, with a token of
three two-digit octets: all three conversions succeed. -/
theorem sscanf_oui_token (ws0 o1 o2 o3 r : List Char) (hws : ∀ c ∈ ws0, isspace c = true)
    (h1 : isTwoHex o1 = true) (h2 : isTwoHex o2 = true) (h3 : isTwoHex o3 = true) :
    sscanf_oui (ws0 ++ (o1 ++ '-' :: (o2 ++ '-' :: (o3 ++ r)))) = some (o1, o2, o3) := by
  obtain ⟨c, d, e1, hc, hd⟩ := isTwoHex_cases h1
  have hd0 : (o1 ++ '-' :: (o2 ++ '-' :: (o3 ++ r))).dropWhile isspace
      = o1 ++ '-' :: (o2 ++ '-' :: (o3 ++ r)) := by
    subst e1
    simp [List.dropWhile_cons, (not_sep_of_hex hc).2.1]
  unfold sscanf_oui
  rw [dropWhile_all isspace ws0 _ hws, hd0, scanHex2_two o1 _ h1]
  simp only [if_true]
  rw [scanHex2_two o2 _ h2]
  simp only [if_true]
  rw [scanHex2_two o3 _ h3]

theorem toupper_hex_ne {c : Char} (h : isHexChar c = true) :
    ¬ (c = '-' ∨ c = ':' ∨ c = ' ') := by
  have hc := isHexChar_cases h
  have e1 : c ≠ ':' := char_ne_of_toNat_ne (by simp; omega)
  have e2 : c ≠ '-' := char_ne_of_toNat_ne (by simp; omega)
  have e3 : c ≠ ' ' := char_ne_of_toNat_ne (by simp; omega)
  tauto

theorem normalize_prefix_token (o1 o2 o3 : List Char)
    (h1 : isTwoHex o1 = true) (h2 : isTwoHex o2 = true) (h3 : isTwoHex o3 = true) :
    normalize_prefix (o1 ++ o2 ++ o3) = (o1 ++ o2 ++ o3).map toupper := by
  obtain ⟨a, b, rfl, ha, hb⟩ := isTwoHex_cases h1
  obtain ⟨c, d, rfl, hc, hd⟩ := isTwoHex_cases h2
  obtain ⟨e, f, rfl, he, hf⟩ := isTwoHex_cases h3
  simp [ normalize_prefix, normalize_loop, toupper_hex_ne ha, toupper_hex_ne hb,
    toupper_hex_ne hc, toupper_hex_ne hd, toupper_hex_ne he, toupper_hex_ne hf]

theorem strstr_hex (pre r : List Char) (h : ∀ c ∈ pre, c ≠ '(') :
    strstr (pre ++ ("(hex)".toList ++ r)) "(hex)".toList = some ("(hex)".toList ++ r) := by
  induction pre with
  | nil =>
    show strstr ('(' :: 'h' :: 'e' :: 'x' :: ')' :: r) ['(', 'h', 'e', 'x', ')'] = _
    simp [strstr, List.isPrefixOf]
  | cons c pre ih =>
    have hc : c ≠ '(' := h c (List.mem_cons_self _ _)
    have hb : (c == '(') = false := by simpa using hc
    show strstr (c :: (pre ++ _)) ['(', 'h', 'e', 'x', ')'] = _
    have hc2 : ¬ ('(' = c) := fun e => hc e.symm
    rw [strstr]
    have := ih (fun x hx => h x (List.mem_cons_of_mem _ hx))
    simpa [hc2] using this

theorem isVendorText_parts {v : List Char} (h : isVendorText v = true) :
    (∃ c t, v = c :: t ∧ isspace c = false) ∧ (∃ l i, v = i ++ [l] ∧ isspace l = false) ∧
      (∀ c ∈ v, c ≠ '\n') := by
  simp only [isVendorText, Bool.and_eq_true, Bool.not_eq_true', List.isEmpty_eq_false,
    List.all_eq_true, bne_iff_ne, ne_eq] at h
  obtain ⟨⟨⟨hne, hnl⟩, hh⟩, hl⟩ := h
  refine ⟨?_, ?_, hnl⟩
  · obtain ⟨c, t, rfl⟩ := List.exists_cons_of_ne_nil hne
    refine ⟨c, t, rfl, ?_⟩
    cases hc : isspace c
    · rfl
    · simp [hc] at hh
  · obtain ⟨i, l, e⟩ := (List.eq_nil_or_concat v).resolve_left hne
    rw [List.concat_eq_append] at e
    subst e
    refine ⟨l, i, rfl, ?_⟩
    cases hc : isspace l
    · rfl
    · simp [hc] at hl

theorem dropWhile_head_false (p : Char → Bool) (c : Char) (t : List Char) (h : p c = false) :
    (c :: t).dropWhile p = c :: t := by
  simp [List.dropWhile_cons, h]

/-- Trimming a vendor text followed by line-end white space gives the vendor
text. -/
theorem vendor_trim_text (v eol : List Char) (hv : isVendorText v = true)
    (he : ∀ c ∈ eol, isspace c = true) : vendor_trim (v ++ eol) = v := by
  obtain ⟨⟨c, t, e1, hc⟩, ⟨l, i, e2, hl⟩, _⟩ := isVendorText_parts hv
  have hbt : (fun x : Char => decide (x = '\t') || decide (x = ' ')) c = false := by
    have h1 : c ≠ '\t' := fun e => by rw [e] at hc; exact absurd hc (by decide)
    have h2 : c ≠ ' ' := fun e => by rw [e] at hc; exact absurd hc (by decide)
    simp [h1, h2]
  have hd : (v ++ eol).dropWhile (fun x => decide (x = '\t') || decide (x = ' ')) = v ++ eol := by
    rw [e1, List.cons_append]
    exact dropWhile_head_false _ c _ hbt
  unfold vendor_trim
  rw [hd, List.reverse_append, dropWhile_all isspace eol.reverse _
    (fun x hx => he x (List.mem_reverse.1 hx))]
  rw [e2, List.reverse_append, List.reverse_singleton, List.singleton_append,
    dropWhile_head_false _ l _ hl]
  simp

theorem hexRecordLine_eq (ws0 o1 o2 o3 ws1 ws2 v eol : List Char) :
    hexRecordLine ws0 o1 o2 o3 ws1 ws2 v eol
      = (ws0 ++ (o1 ++ '-' :: (o2 ++ '-' :: (o3 ++ ws1))))
        ++ ("(hex)".toList ++ (ws2 ++ (v ++ eol))) := by
  simp [hexRecordLine, List.append_assoc]

theorem no_paren_before_marker (ws0 o1 o2 o3 ws1 : List Char)
    (hws0 : ∀ c ∈ ws0, isspace c = true) (hws1 : ∀ c ∈ ws1, isspace c = true)
    (h1 : isTwoHex o1 = true) (h2 : isTwoHex o2 = true) (h3 : isTwoHex o3 = true) :
    ∀ c ∈ ws0 ++ (o1 ++ '-' :: (o2 ++ '-' :: (o3 ++ ws1))), c ≠ '(' := by
  have hsp : ∀ c, isspace c = true → c ≠ '(' := by
    intro c hc e
    rw [e] at hc
    exact absurd hc (by decide)
  have hhex : ∀ o, isTwoHex o = true → ∀ c ∈ o, c ≠ '(' := by
    intro o ho c hc e
    simp only [isTwoHex, Bool.and_eq_true, List.all_eq_true] at ho
    have := ho.2 c hc
    rw [e] at this
    exact absurd this (by decide)
  intro c hc
  simp only [List.mem_append, List.mem_cons] at hc
  rcases hc with hc | hc | hc | hc | hc | hc | hc
  · exact hsp c (hws0 c hc)
  · exact hhex o1 h1 c hc
  · rw [hc]; decide
  · exact hhex o2 h2 c hc
  · rw [hc]; decide
  · exact hhex o3 h3 c hc
  · exact hsp c (hws1 c hc)

/-- On a tagged record line the vendor pointer ends up at the vendor text. -/
theorem vendor_ptr_hexRecordLine (ws0 o1 o2 o3 ws1 ws2 v eol : List Char)
    (hws0 : ∀ c ∈ ws0, isspace c = true) (hws1 : ∀ c ∈ ws1, isspace c = true)
    (hws2 : ∀ c ∈ ws2, isspace c = true)
    (h1 : isTwoHex o1 = true) (h2 : isTwoHex o2 = true) (h3 : isTwoHex o3 = true)
    (hv : isVendorText v = true) :
    vendor_ptr (hexRecordLine ws0 o1 o2 o3 ws1 ws2 v eol) = some (v ++ eol) := by
  obtain ⟨⟨c, t, e1, hc⟩, _, _⟩ := isVendorText_parts hv
  have hs := strstr_hex (ws0 ++ (o1 ++ '-' :: (o2 ++ '-' :: (o3 ++ ws1)))) (ws2 ++ (v ++ eol))
    (no_paren_before_marker ws0 o1 o2 o3 ws1 hws0 hws1 h1 h2 h3)
  have hcmp : strncmpEq ("(hex)".toList ++ (ws2 ++ (v ++ eol))) "(base 16)".toList 10 = false := by
    show strncmpEq ('(' :: 'h' :: _) ('(' :: 'b' :: _) 10 = false
    simp [strncmpEq]
  have hdrop : ("(hex)".toList ++ (ws2 ++ (v ++ eol))).drop 5 = ws2 ++ (v ++ eol) := rfl
  have hd : (ws2 ++ (v ++ eol)).dropWhile isspace = v ++ eol := by
    rw [dropWhile_all isspace ws2 _ hws2, e1, List.cons_append]
    exact dropWhile_head_false _ c _ hc
  unfold vendor_ptr
  rw [hexRecordLine_eq]
  simp only [hs, hcmp, Bool.false_eq_true, if_false, hdrop, hd]

/-- A tagged record line yields the record of its upper-cased token digits and
its vendor text. -/
theorem oui_line_hexRecordLine (ws0 o1 o2 o3 ws1 ws2 v eol : List Char)
    (hws0 : ∀ c ∈ ws0, isspace c = true) (hws1 : ∀ c ∈ ws1, isspace c = true)
    (hws2 : ∀ c ∈ ws2, isspace c = true) (heol : ∀ c ∈ eol, isspace c = true)
    (h1 : isTwoHex o1 = true) (h2 : isTwoHex o2 = true) (h3 : isTwoHex o3 = true)
    (hv : isVendorText v = true) :
    oui_line (hexRecordLine ws0 o1 o2 o3 ws1 ws2 v eol)
      = some ((o1 ++ o2 ++ o3).map toupper, v) := by
  have hsc := sscanf_oui_token ws0 o1 o2 o3 (ws1 ++ ("(hex)".toList ++ (ws2 ++ (v ++ eol))))
    hws0 h1 h2 h3
  have hvp := vendor_ptr_hexRecordLine ws0 o1 o2 o3 ws1 ws2 v eol hws0 hws1 hws2 h1 h2 h3 hv
  have htr := vendor_trim_text v eol hv heol
  have hlen : v.length > 0 := by
    obtain ⟨⟨c, t, e1, _⟩, _, _⟩ := isVendorText_parts hv
    rw [e1]
    simp
  unfold oui_line
  rw [hvp]
  unfold hexRecordLine
  rw [hsc]
  simp only [htr, hlen, if_true, normalize_prefix_token o1 o2 o3 h1 h2 h3]

/-! ## Reading the file line by line -/

theorem fgetsAux_line (k : Nat) (body post : List Char) (hlen : body.length < k)
    (hnl : ∀ c ∈ body, c ≠ '\n') :
    fgetsAux k (body ++ '\n' :: post) = (body ++ ['\n'], post) := by
  induction body generalizing k with
  | nil =>
    cases k with
    | zero => simp at hlen
    | succ k => simp [fgetsAux]
  | cons c body ih =>
    cases k with
    | zero => simp at hlen
    | succ k =>
      have hc := hnl c (List.mem_cons_self _ _)
      have := ih k (by simpa using hlen) (fun x hx => hnl x (List.mem_cons_of_mem _ hx))
      simp [fgetsAux, hc, this]

theorem fgetsAux_last (k : Nat) (body : List Char) (hlen : body.length ≤ k)
    (hnl : ∀ c ∈ body, c ≠ '\n') : fgetsAux k body = (body, []) := by
  induction body generalizing k with
  | nil => cases k <;> rfl
  | cons c body ih =>
    cases k with
    | zero => simp at hlen
    | succ k =>
      have hc := hnl c (List.mem_cons_self _ _)
      have := ih k (by simpa using hlen) (fun x hx => hnl x (List.mem_cons_of_mem _ hx))
      simp [fgetsAux, hc, this]

theorem fgetsAux_rest_length (k : Nat) (s : List Char) :
    (fgetsAux (k + 1) s).2.length < s.length ∨ s = [] := by
  induction s generalizing k with
  | nil => exact Or.inr rfl
  | cons c s ih =>
    left
    by_cases hc : c = '\n'
    · simp [fgetsAux, hc]
    · simp only [fgetsAux, hc, if_false, List.length_cons]
      cases k with
      | zero => simp [fgetsAux]
      | succ k =>
        rcases ih k with h | h
        · omega
        · subst h
          simp [fgetsAux]

theorem fgets_some (c : Char) (s : List Char) :
    ∃ line rest, fgets 1024 (c :: s) = some (line, rest) ∧ rest.length < (c :: s).length := by
  refine ⟨(fgetsAux 1023 (c :: s)).1, (fgetsAux 1023 (c :: s)).2, rfl, ?_⟩
  rcases fgetsAux_rest_length 1022 (c :: s) with h | h
  · exact h
  · cases h

/-- Any fuel that covers the length of the stream gives the same records. -/
theorem load_loop_fuel (f1 : Nat) :
    ∀ f2 s, s.length ≤ f1 → s.length ≤ f2 → load_loop f1 s = load_loop f2 s := by
  induction f1 with
  | zero =>
    intro f2 s h1 _
    have : s = [] := List.length_eq_zero.1 (by omega)
    subst this
    cases f2 <;> rfl
  | succ f1 ih =>
    intro f2 s h1 h2
    cases s with
    | nil => cases f2 <;> rfl
    | cons c s =>
      cases f2 with
      | zero => simp at h2
      | succ f2 =>
        obtain ⟨line, rest, hf, hl⟩ := fgets_some c s
        simp only [load_loop, hf]
        have := ih f2 rest (by simp at h1 hl; omega) (by simp at h2 hl; omega)
        rw [this]

/-- The records of a non-empty stream: that of its first line, then those of
the rest. -/
theorem load_records_step (s line rest : List Char) (hf : fgets 1024 s = some (line, rest)) :
    load_records s = (oui_line line).toList ++ load_records rest := by
  cases s with
  | nil => simp [fgets] at hf
  | cons c s =>
    obtain ⟨line2, rest2, hf2, hl⟩ := fgets_some c s
    rw [hf] at hf2
    simp only [Option.some.injEq, Prod.mk.injEq] at hf2
    obtain ⟨e1, e2⟩ := hf2
    subst e1 e2
    have hfuel := load_loop_fuel s.length rest.length rest (by simp at hl; omega) (le_refl _)
    unfold load_records
    simp only [List.length_cons, load_loop, hf]
    rw [hfuel]
    cases oui_line line <;> simp

theorem fgetsAux_append (q : List Char) :
    ∀ k rest, fgetsAux k (q ++ ['\n'] ++ rest)
        = ((fgetsAux k (q ++ ['\n'])).1, (fgetsAux k (q ++ ['\n'])).2 ++ rest) ∧
      ((fgetsAux k (q ++ ['\n'])).2 = [] ∨ ∃ q2, (fgetsAux k (q ++ ['\n'])).2 = q2 ++ ['\n']) := by
  induction q with
  | nil =>
    intro k rest
    cases k with
    | zero => exact ⟨rfl, Or.inr ⟨[], rfl⟩⟩
    | succ k => exact ⟨by simp [fgetsAux], Or.inl (by simp [fgetsAux])⟩
  | cons c q ih =>
    intro k rest
    cases k with
    | zero => exact ⟨rfl, Or.inr ⟨c :: q, rfl⟩⟩
    | succ k =>
      by_cases hc : c = '\n'
      · exact ⟨by simp [fgetsAux, hc], Or.inr ⟨q, by simp [fgetsAux, hc]⟩⟩
      · obtain ⟨h1, h2⟩ := ih k rest
        refine ⟨?_, ?_⟩
        · show fgetsAux (k + 1) (c :: (q ++ ['\n'] ++ rest)) = _
          rw [fgetsAux, if_neg hc, h1]
          show _ = ((fgetsAux (k + 1) (c :: (q ++ ['\n']))).1,
            (fgetsAux (k + 1) (c :: (q ++ ['\n']))).2 ++ rest)
          rw [fgetsAux, if_neg hc]
        · show (fgetsAux (k + 1) (c :: (q ++ ['\n']))).2 = [] ∨
            ∃ q2, (fgetsAux (k + 1) (c :: (q ++ ['\n']))).2 = q2 ++ ['\n']
          rw [fgetsAux, if_neg hc]
          exact h2

/-- The records of a stream are those of any leading part that ends with a
newline, followed by those of the rest. -/
theorem load_records_append (n : Nat) :
    ∀ q rest, (q ++ ['\n']).length ≤ n →
      load_records (q ++ ['\n'] ++ rest) = load_records (q ++ ['\n']) ++ load_records rest := by
  induction n with
  | zero => intro q rest h; simp at h
  | succ n ih =>
    intro q rest hn
    obtain ⟨c, s, hcs⟩ : ∃ c s, q ++ ['\n'] = c :: s := by
      cases q with
      | nil => exact ⟨'\n', [], rfl⟩
      | cons c q => exact ⟨c, q ++ ['\n'], rfl⟩
    obtain ⟨h1, h2⟩ := fgetsAux_append q 1023 rest
    have hf1 : fgets 1024 (q ++ ['\n']) = some (fgetsAux 1023 (q ++ ['\n'])) := by
      rw [hcs]; rfl
    have hf2 : fgets 1024 (q ++ ['\n'] ++ rest) = some (fgetsAux 1023 (q ++ ['\n'] ++ rest)) := by
      rw [hcs]; rfl
    rw [h1] at hf2
    rw [load_records_step _ _ _ hf1, load_records_step _ _ _ hf2, List.append_assoc]
    congr 1
    rcases h2 with h2 | ⟨q2, h2⟩
    · rw [h2]
      rfl
    · rw [h2]
      apply ih
      obtain ⟨line, rest2, hf3, hl⟩ := fgets_some c s
      rw [← hcs, hf1] at hf3
      have e : (fgetsAux 1023 (q ++ ['\n'])).2 = rest2 := by
        have := Option.some.inj hf3
        rw [this]
      rw [← h2, e]
      rw [← hcs] at hl
      omega

/-! ## From the token digits to the lookup key -/

theorem upperHexDigit_hexCharVal {x : Char} (h : isHexChar x = true) :
    upperHexDigit (hexCharVal x) = toupper x := by
  rcases isHexChar_cases h with h | h | h
  · have hd : isdigit x = true := by simp [isdigit, h.1, h.2]
    have h1 : x.toNat - 48 < 10 := by omega
    have h2 : ¬ (97 ≤ x.toNat ∧ x.toNat ≤ 122) := by omega
    have h3 : 48 + (x.toNat - 48) = x.toNat := by omega
    simp only [upperHexDigit, hexCharVal, hd, if_true, h1, toupper, h2, if_false, h3,
      Char.ofNat_toNat]
  · have hd : isdigit x = false := by
      simp only [isdigit, Bool.and_eq_false_iff, decide_eq_false_iff_not]; omega
    have h0 : 97 ≤ x.toNat := h.1
    have h1 : ¬ (x.toNat - 87 < 10) := by omega
    have h2 : 97 ≤ x.toNat ∧ x.toNat ≤ 122 := by omega
    have h3 : 55 + (x.toNat - 87) = x.toNat - 32 := by omega
    simp only [upperHexDigit, hexCharVal, hd, Bool.false_eq_true, if_false, h0, if_true, h1,
      toupper, h2, h3]
    simp
  · have hd : isdigit x = false := by
      simp only [isdigit, Bool.and_eq_false_iff, decide_eq_false_iff_not]; omega
    have h0 : ¬ (97 ≤ x.toNat) := by omega
    have h1 : ¬ (x.toNat - 55 < 10) := by omega
    have h2 : ¬ (97 ≤ x.toNat ∧ x.toNat ≤ 122) := by omega
    have h3 : 55 + (x.toNat - 55) = x.toNat := by omega
    simp only [upperHexDigit, hexCharVal, hd, Bool.false_eq_true, if_false, h0, h1, toupper, h2,
      h3, Char.ofNat_toNat]
    simp

/-- The two uppercase digits of the value of a two-digit octet are its digits
in upper case. -/
theorem upperHex2_twoHex {o : List Char} (h : isTwoHex o = true) :
    upperHex2 (hexVal o) = o.map toupper := by
  obtain ⟨c, d, rfl, hc, hd⟩ := isTwoHex_cases h
  have l1 := hexCharVal_lt hc
  have l2 := hexCharVal_lt hd
  have e1 : (hexCharVal c * 16 + hexCharVal d) / 16 = hexCharVal c := by omega
  have e2 : (hexCharVal c * 16 + hexCharVal d) % 16 = hexCharVal d := by omega
  simp only [upperHex2, hexVal, List.foldl_cons, List.foldl_nil, Nat.zero_mul, Nat.zero_add, e1,
    e2, upperHexDigit_hexCharVal hc, upperHexDigit_hexCharVal hd, List.map_cons, List.map_nil]

theorem isspace_of_isLineSpace {c : Char} (h : isLineSpace c = true) :
    isspace c = true ∧ c ≠ '\n' := by
  simpa [isLineSpace] using h

theorem hexRecordLine_no_newline (ws0 o1 o2 o3 ws1 ws2 v : List Char)
    (hws0 : ∀ c ∈ ws0, isLineSpace c = true) (hws1 : ∀ c ∈ ws1, isLineSpace c = true)
    (hws2 : ∀ c ∈ ws2, isLineSpace c = true)
    (h1 : isTwoHex o1 = true) (h2 : isTwoHex o2 = true) (h3 : isTwoHex o3 = true)
    (hv : isVendorText v = true) :
    ∀ c ∈ hexRecordLine ws0 o1 o2 o3 ws1 ws2 v [], c ≠ '\n' := by
  have hhex : ∀ o, isTwoHex o = true → ∀ c ∈ o, c ≠ '\n' := by
    intro o ho c hc e
    simp only [isTwoHex, Bool.and_eq_true, List.all_eq_true] at ho
    have := ho.2 c hc
    rw [e] at this
    exact absurd this (by decide)
  obtain ⟨_, _, hvn⟩ := isVendorText_parts hv
  intro c hc
  simp only [hexRecordLine, List.mem_append, List.mem_cons, List.append_nil] at hc
  rcases hc with hc | hc | hc | hc | hc | hc | hc | hc | hc | hc
  · exact (isspace_of_isLineSpace (hws0 c hc)).2
  · exact hhex o1 h1 c hc
  · rw [hc]; decide
  · exact hhex o2 h2 c hc
  · rw [hc]; decide
  · exact hhex o3 h3 c hc
  · exact (isspace_of_isLineSpace (hws1 c hc)).2
  · have : c ∈ ['(', 'h', 'e', 'x', ')'] := hc
    simp only [List.mem_cons, List.mem_singleton, List.not_mem_nil, or_false] at this
    rcases this with e | e | e | e | e <;> rw [e] <;> decide
  · exact (isspace_of_isLineSpace (hws2 c hc)).2
  · exact hvn c hc

theorem hexRecordLine_eol (ws0 o1 o2 o3 ws1 ws2 v eol : List Char) :
    hexRecordLine ws0 o1 o2 o3 ws1 ws2 v eol
      = hexRecordLine ws0 o1 o2 o3 ws1 ws2 v [] ++ eol := by
  simp [hexRecordLine, List.append_assoc]

/-- `fgets` reads a tagged record line of at most 1023 characters as one
line. -/
theorem fgets_hexRecordLine (ws0 o1 o2 o3 ws1 ws2 v eol post : List Char)
    (hws0 : ∀ c ∈ ws0, isLineSpace c = true) (hws1 : ∀ c ∈ ws1, isLineSpace c = true)
    (hws2 : ∀ c ∈ ws2, isLineSpace c = true)
    (h1 : isTwoHex o1 = true) (h2 : isTwoHex o2 = true) (h3 : isTwoHex o3 = true)
    (hv : isVendorText v = true) (heol : eol = ['\n'] ∨ (eol = [] ∧ post = []))
    (hlen : (hexRecordLine ws0 o1 o2 o3 ws1 ws2 v eol).length ≤ 1023) :
    fgets 1024 (hexRecordLine ws0 o1 o2 o3 ws1 ws2 v eol ++ post)
      = some (hexRecordLine ws0 o1 o2 o3 ws1 ws2 v eol, post) := by
  have hnl := hexRecordLine_no_newline ws0 o1 o2 o3 ws1 ws2 v hws0 hws1 hws2 h1 h2 h3 hv
  have hne : hexRecordLine ws0 o1 o2 o3 ws1 ws2 v [] ≠ [] := by
    obtain ⟨⟨c, t, e1, _⟩, _, _⟩ := isVendorText_parts hv
    obtain ⟨a, b, e2, _, _⟩ := isTwoHex_cases h1
    rw [e2]
    cases ws0 <;> simp [hexRecordLine]
  rw [hexRecordLine_eol] at hlen ⊢
  generalize hexRecordLine ws0 o1 o2 o3 ws1 ws2 v [] = body at hnl hne hlen ⊢
  obtain ⟨c, s, hcs⟩ := List.exists_cons_of_ne_nil hne
  rcases heol with he | ⟨he, hp⟩
  · subst he
    have hf : fgets 1024 (body ++ ['\n'] ++ post) = some (fgetsAux 1023 (body ++ ['\n'] ++ post)) := by
      rw [hcs]; rfl
    rw [hf, List.append_assoc, List.singleton_append,
      fgetsAux_line 1023 body post (by simp at hlen; omega) hnl]
  · subst he hp
    have hf : fgets 1024 (body ++ [] ++ []) = some (fgetsAux 1023 (body ++ [] ++ [])) := by
      rw [hcs]; rfl
    rw [hf]
    simp only [List.append_nil] at hlen ⊢
    rw [fgetsAux_last 1023 body hlen hnl]

/-- The records of a file around a tagged record line of at most 1023
characters that starts a line. -/
theorem load_records_around (pre post ws0 o1 o2 o3 ws1 ws2 v eol : List Char)
    (hpre : pre = [] ∨ ∃ q, pre = q ++ ['\n'])
    (hws0 : ∀ c ∈ ws0, isLineSpace c = true) (hws1 : ∀ c ∈ ws1, isLineSpace c = true)
    (hws2 : ∀ c ∈ ws2, isLineSpace c = true)
    (h1 : isTwoHex o1 = true) (h2 : isTwoHex o2 = true) (h3 : isTwoHex o3 = true)
    (hv : isVendorText v = true) (heol : eol = ['\n'] ∨ (eol = [] ∧ post = []))
    (hlen : (hexRecordLine ws0 o1 o2 o3 ws1 ws2 v eol).length ≤ 1023) :
    load_records (pre ++ (hexRecordLine ws0 o1 o2 o3 ws1 ws2 v eol ++ post))
      = load_records pre ++ ((o1 ++ o2 ++ o3).map toupper, v) :: load_records post := by
  have hf := fgets_hexRecordLine ws0 o1 o2 o3 ws1 ws2 v eol post hws0 hws1 hws2 h1 h2 h3 hv
    heol hlen
  have heol2 : ∀ c ∈ eol, isspace c = true := by
    intro c hc
    rcases heol with he | ⟨he, _⟩
    · rw [he] at hc
      simp only [List.mem_singleton] at hc
      rw [hc]
      decide
    · rw [he] at hc
      cases hc
  have hline := oui_line_hexRecordLine ws0 o1 o2 o3 ws1 ws2 v eol
    (fun c hc => (isspace_of_isLineSpace (hws0 c hc)).1)
    (fun c hc => (isspace_of_isLineSpace (hws1 c hc)).1)
    (fun c hc => (isspace_of_isLineSpace (hws2 c hc)).1) heol2 h1 h2 h3 hv
  have hrest := load_records_step _ _ _ hf
  rw [hline] at hrest
  rcases hpre with hp | ⟨q, hp⟩
  · subst hp
    rw [List.nil_append, hrest]
    rfl
  · subst hp
    rw [load_records_append _ q _ (le_refl _), hrest]
    rfl

/-! ## Lines in general -/

theorem fgets_line (line post : List Char) (h : isFileLine line post) :
    fgets 1024 (line ++ post) = some (line, post) := by
  obtain ⟨hne, hlen, hform⟩ := h
  obtain ⟨c, s, hcs⟩ := List.exists_cons_of_ne_nil hne
  have hf : fgets 1024 (line ++ post) = some (fgetsAux 1023 (line ++ post)) := by
    rw [hcs]; rfl
  rw [hf]
  rcases hform with ⟨body, hb, hnl⟩ | ⟨hnl, hp⟩
  · rw [hb] at hlen ⊢
    rw [List.append_assoc, List.singleton_append,
      fgetsAux_line 1023 body post (by simp at hlen; omega) hnl]
  · subst hp
    rw [List.append_nil, fgetsAux_last 1023 line hlen hnl]

/-- The records of a file around one of its lines: those of the lines before,
the record of the line if it yields one, those of the lines after. -/
theorem load_records_line (pre line post : List Char)
    (hpre : pre = [] ∨ ∃ q, pre = q ++ ['\n']) (hl : isFileLine line post) :
    load_records (pre ++ (line ++ post))
      = load_records pre ++ ((oui_line line).toList ++ load_records post) := by
  have hrest := load_records_step _ _ _ (fgets_line line post hl)
  rcases hpre with hp | ⟨q, hp⟩
  · subst hp
    rw [List.nil_append, hrest]
    rfl
  · subst hp
    rw [load_records_append _ q _ (le_refl _), hrest]

theorem strstr_some (s needle q : List Char) (h : strstr s needle = some q) :
    needle.isPrefixOf q = true := by
  induction s with
  | nil =>
    simp only [strstr] at h
    split_ifs at h with hn
    cases h
    subst hn
    rfl
  | cons c s ih =>
    rw [strstr] at h
    split_ifs at h with hp
    · cases h
      exact hp
    · exact ih h

theorem dropWhile_blank_of_dropWhile_space (x : List Char) :
    (x.dropWhile isspace).dropWhile (fun c => decide (c = '\t') || decide (c = ' '))
      = x.dropWhile isspace := by
  have hstop := stopsAt_dropWhile isspace x
  cases hd : x.dropWhile isspace with
  | nil => rfl
  | cons c t =>
    have hc : isspace c = false := hstop c (by rw [hd]; simp)
    have h1 : c ≠ '\t' := fun e => by rw [e] at hc; exact absurd hc (by decide)
    have h2 : c ≠ ' ' := fun e => by rw [e] at hc; exact absurd hc (by decide)
    simp [List.dropWhile_cons, h1, h2]

theorem vendor_trim_dropWhile (x : List Char) :
    vendor_trim (x.dropWhile isspace) = trimSpace x := by
  unfold vendor_trim trimSpace
  rw [dropWhile_blank_of_dropWhile_space]

/-- The vendor pointer on a line that contains the marker `(hex)`: the text
after its first occurrence, leading white space skipped. -/
theorem vendor_ptr_hex (line q : List Char) (hq : strstr line "(hex)".toList = some q) :
    vendor_ptr line = some ((q.drop 5).dropWhile isspace) := by
  have hp := strstr_some _ _ _ hq
  have hcmp : strncmpEq q "(base 16)".toList 10 = false := by
    match q, hp with
    | a :: b :: r, hp =>
      have hb : b = 'h' := by
        simp only [String.toList, List.isPrefixOf, Bool.and_eq_true, beq_iff_eq] at hp
        exact hp.2.1.symm
      subst hb
      show strncmpEq (a :: 'h' :: r) ('(' :: 'b' :: _) 10 = false
      simp [strncmpEq]
    | [], hp => simp [String.toList, List.isPrefixOf] at hp
    | [a], hp => simp [String.toList, List.isPrefixOf] at hp
  unfold vendor_ptr
  simp only [hq, hcmp, Bool.false_eq_true, if_false]

/-- The record of a candidate line that contains the marker `(hex)`. -/
theorem oui_line_hex (line a b c q : List Char) (hs : sscanf_oui line = some (a, b, c))
    (hq : strstr line "(hex)".toList = some q) :
    oui_line line =
      if trimSpace (q.drop 5) = [] then none
      else some ( normalize_prefix (a ++ b ++ c), trimSpace (q.drop 5)) := by
  unfold oui_line
  simp only [hs, vendor_ptr_hex line q hq, vendor_trim_dropWhile]
  by_cases h : trimSpace (q.drop 5) = []
  · simp [h]
  · have hl : (trimSpace (q.drop 5)).length > 0 := List.length_pos.2 h
    simp [h, hl]

/-! ## Shape of the loaded table -/

theorem getLast?_dropWhile (p : Char → Bool) (l : List Char) (h : l.dropWhile p ≠ []) :
    (l.dropWhile p).getLast? = l.getLast? := by
  induction l with
  | nil => rfl
  | cons c l ih =>
    cases hc : p c
    · simp [List.dropWhile_cons, hc]
    · simp only [List.dropWhile_cons, hc, if_true] at h ⊢
      rw [ih h]
      cases l with
      | nil => simp at h
      | cons d l => simp [List.getLast?_cons_cons]

/-- A trimmed text that is not empty neither starts nor ends with white
space. -/
theorem trimSpace_ends (y : List Char) (h : trimSpace y ≠ []) :
    (trimSpace y).head?.map isspace ≠ some true ∧
      (trimSpace y).getLast?.map isspace ≠ some true := by
  unfold trimSpace at h ⊢
  have hw : (y.dropWhile isspace).reverse.dropWhile isspace ≠ [] := by
    intro e
    rw [e] at h
    exact h rfl
  constructor
  · rw [List.head?_reverse, getLast?_dropWhile _ _ hw, List.getLast?_reverse]
    have hstop := stopsAt_dropWhile isspace y
    cases hd : (y.dropWhile isspace).head? with
    | none => simp
    | some c =>
      have := hstop c (by rw [hd]; rfl)
      simp [this]
  · rw [List.getLast?_reverse]
    have hstop := stopsAt_dropWhile isspace (y.dropWhile isspace).reverse
    cases hd : ((y.dropWhile isspace).reverse.dropWhile isspace).head? with
    | none => simp
    | some c =>
      have := hstop c (by rw [hd]; rfl)
      simp [this]

theorem vendor_ptr_form (line vd : List Char) (h : vendor_ptr line = some vd) :
    ∃ y : List Char, vd = y.dropWhile isspace := by
  unfold vendor_ptr at h
  cases h1 : strstr line "(hex)".toList with
  | some q =>
    simp only [h1, Option.some.injEq] at h
    exact ⟨_, h.symm⟩
  | none =>
    cases h2 : strstr line "(base 16)".toList with
    | some q =>
      simp only [h1, h2, Option.some.injEq] at h
      exact ⟨_, h.symm⟩
    | none =>
      simp only [h1, h2] at h
      split_ifs at h
      simp only [Option.some.injEq] at h
      exact ⟨_, h.symm⟩

/-- Every record a line yields has a vendor that is not empty and neither
starts nor ends with white space. -/
theorem oui_line_vendor (line : List Char) (r : List Char × List Char)
    (h : oui_line line = some r) :
    r.2 ≠ [] ∧ r.2.head?.map isspace ≠ some true ∧ r.2.getLast?.map isspace ≠ some true := by
  unfold oui_line at h
  cases hs : sscanf_oui line with
  | none => simp [hs] at h
  | some t =>
    obtain ⟨a, b, c⟩ := t
    cases hv : vendor_ptr line with
    | none => simp [hs, hv] at h
    | some vd =>
      obtain ⟨y, hy⟩ := vendor_ptr_form line vd hv
      simp only [hs, hv] at h
      split_ifs at h with hl
      simp only [Option.some.injEq] at h
      rw [← h, hy, vendor_trim_dropWhile] at *
      have hne : trimSpace y ≠ [] := List.length_pos.1 hl
      exact ⟨hne, trimSpace_ends y hne⟩

theorem load_loop_mem (fuel : Nat) :
    ∀ s r, r ∈ load_loop fuel s → ∃ line, oui_line line = some r := by
  induction fuel with
  | zero => intro s r h; simp [load_loop] at h
  | succ fuel ih =>
    intro s r h
    rw [load_loop] at h
    cases hf : fgets 1024 s with
    | none => simp [hf] at h
    | some lr =>
      obtain ⟨line, rest⟩ := lr
      simp only [hf] at h
      cases ho : oui_line line with
      | none =>
        simp only [ho] at h
        exact ih rest r h
      | some r2 =>
        simp only [ho, List.mem_cons] at h
        rcases h with h | h
        · exact ⟨line, by rw [ho, h]⟩
        · exact ih rest r h

theorem repeatLine_records (line : List Char) (r : List Char × List Char)
    (hl : ∃ body, line = body ++ ['\n'] ∧ ∀ c ∈ body, c ≠ '\n') (hlen : line.length ≤ 1023)
    (hr : oui_line line = some r) (n : Nat) :
    load_records (repeatLine line n) = List.replicate n r := by
  induction n with
  | zero => rfl
  | succ n ih =>
    have hne : line ≠ [] := by
      obtain ⟨body, hb, _⟩ := hl
      rw [hb]
      simp
    have := load_records_line [] line (repeatLine line n) (Or.inl rfl) ⟨hne, hlen, Or.inl hl⟩
    rw [List.nil_append] at this
    rw [repeatLine, this, hr, ih]
    rfl

/-! ## Shape of the printed address -/

theorem fmtU_length (n : Nat) (hn : n < 256) : (fmtU n).length ≤ 3 := by
  unfold fmtU
  by_cases h1 : n < 10
  · simp [decAux, h1]
  · by_cases h2 : n / 10 < 10
    · simp [decAux, h1, h2]
    · have h3 : n / 10 / 10 < 10 := by omega
      simp [decAux, h1, h2, h3]

theorem isOctetText_fmtU (n : Nat) (hn : n < 256) : isOctetText (fmtU n) = true := by
  obtain ⟨h1, h2, h3, h4⟩ := fmtU_spec n hn
  simp only [isOctetText, Bool.and_eq_true, Bool.not_eq_true', List.isEmpty_eq_false,
    List.all_eq_true, Bool.or_eq_true, bne_iff_ne, ne_eq, beq_iff_eq, decide_eq_true_eq]
  refine ⟨⟨⟨h1, h2⟩, ?_⟩, by omega⟩
  by_cases h0 : (fmtU n).head? = some '0'
  · right
    rw [h4 h0]
    rfl
  · exact Or.inl h0

theorem isspace_dotted (a b c d : List Char)
    (ha : ∀ x ∈ a, isdigit x = true) (hb : ∀ x ∈ b, isdigit x = true)
    (hc : ∀ x ∈ c, isdigit x = true) (hd : ∀ x ∈ d, isdigit x = true) :
    ∀ x ∈ dotted a b c d, isspace x = false := by
  intro x hx
  simp only [dotted, List.mem_append, List.mem_cons] at hx
  rcases hx with hx | hx | hx | hx | hx | hx | hx
  · exact isspace_of_isdigit (ha x hx)
  · rw [hx]; decide
  · exact isspace_of_isdigit (hb x hx)
  · rw [hx]; decide
  · exact isspace_of_isdigit (hc x hx)
  · rw [hx]; decide
  · exact isspace_of_isdigit (hd x hx)

/-! ## ARP line parsers -/

theorem firstToken_eq_nil_iff (s : List Char) : firstToken s = [] ↔ s.dropWhile isspace = [] := by
  unfold firstToken
  constructor
  · intro h
    have hstop := stopsAt_dropWhile isspace s
    cases hd : s.dropWhile isspace with
    | nil => rfl
    | cons c t =>
      have hc : isspace c = false := hstop c (by rw [hd]; simp)
      rw [hd] at h
      simp [List.takeWhile_cons, hc] at h
  · intro h
    rw [h]
    rfl

/-- The `%Ns` conversion stores the first `width` characters of the first
token, and fails exactly when there is no token. -/
theorem scanStr_eq (width : Nat) (s : List Char) :
    scanStr width s =
      if firstToken s = [] then none
      else some ((firstToken s).take width,
        (s.dropWhile isspace).drop ((firstToken s).take width).length) := by
  unfold scanStr
  by_cases h : s.dropWhile isspace = []
  · simp [h, (firstToken_eq_nil_iff s).2 h]
  · have h2 : ¬ firstToken s = [] := fun e => h ((firstToken_eq_nil_iff s).1 e)
    simp only [h, h2, if_false]
    rfl

theorem take_ne_nil (t : List Char) (n : Nat) (hn : 0 < n) (h : t ≠ []) : t.take n ≠ [] := by
  cases t with
  | nil => exact absurd rfl h
  | cons c t =>
    cases n with
    | zero => omega
    | succ n => simp

theorem scan_after_marker_eq (len : Nat) (m : List Char) :
    scan_after_marker len m = (firstToken (m.drop len)).take 63 := by
  unfold scan_after_marker
  rw [scanStr_eq]
  by_cases h : firstToken (m.drop len) = []
  · simp [h]
  · simp [h]

theorem scan_after_marker_nil_iff (len : Nat) (m : List Char) :
    scan_after_marker len m = [] ↔ firstToken (m.drop len) = [] := by
  rw [scan_after_marker_eq]
  constructor
  · intro h
    by_contra hne
    exact take_ne_nil _ 63 (by omega) hne h
  · intro h
    rw [h]
    rfl

theorem store_entry_eq (ft tok : List Char) (w : Nat) (h15 : ft.length ≤ 15) (hw : 31 ≤ w) :
    store_entry (ft.take 31) (tok.take w) = { ip := ft, mac := tok.take 31 } := by
  unfold store_entry
  rw [List.take_take, List.take_take, List.take_of_length_le (by omega)]
  congr 2
  omega

/-- Source `parse_linux_line` in closed form, for a first token that fits the
address field. -/
theorem parse_linux_line_eq (line : List Char) (h15 : (firstToken line).length ≤ 15) :
    parse_linux_line line =
      if firstToken line = [] then none
      else
        match strstr line "lladdr".toList with
        | some ll =>
          if firstToken (ll.drop 6) = [] then none
          else some { ip := firstToken line, mac := (firstToken (ll.drop 6)).take 31 }
        | none =>
          match strstr line "ether".toList with
          | some et =>
            if firstToken (et.drop 5) = [] then none
            else some { ip := firstToken line, mac := (firstToken (et.drop 5)).take 31 }
          | none => none := by
  unfold parse_linux_line linux_fields
  rw [scanStr_eq]
  by_cases h0 : firstToken line = []
  · simp [h0]
  · simp only [h0, if_false]
    cases h1 : strstr line "lladdr".toList with
    | some ll =>
      simp only [scan_after_marker_nil_iff]
      by_cases h2 : firstToken (ll.drop 6) = []
      · simp [h2]
      · simp only [h2, if_false, scan_after_marker_eq]
        rw [store_entry_eq _ _ 63 h15 (by omega)]
    | none =>
      cases h3 : strstr line "ether".toList with
      | some et =>
        simp only [scan_after_marker_nil_iff]
        by_cases h2 : firstToken (et.drop 5) = []
        · simp [h2]
        · simp only [h2, if_false, scan_after_marker_eq]
          rw [store_entry_eq _ _ 63 h15 (by omega)]
      | none => rfl

theorem take_eq_nil_iff' (t : List Char) (n : Nat) (hn : 0 < n) : t.take n = [] ↔ t = [] := by
  constructor
  · intro h
    by_contra hne
    exact take_ne_nil t n hn hne h
  · intro h
    rw [h]
    simp

/-- Source `parse_macos_line` in closed form. -/
theorem parse_macos_line_eq (line : List Char) :
    parse_macos_line line =
      if line.dropWhile (fun c => c != '(') = [] then none
      else if parenText line = [] then none
      else
        match strstr line " at ".toList with
        | none => none
        | some a =>
          if firstToken (a.drop 4) = [] then none
          else if (strstr ((firstToken (a.drop 4)).take 63) "(incomplete)".toList).isSome
          then none
          else some (store_entry ((parenText line).take 31) ((firstToken (a.drop 4)).take 63)) := by
  unfold parse_macos_line macos_fields
  rw [strchr_eq]
  by_cases h0 : line.dropWhile (fun c => c != '(') = []
  · simp [h0]
  · simp only [h0, if_false, scanNotParen]
    have hp : ((line.dropWhile fun c => c != '(').tail.takeWhile fun c => c != ')')
        = parenText line := rfl
    rw [hp]
    by_cases h1 : parenText line = []
    · simp [h1]
    · have h1b : ¬ (parenText line).take 31 = [] :=
        fun e => h1 ((take_eq_nil_iff' _ 31 (by omega)).1 e)
      simp only [h1, h1b, if_false]
      generalize strstr line " at ".toList = A
      cases A with
      | none => rfl
      | some a =>
        simp only [scanStr_eq]
        by_cases h2 : firstToken (a.drop 4) = []
        · simp [h2]
        · simp only [h2, if_false]
          generalize (strstr ((firstToken (a.drop 4)).take 63) "(incomplete)".toList).isSome = b
          cases b <;> rfl

/-- The `%Ns` conversion on optional white space, a token that fits the width,
and a rest that starts with white space or is empty. -/
theorem scanStr_token (w : Nat) (ws t rest : List Char)
    (hws : ∀ c ∈ ws, isspace c = true) (hne : t ≠ []) (ht : ∀ c ∈ t, isspace c = false)
    (hrest : ∀ c ∈ rest.head?, isspace c = true) (hlen : t.length ≤ w) :
    scanStr w (ws ++ (t ++ rest)) = some (t, rest) := by
  obtain ⟨c, t2, rfl⟩ := List.exists_cons_of_ne_nil hne
  have hc := ht c (List.mem_cons_self _ _)
  have hd : (ws ++ (c :: t2 ++ rest)).dropWhile isspace = c :: t2 ++ rest := by
    rw [dropWhile_all isspace ws _ hws, List.cons_append]
    exact dropWhile_head_false _ c _ hc
  have hrun := takeWhile_run (fun x => !isspace x) (c :: t2) rest
    (fun x hx => by simp [ht x hx]) (fun x hx => by simp [hrest x hx])
  unfold scanStr
  simp only [hd, hrun.1, List.take_of_length_le hlen]
  simp

theorem dropWhile_space_blank (line : List Char) :
    (line.dropWhile fun c => decide (c = ' ') || decide (c = '\t')).dropWhile isspace
      = line.dropWhile isspace := by
  induction line with
  | nil => rfl
  | cons c l ih =>
    by_cases hb : (decide (c = ' ') || decide (c = '\t')) = true
    · have hs : isspace c = true := by
        simp only [Bool.or_eq_true, decide_eq_true_eq] at hb
        rcases hb with e | e <;> rw [e] <;> decide
      simp only [List.dropWhile_cons, hb, if_true, hs, ih]
    · simp [List.dropWhile_cons, hb]

/-- A line whose first character after white space is not a decimal digit is
rejected by `parse_windows_line`. -/
theorem windows_reject (line : List Char)
    (h : ∀ c ∈ (line.dropWhile isspace).head?, isdigit c = false) :
    parse_windows_line line = none := by
  have hd := dropWhile_space_blank line
  unfold parse_windows_line windows_fields
  cases hp : line.dropWhile (fun c => decide (c = ' ') || decide (c = '\t')) with
  | nil => rfl
  | cons c r =>
    have hnd : isdigit c = false := by
      cases hs : isspace c
      · rw [hp, dropWhile_head_false _ c r hs] at hd
        exact h c (by rw [← hd]; simp)
      · cases hdg : isdigit c
        · rfl
        · rw [isspace_of_isdigit hdg] at hs
          cases hs
    simp [hnd]

theorem windows_mac_no_hyphen (line : List Char) (e : arp_entry_t)
    (h : parse_windows_line line = some e) : '-' ∉ e.mac := by
  unfold parse_windows_line at h
  cases hf : windows_fields line with
  | none => simp [hf] at h
  | some f =>
    obtain ⟨ip, mac⟩ := f
    simp only [hf, Option.some.injEq] at h
    subst h
    unfold windows_fields at hf
    simp only at hf
    split at hf
    · cases hf
    · split_ifs at hf
      split at hf
      · cases hf
      · split at hf
        · cases hf
        · simp only [Option.some.injEq, Prod.mk.injEq] at hf
          intro hm
          have hm2 : '-' ∈ mac := List.mem_of_mem_take hm
          rw [← hf.2] at hm2
          obtain ⟨q, _, hq⟩ := List.mem_map.1 hm2
          split_ifs at hq with hq2
          · exact absurd hq (by decide)
          · exact hq2 hq

/-! ## What the parsers store -/

theorem store_entry_fits (ip mac : List Char) :
    (store_entry ip mac).ip.length ≤ 15 ∧ (store_entry ip mac).mac.length ≤ 31 := by
  simp only [store_entry, List.length_take]
  omega

theorem linux_fields_ip (line ip mac : List Char) (h : linux_fields line = some (ip, mac)) :
    ip = (firstToken line).take 31 := by
  unfold linux_fields at h
  rw [scanStr_eq] at h
  by_cases h0 : firstToken line = []
  · simp [h0] at h
  · simp only [h0, if_false] at h
    generalize strstr line "lladdr".toList = A at h
    generalize strstr line "ether".toList = B at h
    cases A with
    | some ll =>
      simp only at h
      split_ifs at h
      simp only [Option.some.injEq, Prod.mk.injEq] at h
      exact h.1.symm
    | none =>
      cases B with
      | some et =>
        simp only at h
        split_ifs at h
        simp only [Option.some.injEq, Prod.mk.injEq] at h
        exact h.1.symm
      | none => cases h

theorem macos_fields_ip (line ip mac : List Char) (h : macos_fields line = some (ip, mac)) :
    ip = (parenText line).take 31 := by
  unfold macos_fields at h
  rw [strchr_eq] at h
  by_cases h0 : line.dropWhile (fun c => c != '(') = []
  · simp [h0] at h
  · simp only [h0, if_false, scanNotParen] at h
    have hp : ((line.dropWhile fun c => c != '(').tail.takeWhile fun c => c != ')')
        = parenText line := rfl
    rw [hp] at h
    by_cases h1 : (parenText line).take 31 = []
    · simp [h1] at h
    · simp only [h1, if_false] at h
      generalize strstr line " at ".toList = A at h
      cases A with
      | none => cases h
      | some a =>
        simp only at h
        cases hs : scanStr 63 (a.drop 4) with
        | none => simp [hs] at h
        | some r =>
          obtain ⟨m, r2⟩ := r
          simp only [hs] at h
          split_ifs at h
          simp only [Option.some.injEq, Prod.mk.injEq] at h
          exact h.1.symm

theorem firstToken_blank (line : List Char) :
    firstToken (line.dropWhile fun c => decide (c = ' ') || decide (c = '\t'))
      = firstToken line := by
  unfold firstToken
  rw [dropWhile_space_blank]

theorem windows_fields_ip (line ip mac : List Char) (h : windows_fields line = some (ip, mac)) :
    ip = (firstToken line).take 31 := by
  unfold windows_fields at h
  simp only at h
  rw [← firstToken_blank line]
  generalize line.dropWhile (fun c => decide (c = ' ') || decide (c = '\t')) = p at h ⊢
  cases p with
  | nil => cases h
  | cons c r =>
    simp only at h
    split_ifs at h
    rw [scanStr_eq] at h
    by_cases h0 : firstToken (c :: r) = []
    · simp [h0] at h
    · simp only [h0, if_false] at h
      split at h
      · cases h
      · simp only [Option.some.injEq, Prod.mk.injEq] at h
        exact h.1.symm

/-! ## Claims -/

/-- C1: every dotted-decimal text of exactly four decimal octets in 0..255,
each written without leading zeros and separated by single dots, is accepted by
`ipstr_to_uint32` with some value `v`, and `uint32_to_ipstr v` writes exactly
the same text back. -/
theorem c1_text_roundtrip (a b c d : List Char)
    (ha : isOctetText a = true) (hb : isOctetText b = true)
    (hc : isOctetText c = true) (hd : isOctetText d = true) :
    ∃ v, ipstr_to_uint32 (dotted a b c d) = some v ∧
      uint32_to_ipstr v = dotted a b c d := by
  have pa := isOctetText_parts ha
  have pb := isOctetText_parts hb
  have pc := isOctetText_parts hc
  have pd := isOctetText_parts hd
  refine ⟨_, ipstr_to_uint32_dotted a b c d pa pb pc pd, ?_⟩
  rw [uint32_to_ipstr_eq]
  have e0 : (decVal a * 16777216 + decVal b * 65536 + decVal c * 256 + decVal d)
      / 16777216 % 256 = decVal a := by omega
  have e1 : (decVal a * 16777216 + decVal b * 65536 + decVal c * 256 + decVal d)
      / 65536 % 256 = decVal b := by omega
  have e2 : (decVal a * 16777216 + decVal b * 65536 + decVal c * 256 + decVal d)
      / 256 % 256 = decVal c := by omega
  have e3 : (decVal a * 16777216 + decVal b * 65536 + decVal c * 256 + decVal d)
      % 256 = decVal d := by omega
  rw [e0, e1, e2, e3, fmtU_decVal a ha, fmtU_decVal b hb, fmtU_decVal c hc, fmtU_decVal d hd]

theorem c1_text_roundtrip_witness :
    ∃ v, ipstr_to_uint32 (dotted "192".toList "168".toList "1".toList "0".toList) = some v ∧
      uint32_to_ipstr v = dotted "192".toList "168".toList "1".toList "0".toList :=
  c1_text_roundtrip "192".toList "168".toList "1".toList "0".toList
    (by decide) (by decide) (by decide) (by decide)

/-- C2 as stated fails: the text " 1.2.3.4" starts with a space, so it is not
four runs of decimal digits separated by dots, yet `ipstr_to_uint32` accepts it
(as 1.2.3.4); the same holds for a sign in front of an octet. -/
theorem c2_strict_rejection_counterexample :
    (isStrictDotted " 1.2.3.4".toList = false ∧
      ipstr_to_uint32 " 1.2.3.4".toList = some 16909060) ∧
    (isStrictDotted "1.+2.3.-0".toList = false ∧
      ipstr_to_uint32 "1.+2.3.-0".toList = some 16909056) := by
  decide

/-- C2 amended: `ipstr_to_uint32` fails (returns -1) on exactly the texts that
are not four fields separated by single dots, each field being optional white
space, an optional sign and a non-empty run of decimal digits of value 0..255
(only 0 after a minus sign) that ends the field. So a wrong field count, an
out-of-range octet, trailing characters after the fourth octet and any
character other than a digit, a separating dot, white space in front of a field
or a sign in front of its digits are all rejected. -/
theorem c2_fails_iff_not_lax (t : List Char) :
    ipstr_to_uint32 t = none ↔ isLaxDotted t = false := by
  have h := isLaxDotted_iff t
  constructor
  · intro hn
    cases hl : isLaxDotted t with
    | false => rfl
    | true =>
      obtain ⟨v, hv⟩ := h.1 hl
      rw [hn] at hv
      cases hv
  · intro hl
    cases hr : ipstr_to_uint32 t with
    | none => rfl
    | some v =>
      have := h.2 ⟨v, hr⟩
      rw [hl] at this
      cases this

/-- C3 as stated fails: the base text "0000000000000000000000000010.0.0.0" is
accepted by `ipstr_to_uint32` (as 10.0.0.0), but `expand_cidr` rejects every
base text of 32 characters or more, so with "/32" appended it returns -1. -/
theorem c3_long_base_counterexample :
    ipstr_to_uint32 "0000000000000000000000000010.0.0.0".toList = some 167772160 ∧
      expand_cidr ("0000000000000000000000000010.0.0.0".toList ++ '/' :: "32".toList)
        = .error := by
  decide

/-- C3 amended: for every base text X accepted by `ipstr_to_uint32` that is
shorter than 32 characters and every prefix length P in 2..32 written as a run
of decimal digits, `expand_cidr` on X, a slash and P succeeds, returns exactly
2^(32-P) as its count and stores that many addresses; for P = 32 the list is
the single address equal to the base. -/
theorem c3_cardinality (x ds : List Char) (b p : Nat)
    (hx : ipstr_to_uint32 x = some b) (hlen : x.length < 32)
    (hds : ds ≠ [] ∧ (∀ c ∈ ds, isdigit c = true) ∧ decVal ds = p)
    (hp : 2 ≤ p ∧ p ≤ 32) :
    ∃ ips, expand_cidr (x ++ '/' :: ds) = .ok ((2 ^ (32 - p) : Nat) : Int) ips ∧
      ips.length = 2 ^ (32 - p) ∧ (p = 32 → ips = [uint32_to_ipstr b]) := by
  obtain ⟨h1, h2, h3⟩ := slash_split x ds (ipstr_to_uint32_no_slash x b hx)
  have ha : atoi ds = (p : Int) := by
    rw [atoi_digits ds hds.1 hds.2.1 (by omega), hds.2.2]
  refine ⟨expand_list b (2 ^ (32 - p)), ?_, expand_list_length _ _, ?_⟩
  · rw [expand_cidr_eq, h1, h2, h3, ha, hx]
    have c1 : ¬ (x.length ≥ 32) := by omega
    have c2 : ¬ ((p : Int) < 0 ∨ (p : Int) > 32) := by omega
    simp only [c1, c2, if_false, reduceCtorEq]
    exact expand_ok_eq b p hp.1 hp.2
  · intro e
    subst e
    have := ipstr_to_uint32_lt x b hx
    show [uint32_to_ipstr ((b + 0) % 2 ^ 32)] = [uint32_to_ipstr b]
    rw [Nat.add_zero, Nat.mod_eq_of_lt (by norm_num; exact this)]

theorem c3_cardinality_witness :
    ∃ ips, expand_cidr ("192.168.1.0".toList ++ '/' :: "30".toList)
        = .ok ((2 ^ (32 - 30) : Nat) : Int) ips ∧
      ips.length = 2 ^ (32 - 30) ∧ (30 = 32 → ips = [uint32_to_ipstr 3232235776]) :=
  c3_cardinality "192.168.1.0".toList "30".toList 3232235776 30 (by decide) (by decide)
    (by decide) (by decide)

/-- C4: whenever `expand_cidr` stores a list, the text left of the first slash
is accepted by `ipstr_to_uint32` with some value b, and the element at every
index i is the dotted-decimal text of b + i (as a 32-bit sum): the list starts
exactly at the literal base, which is never masked to the network boundary.
"192.168.1.0/30" gives exactly 192.168.1.0, 192.168.1.1, 192.168.1.2,
192.168.1.3 in that order, and "192.168.1.5/24" starts at 192.168.1.5. -/
theorem c4_elements (cidr : List Char) (ret : Int) (ips : List (List Char))
    (h : expand_cidr cidr = .ok ret ips) :
    (∃ b, ipstr_to_uint32 (leftOfSlash cidr) = some b ∧
      ips.head? = some (uint32_to_ipstr b) ∧
      ∀ i, i < ips.length →
        ips[i]? = some (uint32_to_ipstr (b + i)) ∧
        ips[i]? = some (uint32_to_ipstr ((b + i) % 2 ^ 32))) ∧
    expand_cidr "192.168.1.0/30".toList = .ok 4 ["192.168.1.0".toList,
      "192.168.1.1".toList, "192.168.1.2".toList, "192.168.1.3".toList] ∧
    (expand_cidr "192.168.1.5/24".toList).ips?.bind List.head?
      = some "192.168.1.5".toList := by
  refine ⟨?_, by decide, by decide⟩
  obtain ⟨b, n, hb, hn, hips, _⟩ := expand_cidr_ok cidr ret ips h
  refine ⟨b, hb, ?_, ?_⟩
  · subst hips
    have := expand_list_get b n 0 hn
    rw [Nat.add_zero, uint32_to_ipstr_mod] at this
    rw [← this]
    cases expand_list b n <;> simp
  · intro i hi
    subst hips
    rw [expand_list_length] at hi
    rw [expand_list_get b n i hi, uint32_to_ipstr_mod]
    exact ⟨rfl, rfl⟩

theorem c4_elements_witness :
    expand_cidr "192.168.1.0/30".toList = .ok 4 ["192.168.1.0".toList,
      "192.168.1.1".toList, "192.168.1.2".toList, "192.168.1.3".toList] ∧
    ∃ b, ipstr_to_uint32 (leftOfSlash "192.168.1.0/30".toList) = some b ∧
      ["192.168.1.0".toList, "192.168.1.1".toList, "192.168.1.2".toList,
        "192.168.1.3".toList].head? = some (uint32_to_ipstr b) :=
  ⟨by decide,
    let ⟨b, hb, hh, _⟩ := (c4_elements "192.168.1.0/30".toList 4 ["192.168.1.0".toList,
      "192.168.1.1".toList, "192.168.1.2".toList, "192.168.1.3".toList] (by decide)).1
    ⟨b, hb, hh⟩⟩

/-- C5 as stated fails: `expand_cidr` on "255.255.255.255/31" stores
255.255.255.255 followed by 0.0.0.0, so the numeric value of element 0 is not
below that of element 1: the 32-bit sum wraps past 255.255.255.255. -/
theorem c5_wrap_counterexample :
    expand_cidr "255.255.255.255/31".toList
        = .ok 2 ["255.255.255.255".toList, "0.0.0.0".toList] ∧
      ipstr_to_uint32 "255.255.255.255".toList = some 4294967295 ∧
      ipstr_to_uint32 "0.0.0.0".toList = some 0 ∧ ¬ (4294967295 < 0) := by
  decide

/-- C5 amended: whenever `expand_cidr` stores a list and the base value b plus
the number of stored addresses does not exceed 2^32 (the range does not run
past 255.255.255.255), the stored addresses are in strictly ascending order of
their 32-bit numeric value: for all indices i < j the value of element i is
less than that of element j. -/
theorem c5_ascending (cidr : List Char) (ret : Int) (ips : List (List Char)) (b : Nat)
    (h : expand_cidr cidr = .ok ret ips)
    (hb : ipstr_to_uint32 (leftOfSlash cidr) = some b)
    (hw : b + ips.length ≤ 2 ^ 32) :
    ∀ i j, i < j → j < ips.length →
      ∃ vi vj, ips[i]?.bind ipstr_to_uint32 = some vi ∧
        ips[j]?.bind ipstr_to_uint32 = some vj ∧ vi < vj := by
  intro i j hij hj
  obtain ⟨b2, n, hb2, _, hips, _⟩ := expand_cidr_ok cidr ret ips h
  rw [hb] at hb2
  cases Option.some.inj hb2
  subst hips
  rw [expand_list_length] at hj hw
  have hi : i < n := by omega
  refine ⟨b + i, b + j, ?_, ?_, by omega⟩
  · rw [expand_list_get b n i hi, Nat.mod_eq_of_lt (by omega)]
    exact ipstr_to_uint32_roundtrip _ (by omega)
  · rw [expand_list_get b n j hj, Nat.mod_eq_of_lt (by omega)]
    exact ipstr_to_uint32_roundtrip _ (by omega)

theorem c5_ascending_witness :
    ∃ vi vj, (["192.168.1.0".toList, "192.168.1.1".toList, "192.168.1.2".toList,
        "192.168.1.3".toList])[1]?.bind ipstr_to_uint32 = some vi ∧
      (["192.168.1.0".toList, "192.168.1.1".toList, "192.168.1.2".toList,
        "192.168.1.3".toList])[3]?.bind ipstr_to_uint32 = some vj ∧ vi < vj :=
  c5_ascending "192.168.1.0/30".toList 4 ["192.168.1.0".toList, "192.168.1.1".toList,
    "192.168.1.2".toList, "192.168.1.3".toList] 3232235776 (by decide) (by decide)
    (by decide) 1 3 (by decide) (by decide)

/-- C6 as stated fails: in "10.0.0.0/24x" the text right of the slash contains
a non-numeric character, so it is not a decimal integer in 0..32, yet
`expand_cidr` succeeds and returns 256 (`atoi` reads the leading 24 and ignores
the rest); likewise a space or a sign in front of the digits is accepted. -/
theorem c6_trailing_garbage_counterexample :
    (isPrefixLenText (rightOfSlash "10.0.0.0/24x".toList) = false ∧
      (expand_cidr "10.0.0.0/24x".toList).ret? = some 256) ∧
    (isPrefixLenText (rightOfSlash "10.0.0.0/ +30".toList) = false ∧
      (expand_cidr "10.0.0.0/ +30".toList).ret? = some 4) := by
  decide

/-- C6 amended: `expand_cidr` fails (returns -1, nothing stored in the output
parameter) exactly when the input has no slash, or the text left of the first
slash has 32 or more characters or is rejected by `ipstr_to_uint32`, or the
integer `atoi` reads at the start of the text right of it (optional white
space, an optional sign, the leading digits, 0 when there are none, the rest
ignored) is outside 0..32. In particular it fails for "not-a-cidr",
"10.0.0.0/33" and "10.0.0/24". -/
theorem c6_error_iff (cidr : List Char) :
    (expand_cidr cidr = .error ↔
      ('/' ∉ cidr ∨ 32 ≤ (leftOfSlash cidr).length ∨
        ipstr_to_uint32 (leftOfSlash cidr) = none ∨
        atoi (rightOfSlash cidr) < 0 ∨ atoi (rightOfSlash cidr) > 32)) ∧
    (expand_cidr cidr = .error → (expand_cidr cidr).ips? = none) ∧
    expand_cidr "not-a-cidr".toList = .error ∧
    expand_cidr "10.0.0.0/33".toList = .error ∧
    expand_cidr "10.0.0/24".toList = .error := by
  refine ⟨?_, fun h => by rw [h]; rfl, by decide, by decide, by decide⟩
  rw [expand_cidr_eq, ← no_slash_iff]
  by_cases h1 : cidr.dropWhile (· != '/') = []
  · simp [h1]
  by_cases h2 : (leftOfSlash cidr).length ≥ 32
  · simp [h1, h2]
  by_cases h3 : atoi (rightOfSlash cidr) < 0 ∨ atoi (rightOfSlash cidr) > 32
  · rw [if_neg h1, if_neg h2, if_pos h3]
    simp only [true_iff]
    rcases h3 with h3 | h3
    · exact Or.inr (Or.inr (Or.inr (Or.inl h3)))
    · exact Or.inr (Or.inr (Or.inr (Or.inr h3)))
  rw [if_neg h1, if_neg h2, if_neg h3]
  cases hb : ipstr_to_uint32 (leftOfSlash cidr) with
  | none => simp
  | some b =>
    simp only [expand_ok_ne_error, false_iff, reduceCtorEq, false_or, h1]
    intro h
    rcases h with h | h | h
    · exact h2 h
    · exact h3 (Or.inl h)
    · exact h3 (Or.inr h)

/-- C7: for every three byte values b0, b1, b2 and every hardware-address text
whose first three octets are written as one or two hexadecimal digits each (of
either case, so one digit only for values below 16), separated by `:` or `-`
and followed by the end of the text or a separator and any remainder,
`mac_to_oui_prefix` succeeds and yields the same 6-character text: b0, b1, b2
each as exactly two uppercase hexadecimal digits. In particular
"0:AA:bb:11:22:33" and "00-AA-BB-11-22-33" both yield "00AABB". -/
theorem c7_normalized_oui (b0 b1 b2 : Nat) (t0 t1 t2 tl : List Char) (s1 s2 : Char)
    (h0 : isHexOctetText t0 = true ∧ hexVal t0 = b0)
    (h1 : isHexOctetText t1 = true ∧ hexVal t1 = b1)
    (h2 : isHexOctetText t2 = true ∧ hexVal t2 = b2)
    (hs : isOctetSep s1 = true ∧ isOctetSep s2 = true) (htl : isMacTail tl = true) :
    ( mac_to_oui_prefix (t0 ++ s1 :: (t1 ++ s2 :: (t2 ++ tl)))
        = some (upperHex2 b0 ++ upperHex2 b1 ++ upperHex2 b2) ∧
      (upperHex2 b0 ++ upperHex2 b1 ++ upperHex2 b2).length = 6) ∧
    mac_to_oui_prefix "0:AA:bb:11:22:33".toList = some "00AABB".toList ∧
    mac_to_oui_prefix "00-AA-BB-11-22-33".toList = some "00AABB".toList := by
  refine ⟨⟨?_, rfl⟩, by decide, by decide⟩
  rw [← h0.2, ← h1.2, ← h2.2]
  exact mac_to_oui_prefix_octets t0 t1 t2 tl s1 s2 h0.1 h1.1 h2.1 hs.1 hs.2 htl

theorem c7_normalized_oui_witness :
    mac_to_oui_prefix ("0".toList ++ ':' :: ("AA".toList ++ ':' :: ("bb".toList
        ++ ":11:22:33".toList)))
      = some (upperHex2 0 ++ upperHex2 170 ++ upperHex2 187) ∧
    mac_to_oui_prefix ("00".toList ++ '-' :: ("aa".toList ++ '-' :: ("BB".toList ++ [])))
      = some (upperHex2 0 ++ upperHex2 170 ++ upperHex2 187) :=
  ⟨(c7_normalized_oui 0 170 187 "0".toList "AA".toList "bb".toList ":11:22:33".toList
      ':' ':' (by decide) (by decide) (by decide) (by decide) (by decide)).1.1,
    (c7_normalized_oui 0 170 187 "00".toList "aa".toList "BB".toList [] '-' '-'
      (by decide) (by decide) (by decide) (by decide) (by decide)).1.1⟩

/-- C8 as stated fails: "1G:22:33" has the first token "1G", which contains a
character that is not a hex digit, and "+1:2:3" has the first token "+1", yet
`mac_to_oui_prefix` succeeds on both (`strtol` reads the leading numeral and
the rest of the token is not checked); "00000000000000123:45" has only two
tokens, yet it succeeds too, because a token is cut after 15 characters. -/
theorem c8_lenient_token_counterexample :
    (macRuns "1G:22:33".toList = ["1G".toList, "22".toList, "33".toList] ∧
      isHexByteText "1G".toList = false ∧
      mac_to_oui_prefix "1G:22:33".toList = some "012233".toList) ∧
    (macRuns "+1:2:3".toList = ["+1".toList, "2".toList, "3".toList] ∧
      isHexByteText "+1".toList = false ∧
      mac_to_oui_prefix "+1:2:3".toList = some "010203".toList) ∧
    ((macRuns "00000000000000123:45".toList).length = 2 ∧
      mac_to_oui_prefix "00000000000000123:45".toList = some "012345".toList) := by
  decide

/-- C8 amended: on every input whose tokens (split on `:`, `-`, `.` and white
space) have at most 15 characters each, `mac_to_oui_prefix` fails (returns -1)
when there are fewer than three tokens, or when one of the first three tokens
does not start with a hex numeral of value 0..255 as base-16 `strtol` reads it
(an optional sign and an optional `0x` allowed, characters after the numeral
ignored). -/
theorem c8_rejects_bad_tokens (m : List Char)
    (h15 : ∀ t ∈ macRuns m, t.length ≤ 15)
    (hbad : (macRuns m).length < 3 ∨
      ∃ t ∈ (macRuns m).take 3, startsWithHexByte t = false) :
    mac_to_oui_prefix m = none := by
  cases h : mac_to_oui_prefix m with
  | none => rfl
  | some out =>
    obtain ⟨h1, h2⟩ := mac_loop_tokens 3 m out h15 h
    rcases hbad with hb | ⟨t, ht, hb⟩
    · omega
    · rw [h2 t ht] at hb
      cases hb

theorem c8_rejects_bad_tokens_witness :
    mac_to_oui_prefix "28:6F".toList = none ∧ mac_to_oui_prefix "28:6F:G9:00".toList = none
      ∧ mac_to_oui_prefix "28:6F:100".toList = none :=
  ⟨c8_rejects_bad_tokens "28:6F".toList (by decide) (Or.inl (by decide)),
    c8_rejects_bad_tokens "28:6F:G9:00".toList (by decide)
      (Or.inr ⟨"G9".toList, by decide, by decide⟩),
    c8_rejects_bad_tokens "28:6F:100".toList (by decide)
      (Or.inr ⟨"100".toList, by decide, by decide⟩)⟩

/-- C9: for every hardware-address text m and every table of n parallel
prefixes and vendors: if `mac_to_oui_prefix` succeeds on m with prefix p and
some index holds p, `lookup_oui_vendor` returns the vendor at the smallest such
index (first match in load order); in every other case (the prefix cannot be
formed, or no entry holds it) it returns the null pointer, in particular for
every m against an empty table. With "286FB9" mapped to
"Nokia Shanghai Bell Co., Ltd.", "28:6F:B9:00:11:22" returns that vendor and
"FF:FF:FF:00:00:00" returns not found. -/
theorem c9_lookup_first_match (m : List Char) (prefixes vendors : List (List Char)) (n : Nat)
    (hp : prefixes.length = n) (hv : vendors.length = n) :
    (∀ (p : List Char) (i : Nat), mac_to_oui_prefix m = some p → prefixes[i]? = some p →
      (∀ j : Nat, j < i → prefixes[j]? ≠ some p) →
      ∃ v, vendors[i]? = some v ∧ lookup_oui_vendor m prefixes vendors n = some v) ∧
    (( mac_to_oui_prefix m = none ∨ ∃ p, mac_to_oui_prefix m = some p ∧ p ∉ prefixes) →
      lookup_oui_vendor m prefixes vendors n = none) ∧
    lookup_oui_vendor m [] [] 0 = none ∧
    lookup_oui_vendor "28:6F:B9:00:11:22".toList ["286FB9".toList]
      ["Nokia Shanghai Bell Co., Ltd.".toList] 1 = some "Nokia Shanghai Bell Co., Ltd.".toList ∧
    lookup_oui_vendor "FF:FF:FF:00:00:00".toList ["286FB9".toList]
      ["Nokia Shanghai Bell Co., Ltd.".toList] 1 = none := by
  refine ⟨?_, ?_, by simp [lookup_oui_vendor], by decide, by decide⟩
  · intro p i hm hi hfirst
    have hin : i < n := by
      rw [← hp]
      exact (List.getElem?_eq_some_iff.1 hi).1
    have hpos : ¬ ((n : Int) ≤ 0) := by omega
    obtain ⟨h1, h2⟩ := lookup_scan_first p prefixes vendors n i (by rw [hp, hv]) hin hi hfirst
    obtain ⟨v, hv2⟩ : ∃ v, vendors[i]? = some v := ⟨vendors[i], List.getElem?_eq_getElem h2⟩
    refine ⟨v, hv2, ?_⟩
    simp only [lookup_oui_vendor, hpos, if_false, hm, Int.toNat_ofNat, h1, hv2]
  · intro h
    unfold lookup_oui_vendor
    split_ifs
    · rfl
    · rcases h with h | ⟨p, h, hnot⟩
      · simp [h]
      · simp only [h]
        exact lookup_scan_none p prefixes vendors _ hnot

theorem c9_lookup_first_match_witness :
    ∃ v, (["Nokia".toList, "Other".toList])[0]? = some v ∧
      lookup_oui_vendor "28-6f-b9-00-11-22".toList ["286FB9".toList, "286FB9".toList]
        ["Nokia".toList, "Other".toList] (2 : Nat) = some v :=
  (c9_lookup_first_match "28-6f-b9-00-11-22".toList ["286FB9".toList, "286FB9".toList]
    ["Nokia".toList, "Other".toList] 2 (by decide) (by decide)).1 "286FB9".toList 0
    (by decide) (by decide) (by intro j hj; omega)

/-- C10 as stated fails: a file whose only line is "28-6F-B9 (hex) " followed
by a vendor text V of 1020 letters and a newline has the stated form, but
`load_oui_db` reads lines through a 1024-byte buffer, so the record stored
holds only the first 1008 letters and the lookup returns that shorter text,
not V. -/
theorem c10_long_line_counterexample :
    (isTwoHex "28".toList = true ∧ isTwoHex "6F".toList = true ∧ isTwoHex "B9".toList = true ∧
      isVendorText (List.replicate 1020 'A') = true) ∧
    load_oui_db (some (hexRecordLine [] "28".toList "6F".toList "B9".toList [' '] [' ']
        (List.replicate 1020 'A') ['\n']))
      = some (1, ["286FB9".toList], [List.replicate 1008 'A']) ∧
    lookup_oui_vendor "28:6F:B9:00:11:22".toList ["286FB9".toList]
      [List.replicate 1008 'A'] 1 = some (List.replicate 1008 'A') ∧
    List.replicate 1008 'A' ≠ List.replicate 1020 'A' := by
  set_option maxRecDepth 100000 in decide

/-- C10 amended: end to end, for every OUI file that yields fewer than 2^31
records and in which a line of at most 1023 characters (its newline included)
has the form of optional leading white space, a hyphenated token XX-XX-XX with
two hex digits per octet (any case), white space, the marker "(hex)", white
space, and a non-empty vendor text V without leading or trailing white space,
no earlier line yielding a record for the same prefix, and for every
hardware-address text whose first three octets have the values XX, XX, XX (one
or two hex digits of any case each, `:` or `-` separators),
`lookup_oui_vendor` over the table returned by `load_oui_db` returns exactly
V. -/
theorem c10_load_then_lookup
    (pre post ws0 o1 o2 o3 ws1 ws2 v eol t0 t1 t2 tl : List Char) (s1 s2 : Char)
    (hpre : pre = [] ∨ ∃ q, pre = q ++ ['\n'])
    (hws : (∀ c ∈ ws0, isLineSpace c = true) ∧ (∀ c ∈ ws1, isLineSpace c = true) ∧
      (∀ c ∈ ws2, isLineSpace c = true))
    (ho : isTwoHex o1 = true ∧ isTwoHex o2 = true ∧ isTwoHex o3 = true)
    (hv : isVendorText v = true) (heol : eol = ['\n'] ∨ (eol = [] ∧ post = []))
    (hlen : (hexRecordLine ws0 o1 o2 o3 ws1 ws2 v eol).length ≤ 1023)
    (hfirst : ∀ r ∈ load_records pre, r.1 ≠ (o1 ++ o2 ++ o3).map toupper)
    (hcount : (load_records
      (pre ++ (hexRecordLine ws0 o1 o2 o3 ws1 ws2 v eol ++ post))).length < 2 ^ 31)
    (hm0 : isHexOctetText t0 = true ∧ hexVal t0 = hexVal o1)
    (hm1 : isHexOctetText t1 = true ∧ hexVal t1 = hexVal o2)
    (hm2 : isHexOctetText t2 = true ∧ hexVal t2 = hexVal o3)
    (hs : isOctetSep s1 = true ∧ isOctetSep s2 = true) (htl : isMacTail tl = true) :
    ∃ cnt prefixes vendors,
      load_oui_db (some (pre ++ (hexRecordLine ws0 o1 o2 o3 ws1 ws2 v eol ++ post)))
        = some (cnt, prefixes, vendors) ∧
      lookup_oui_vendor (t0 ++ s1 :: (t1 ++ s2 :: (t2 ++ tl))) prefixes vendors cnt
        = some v := by
  have hrec := load_records_around pre post ws0 o1 o2 o3 ws1 ws2 v eol hpre hws.1 hws.2.1
    hws.2.2 ho.1 ho.2.1 ho.2.2 hv heol hlen
  have hmac := mac_to_oui_prefix_octets t0 t1 t2 tl s1 s2 hm0.1 hm1.1 hm2.1 hs.1 hs.2 htl
  rw [hm0.2, hm1.2, hm2.2, upperHex2_twoHex ho.1, upperHex2_twoHex ho.2.1,
    upperHex2_twoHex ho.2.2, ← List.map_append, ← List.map_append] at hmac
  rw [hrec] at hcount
  refine ⟨_, _, _, rfl, ?_⟩
  rw [hrec]
  generalize load_records pre = before at hfirst hcount ⊢
  generalize load_records post = after at hcount ⊢
  generalize (o1 ++ o2 ++ o3).map toupper = key at hfirst hmac hcount ⊢
  have hn : toInt32 ((before ++ (key, v) :: after).length : Nat)
      = ((before ++ (key, v) :: after).length : Nat) := by
    unfold toInt32
    omega
  have hpos : ¬ (((before ++ (key, v) :: after).length : Nat) : Int) ≤ 0 := by
    simp only [List.length_append, List.length_cons]
    omega
  have hidx : ((before ++ (key, v) :: after).map Prod.fst)[before.length]? = some key := by
    rw [List.map_append, List.getElem?_append_right (by simp)]
    simp
  have hvend : ((before ++ (key, v) :: after).map Prod.snd)[before.length]? = some v := by
    rw [List.map_append, List.getElem?_append_right (by simp)]
    simp
  have hbefore : ∀ j : Nat, j < before.length →
      ((before ++ (key, v) :: after).map Prod.fst)[j]? ≠ some key := by
    intro j hj e
    rw [List.map_append, List.getElem?_append_left (by simpa using hj)] at e
    obtain ⟨r, hr, hk⟩ : ∃ r ∈ before, r.1 = key := by
      rw [List.getElem?_map] at e
      cases hb : before[j]? with
      | none => simp [hb] at e
      | some r =>
        simp only [hb, Option.map_some', Option.some.injEq] at e
        exact ⟨r, List.getElem?_mem hb, e⟩
    exact hfirst r hr hk
  obtain ⟨hscan, _⟩ := lookup_scan_first key _ ((before ++ (key, v) :: after).map Prod.snd)
    (before ++ (key, v) :: after).length before.length (by simp) (by simp) hidx hbefore
  simp only [lookup_oui_vendor, hn, hpos, if_false, hmac, Int.toNat_ofNat, hscan, hvend]

theorem c10_load_then_lookup_witness :
    ∃ cnt prefixes vendors,
      load_oui_db (some ("OUI list\n".toList ++ (hexRecordLine "  ".toList "28".toList
          "6f".toList "B9".toList "   ".toList "\t\t".toList
          "Nokia Shanghai Bell Co., Ltd.".toList ['\n'] ++ "00-00-0C (hex) Cisco\n".toList)))
        = some (cnt, prefixes, vendors) ∧
      lookup_oui_vendor ("28".toList ++ ':' :: ("6F".toList ++ ':' :: ("b9".toList
          ++ ":00:11:22".toList))) prefixes vendors cnt
        = some "Nokia Shanghai Bell Co., Ltd.".toList :=
  c10_load_then_lookup "OUI list\n".toList "00-00-0C (hex) Cisco\n".toList "  ".toList
    "28".toList "6f".toList "B9".toList "   ".toList "\t\t".toList
    "Nokia Shanghai Bell Co., Ltd.".toList ['\n'] "28".toList "6F".toList "b9".toList
    ":00:11:22".toList ':' ':' (Or.inr ⟨"OUI list".toList, by decide⟩) (by decide) (by decide)
    (by decide) (Or.inl rfl) (by decide) (by decide) (by decide) (by decide) (by decide)
    (by decide) (by decide) (by decide)

/-- C11, the code at the failing input: the line "1-2-3 (hex) Acme" starts
with a token of one hex digit per octet; `load_oui_db` stores a record for it
whose prefix is "123", three characters long. -/
theorem c11_short_octets_record :
    load_oui_db (some "1-2-3 (hex) Acme\n".toList)
      = some (1, ["123".toList], ["Acme".toList]) := by
  decide

/-- C12: for every candidate line (one starting, after optional white space,
with a hyphenated token of three two-digit hex octets) that contains the
marker "(hex)", the record `load_oui_db` stores for that line has as vendor the
text following the first "(hex)" with leading and trailing white space removed,
and the line yields no record when that text is empty; in the file, the record
stands between those of the lines before and those of the lines after. -/
theorem c12_hex_marker_vendor (ws0 o1 o2 o3 rest q : List Char)
    (hws : ∀ c ∈ ws0, isspace c = true)
    (ho : isTwoHex o1 = true ∧ isTwoHex o2 = true ∧ isTwoHex o3 = true)
    (hq : strstr (ws0 ++ (o1 ++ '-' :: (o2 ++ '-' :: (o3 ++ rest)))) "(hex)".toList = some q) :
    oui_line (ws0 ++ (o1 ++ '-' :: (o2 ++ '-' :: (o3 ++ rest))))
        = (if trimSpace (q.drop 5) = [] then none
           else some ((o1 ++ o2 ++ o3).map toupper, trimSpace (q.drop 5))) ∧
      ∀ pre post, (pre = [] ∨ ∃ p, pre = p ++ ['\n']) →
        isFileLine (ws0 ++ (o1 ++ '-' :: (o2 ++ '-' :: (o3 ++ rest)))) post →
        load_records (pre ++ ((ws0 ++ (o1 ++ '-' :: (o2 ++ '-' :: (o3 ++ rest)))) ++ post))
          = load_records pre ++
            ((if trimSpace (q.drop 5) = [] then none
              else some ((o1 ++ o2 ++ o3).map toupper, trimSpace (q.drop 5))).toList
              ++ load_records post) := by
  have hs := sscanf_oui_token ws0 o1 o2 o3 rest hws ho.1 ho.2.1 ho.2.2
  have hline := oui_line_hex _ o1 o2 o3 q hs hq
  rw [normalize_prefix_token o1 o2 o3 ho.1 ho.2.1 ho.2.2] at hline
  refine ⟨hline, ?_⟩
  intro pre post hpre hl
  rw [load_records_line pre _ post hpre hl, hline]

theorem c12_hex_marker_vendor_witness :
    oui_line ("  ".toList ++ ("28".toList ++ '-' :: ("6f".toList ++ '-' :: ("B9".toList
        ++ "   (hex)\t\tNokia (hex) Bell \r\n".toList))))
      = (if trimSpace ("(hex)\t\tNokia (hex) Bell \r\n".toList.drop 5) = [] then none
         else some (("28".toList ++ "6f".toList ++ "B9".toList).map toupper,
           trimSpace ("(hex)\t\tNokia (hex) Bell \r\n".toList.drop 5))) ∧
    trimSpace ("(hex)\t\tNokia (hex) Bell \r\n".toList.drop 5) = "Nokia (hex) Bell".toList :=
  ⟨(c12_hex_marker_vendor "  ".toList "28".toList "6f".toList "B9".toList
      "   (hex)\t\tNokia (hex) Bell \r\n".toList "(hex)\t\tNokia (hex) Bell \r\n".toList
      (by decide) (by decide) (by decide)).1, by decide⟩

/-- C13, the code at the failing input: for the line
"28-6F-B9     (base 16)    Nokia Shanghai Bell Co., Ltd." the vendor stored is
"16)    Nokia Shanghai Bell Co., Ltd.": the pointer is moved five characters
past the start of the marker, not past the marker; and a line with nothing
after "(base 16)" but the newline yields a record with the vendor "16)". -/
theorem c13_base16_marker_record :
    load_oui_db (some "28-6F-B9     (base 16)    Nokia Shanghai Bell Co., Ltd.".toList)
        = some (1, ["286FB9".toList], ["16)    Nokia Shanghai Bell Co., Ltd.".toList]) ∧
      load_oui_db (some "28-6F-B9     (base 16)\n".toList)
        = some (1, ["286FB9".toList], ["16)".toList]) := by
  decide

/-- C14, the code at the failing input: the line "  28-6F-B9 Acme Corp Ltd"
has leading white space and no marker; the vendor stored is "Corp Ltd", the
text following its second token, while without the leading white space the
vendor stored is "Ltd", the text following the third token. -/
theorem c14_leading_space_fallback :
    load_oui_db (some "  28-6F-B9 Acme Corp Ltd\n".toList)
        = some (1, ["286FB9".toList], ["Corp Ltd".toList]) ∧
      load_oui_db (some "28-6F-B9 Acme Corp Ltd\n".toList)
        = some (1, ["286FB9".toList], ["Ltd".toList]) := by
  decide

/-- C15 as stated fails: the file made of 2^31 copies of the line
"00-00-0C (hex) A" yields 2^31 records, and `load_oui_db` returns their number
converted to `int`, which is -2147483648, not the length of the lists. -/
theorem c15_count_overflow_counterexample :
    (load_records (repeatLine "00-00-0C (hex) A\n".toList 2147483648)).length = 2147483648 ∧
      (load_oui_db (some (repeatLine "00-00-0C (hex) A\n".toList 2147483648))).map Prod.fst
        = some (-2147483648) := by
  have h := repeatLine_records "00-00-0C (hex) A\n".toList ("00000C".toList, "A".toList)
    ⟨"00-00-0C (hex) A".toList, by decide, by decide⟩ (by decide) (by decide) 2147483648
  refine ⟨by rw [h, List.length_replicate], ?_⟩
  show some (toInt32 ((load_records
    (repeatLine "00-00-0C (hex) A\n".toList 2147483648)).length : Nat)) = some (-2147483648)
  rw [h, List.length_replicate]
  rfl

/-- C15 amended: for every input file content that yields fewer than 2^31
records, `load_oui_db` returns a count equal to the length of both output
lists, the records appear in the order of the lines they came from (the record
of a line stands between those of the lines before it and those of the lines
after it), and every stored vendor name is non-empty and has no leading or
trailing white space; a file with no valid record gives count 0 and an empty
table, not an error. -/
theorem c15_table_shape (content : List Char)
    (hn : (load_records content).length < 2 ^ 31) :
    ∃ cnt prefixes vendors, load_oui_db (some content) = some (cnt, prefixes, vendors) ∧
      cnt = prefixes.length ∧ cnt = vendors.length ∧
      (∀ v ∈ vendors, v ≠ [] ∧ v.head?.map isspace ≠ some true ∧
        v.getLast?.map isspace ≠ some true) ∧
      (∀ pre line post, content = pre ++ (line ++ post) →
        (pre = [] ∨ ∃ p, pre = p ++ ['\n']) → isFileLine line post →
        prefixes = (load_records pre).map Prod.fst ++
          (((oui_line line).toList).map Prod.fst ++ (load_records post).map Prod.fst) ∧
        vendors = (load_records pre).map Prod.snd ++
          (((oui_line line).toList).map Prod.snd ++ (load_records post).map Prod.snd)) ∧
      (load_records content = [] → load_oui_db (some content) = some (0, [], [])) := by
  have hcnt : toInt32 ((load_records content).length : Nat) = ((load_records content).length : Nat) := by
    unfold toInt32
    omega
  refine ⟨_, _, _, rfl, ?_, ?_, ?_, ?_, ?_⟩
  · rw [hcnt, List.length_map]
  · rw [hcnt, List.length_map]
  · intro v hv
    obtain ⟨r, hr, rfl⟩ := List.mem_map.1 hv
    obtain ⟨line, hline⟩ := load_loop_mem _ _ r hr
    exact oui_line_vendor line r hline
  · intro pre line post hc hpre hl
    rw [hc, load_records_line pre line post hpre hl]
    simp
  · intro he
    simp only [load_oui_db, he]
    rfl

theorem c15_table_shape_witness :
    ∃ cnt prefixes vendors,
      load_oui_db (some "OUI\n28-6F-B9 (hex) Nokia \n\n00-00-0C Cisco Systems, Inc\n".toList)
        = some (cnt, prefixes, vendors) ∧
      cnt = prefixes.length ∧ cnt = vendors.length :=
  let ⟨cnt, ps, vs, h1, h2, h3, _⟩ :=
    c15_table_shape "OUI\n28-6F-B9 (hex) Nokia \n\n00-00-0C Cisco Systems, Inc\n".toList
      (by decide)
  ⟨cnt, ps, vs, h1, h2, h3⟩

/-- C19: for every 32-bit unsigned value x, `uint32_to_ipstr` writes four
decimal octets separated by dots, each without leading zeros, with no white
space and at most 15 characters in all, and `ipstr_to_uint32` applied to that
text succeeds and returns x. -/
theorem c19_value_roundtrip (x : Nat) (hx : x < 4294967296) :
    (∃ a b c d, uint32_to_ipstr x = dotted a b c d ∧ isOctetText a = true ∧
      isOctetText b = true ∧ isOctetText c = true ∧ isOctetText d = true) ∧
    (∀ ch ∈ uint32_to_ipstr x, isspace ch = false) ∧
    (uint32_to_ipstr x).length ≤ 15 ∧
    ipstr_to_uint32 (uint32_to_ipstr x) = some x := by
  have b0 : x / 16777216 % 256 < 256 := Nat.mod_lt _ (by omega)
  have b1 : x / 65536 % 256 < 256 := Nat.mod_lt _ (by omega)
  have b2 : x / 256 % 256 < 256 := Nat.mod_lt _ (by omega)
  have b3 : x % 256 < 256 := Nat.mod_lt _ (by omega)
  refine ⟨⟨_, _, _, _, uint32_to_ipstr_eq x, isOctetText_fmtU _ b0, isOctetText_fmtU _ b1,
    isOctetText_fmtU _ b2, isOctetText_fmtU _ b3⟩, ?_, ?_, ipstr_to_uint32_roundtrip x hx⟩
  · rw [uint32_to_ipstr_eq]
    exact isspace_dotted _ _ _ _ (fmtU_spec _ b0).2.1 (fmtU_spec _ b1).2.1 (fmtU_spec _ b2).2.1
      (fmtU_spec _ b3).2.1
  · rw [uint32_to_ipstr_eq]
    have l0 := fmtU_length _ b0
    have l1 := fmtU_length _ b1
    have l2 := fmtU_length _ b2
    have l3 := fmtU_length _ b3
    simp only [dotted, List.length_append, List.length_cons]
    omega

theorem c19_value_roundtrip_witness :
    uint32_to_ipstr 3232235786 = "192.168.1.10".toList ∧
      ipstr_to_uint32 (uint32_to_ipstr 3232235786) = some 3232235786 :=
  ⟨by decide, (c19_value_roundtrip 3232235786 (by decide)).2.2.2⟩

/-- C16 as stated fails: in "10.0.0.1 xlladdr aa:bb" no token delimited by
white space is "lladdr" or "ether", yet `parse_linux_line` accepts the line
with hardware address "aa:bb"; and in "10.0.0.1 xlladdr aa ether bb" the only
marker token is "ether", followed by "bb", yet the hardware address stored is
"aa". The markers are searched as text, not as tokens. -/
theorem c16_marker_inside_word_counterexample :
    (tokenAfter "lladdr".toList (wsTokens "10.0.0.1 xlladdr aa:bb\n".toList) = none ∧
      tokenAfter "ether".toList (wsTokens "10.0.0.1 xlladdr aa:bb\n".toList) = none ∧
      parse_linux_line "10.0.0.1 xlladdr aa:bb\n".toList
        = some { ip := "10.0.0.1".toList, mac := "aa:bb".toList }) ∧
    (tokenAfter "lladdr".toList (wsTokens "10.0.0.1 xlladdr aa ether bb\n".toList) = none ∧
      tokenAfter "ether".toList (wsTokens "10.0.0.1 xlladdr aa ether bb\n".toList)
        = some "bb".toList ∧
      parse_linux_line "10.0.0.1 xlladdr aa ether bb\n".toList
        = some { ip := "10.0.0.1".toList, mac := "aa".toList }) := by
  decide

/-- C16 amended: for every line whose first token has at most 15 characters,
`parse_linux_line` accepts the line only if it contains the text "lladdr", or
failing that the text "ether" (anywhere, also inside a longer word), followed
after optional white space by a token; when accepted, the stored address is
the first token of the line and the stored hardware address is the token
following the first "lladdr" if the line contains that text, else the token
following the first "ether" (its first 31 characters, so taken as is when at
most 31 long). A line that contains neither text is rejected. -/
theorem c16_linux_line (line : List Char) (h15 : (firstToken line).length ≤ 15) :
    (∀ e, parse_linux_line line = some e →
      e.ip = firstToken line ∧
      ((∃ ll, strstr line "lladdr".toList = some ll ∧ firstToken (ll.drop 6) ≠ [] ∧
          e.mac = (firstToken (ll.drop 6)).take 31) ∨
        (strstr line "lladdr".toList = none ∧
          ∃ et, strstr line "ether".toList = some et ∧ firstToken (et.drop 5) ≠ [] ∧
            e.mac = (firstToken (et.drop 5)).take 31))) ∧
    (strstr line "lladdr".toList = none → strstr line "ether".toList = none →
      parse_linux_line line = none) := by
  have heq := parse_linux_line_eq line h15
  generalize strstr line "lladdr".toList = A at heq ⊢
  generalize strstr line "ether".toList = B at heq ⊢
  by_cases h0 : firstToken line = []
  · rw [if_pos h0] at heq
    exact ⟨fun e he => (by rw [heq] at he; cases he), fun _ _ => heq⟩
  rw [if_neg h0] at heq
  cases A with
  | some ll =>
    refine ⟨?_, fun h => by cases h⟩
    intro e he
    rw [heq] at he
    by_cases h2 : firstToken (ll.drop 6) = []
    · simp [h2] at he
    · simp only [h2, if_false, Option.some.injEq] at he
      subst he
      exact ⟨rfl, Or.inl ⟨ll, rfl, h2, rfl⟩⟩
  | none =>
    cases B with
    | some et =>
      refine ⟨?_, fun _ h => by cases h⟩
      intro e he
      rw [heq] at he
      by_cases h2 : firstToken (et.drop 5) = []
      · simp [h2] at he
      · simp only [h2, if_false, Option.some.injEq] at he
        subst he
        exact ⟨rfl, Or.inr ⟨rfl, et, rfl, h2, rfl⟩⟩
    | none =>
      exact ⟨fun e he => (by rw [heq] at he; cases he), fun _ _ => heq⟩

theorem c16_linux_line_witness :
    parse_linux_line "192.168.1.10 dev wlan0 lladdr 00:11:22:33:44:55 REACHABLE\n".toList
        = some { ip := "192.168.1.10".toList, mac := "00:11:22:33:44:55".toList } ∧
      parse_linux_line "192.168.1.10 dev wlan0 FAILED\n".toList = none :=
  ⟨by decide,
    (c16_linux_line "192.168.1.10 dev wlan0 FAILED\n".toList (by decide)).2 (by decide)
      (by decide)⟩

/-- C17 as stated fails: "? (10.0.0.1 at aa:bb" contains no `)`, hence no
parenthesis pair, yet `parse_macos_line` accepts it (the address is read up to
the end of the line and cut to 15 characters); and a hardware-address token of
60 letters followed by "(incomplete)" contains that marker, yet the line is
accepted, because only the first 63 characters of the token are looked at. -/
theorem c17_unclosed_paren_counterexample :
    (')' ∉ "? (10.0.0.1 at aa:bb".toList ∧
      parse_macos_line "? (10.0.0.1 at aa:bb".toList
        = some { ip := "10.0.0.1 at aa:".toList, mac := "aa:bb".toList }) ∧
    ((strstr (List.replicate 60 'x' ++ "(incomplete)".toList) "(incomplete)".toList).isSome
        = true ∧
      parse_macos_line ("? (10.0.0.1) at ".toList ++ (List.replicate 60 'x'
          ++ "(incomplete)".toList))
        = some { ip := "10.0.0.1".toList, mac := List.replicate 31 'x' }) := by
  decide

/-- C17 amended: `parse_macos_line` accepts a line only if it contains a `(`
followed by at least one character other than `)` and the marker " at "
followed by a token; when accepted, the stored address is the text between the
first `(` and the next `)` (or the end of the line when no `)` follows) if that
text has at most 15 characters, and the stored hardware address is the token
following the first " at " if it has at most 31 characters; every line whose
hardware-address token contains "(incomplete)" within its first 63 characters
is rejected. -/
theorem c17_macos_line (line : List Char) :
    (∀ e, parse_macos_line line = some e →
      '(' ∈ line ∧ parenText line ≠ [] ∧
      ∃ a, strstr line " at ".toList = some a ∧ firstToken (a.drop 4) ≠ [] ∧
        ((parenText line).length ≤ 15 → e.ip = parenText line) ∧
        ((firstToken (a.drop 4)).length ≤ 31 → e.mac = firstToken (a.drop 4))) ∧
    (∀ a, strstr line " at ".toList = some a →
      (strstr ((firstToken (a.drop 4)).take 63) "(incomplete)".toList).isSome = true →
      parse_macos_line line = none) := by
  have heq := parse_macos_line_eq line
  generalize strstr line " at ".toList = A at heq ⊢
  by_cases h0 : line.dropWhile (fun c => c != '(') = []
  · rw [if_pos h0] at heq
    exact ⟨fun e he => (by rw [heq] at he; cases he), fun _ _ _ => heq⟩
  rw [if_neg h0] at heq
  by_cases h1 : parenText line = []
  · rw [if_pos h1] at heq
    exact ⟨fun e he => (by rw [heq] at he; cases he), fun _ _ _ => heq⟩
  rw [if_neg h1] at heq
  have hin : '(' ∈ line := by
    by_contra hn
    apply h0
    rw [List.dropWhile_eq_nil_iff]
    intro x hx
    have : x ≠ '(' := fun e => hn (e ▸ hx)
    simpa using this
  cases A with
  | none => exact ⟨fun e he => (by rw [heq] at he; cases he), fun _ h => (by cases h)⟩
  | some a =>
    simp only at heq
    by_cases h2 : firstToken (a.drop 4) = []
    · rw [if_pos h2] at heq
      exact ⟨fun e he => (by rw [heq] at he; cases he), fun _ _ _ => heq⟩
    rw [if_neg h2] at heq
    generalize hb : (strstr ((firstToken (a.drop 4)).take 63) "(incomplete)".toList).isSome
      = b at heq
    cases b with
    | true =>
      exact ⟨fun e he => (by rw [heq] at he; cases he), fun _ _ _ => heq⟩
    | false =>
      constructor
      · intro e he
        rw [heq] at he
        simp only [Bool.false_eq_true, if_false, Option.some.injEq] at he
        subst he
        refine ⟨hin, h1, a, rfl, h2, ?_, ?_⟩
        · intro hl
          simp only [store_entry, List.take_take]
          exact List.take_of_length_le (by omega)
        · intro hl
          simp only [store_entry, List.take_take]
          exact List.take_of_length_le (by omega)
      · intro a2 ha2 hinc
        cases ha2
        rw [hb] at hinc
        cases hinc

theorem c17_macos_line_witness :
    parse_macos_line "? (192.168.1.10) at 0:11:22:33:44:55 on en0 ifscope [ethernet]\n".toList
        = some { ip := "192.168.1.10".toList, mac := "0:11:22:33:44:55".toList } ∧
      parse_macos_line "? (192.168.1.11) at (incomplete) on en0\n".toList = none :=
  ⟨by decide,
    (c17_macos_line "? (192.168.1.11) at (incomplete) on en0\n".toList).2
      " at (incomplete) on en0\n".toList (by decide) (by decide)⟩

/-- C18: `parse_windows_line` rejects every line whose first character after
white space is not a decimal digit (such as "Interface: 192.168.1.5 --- 0x3"
and the column-header line); a line that starts, after spaces and tabs, with a
digit and has at least two tokens delimited by white space (the first of at
most 15 characters, the second of at most 31) is accepted with the first token
as address and the second token, every `-` replaced by `:`, as hardware
address; the stored hardware address never contains `-`. -/
theorem c18_windows_line (bl t1 ws t2 rest : List Char) (d : Char)
    (hbl : ∀ c ∈ bl, c = ' ' ∨ c = '\t')
    (ht1 : isdigit d = true ∧ (∀ c ∈ d :: t1, isspace c = false) ∧ (d :: t1).length ≤ 15)
    (hws : ws ≠ [] ∧ ∀ c ∈ ws, isspace c = true)
    (ht2 : t2 ≠ [] ∧ (∀ c ∈ t2, isspace c = false) ∧ t2.length ≤ 31)
    (hrest : ∀ c ∈ rest.head?, isspace c = true) :
    parse_windows_line (bl ++ (d :: t1 ++ (ws ++ (t2 ++ rest))))
        = some { ip := d :: t1, mac := t2.map fun q => if q = '-' then ':' else q } ∧
      (∀ line, (∀ c ∈ (line.dropWhile isspace).head?, isdigit c = false) →
        parse_windows_line line = none) ∧
      (∀ line e, parse_windows_line line = some e → '-' ∉ e.mac) ∧
      parse_windows_line "Interface: 192.168.1.5 --- 0x3\n".toList = none ∧
      parse_windows_line "  Internet Address      Physical Address      Type\n".toList = none ∧
      parse_windows_line "  192.168.1.1           00-11-22-33-44-55     dynamic\n".toList
        = some { ip := "192.168.1.1".toList, mac := "00:11:22:33:44:55".toList } := by
  refine ⟨?_, windows_reject, windows_mac_no_hyphen, by decide, by decide, by decide⟩
  have hdb : (decide (d = ' ') || decide (d = '\t')) = false := by
    have h1 : d ≠ ' ' := fun e => by rw [e] at ht1; exact absurd ht1.1 (by decide)
    have h2 : d ≠ '\t' := fun e => by rw [e] at ht1; exact absurd ht1.1 (by decide)
    simp [h1, h2]
  have hp : (bl ++ (d :: t1 ++ (ws ++ (t2 ++ rest)))).dropWhile
      (fun c => decide (c = ' ') || decide (c = '\t')) = d :: (t1 ++ (ws ++ (t2 ++ rest))) := by
    rw [dropWhile_all _ bl _ (fun c hc => by
      rcases hbl c hc with e | e <;> rw [e] <;> decide), List.cons_append]
    exact dropWhile_head_false _ d _ hdb
  have hwshead : ∀ c ∈ (ws ++ (t2 ++ rest)).head?, isspace c = true := by
    obtain ⟨w, ws2, hw⟩ := List.exists_cons_of_ne_nil hws.1
    intro c hc
    rw [hw] at hc
    simp only [List.cons_append, List.head?_cons, Option.mem_def, Option.some.injEq] at hc
    rw [← hc]
    exact hws.2 w (by rw [hw]; exact List.mem_cons_self _ _)
  have s1 := scanStr_token 31 [] (d :: t1) (ws ++ (t2 ++ rest)) (by simp) (by simp) ht1.2.1
    hwshead (by omega)
  have s2 := scanStr_token 63 ws t2 rest hws.2 ht2.1 ht2.2.1 hrest (by omega)
  rw [List.nil_append, List.cons_append] at s1
  unfold parse_windows_line windows_fields
  simp only [hp, ht1.1, if_true, s1, s2, store_entry]
  rw [List.take_of_length_le ht1.2.2, List.take_of_length_le (by simpa using ht2.2.2)]

theorem c18_windows_line_witness :
    parse_windows_line ("  ".toList ++ ('1' :: "92.168.1.1".toList ++ ("\t  ".toList
        ++ ("00-11-22-33-44-55".toList ++ "     dynamic\r\n".toList))))
      = some { ip := '1' :: "92.168.1.1".toList,
               mac := "00-11-22-33-44-55".toList.map fun q => if q = '-' then ':' else q } :=
  (c18_windows_line "  ".toList "92.168.1.1".toList "\t  ".toList "00-11-22-33-44-55".toList
    "     dynamic\r\n".toList '1' (by decide) (by decide) (by decide) (by decide)
    (by decide)).1

/-- C20: for each of the three line parsers and every line it accepts, the
address written into the entry has at most 15 characters and the hardware
address at most 31, and each is the leading part of what the parser extracted
into its local buffer, the address buffer holding the leading part of the
address token: an address token longer than 15 characters is stored cut to its
first 15 characters rather than causing rejection. -/
theorem c20_fields_fit (line : List Char) (e : arp_entry_t) :
    (parse_linux_line line = some e →
      e.ip.length ≤ 15 ∧ e.mac.length ≤ 31 ∧
      ∃ ip mac, linux_fields line = some (ip, mac) ∧ ip = (firstToken line).take 31 ∧
        e.ip = ip.take 15 ∧ e.mac = mac.take 31) ∧
    (parse_macos_line line = some e →
      e.ip.length ≤ 15 ∧ e.mac.length ≤ 31 ∧
      ∃ ip mac, macos_fields line = some (ip, mac) ∧ ip = (parenText line).take 31 ∧
        e.ip = ip.take 15 ∧ e.mac = mac.take 31) ∧
    (parse_windows_line line = some e →
      e.ip.length ≤ 15 ∧ e.mac.length ≤ 31 ∧
      ∃ ip mac, windows_fields line = some (ip, mac) ∧ ip = (firstToken line).take 31 ∧
        e.ip = ip.take 15 ∧ e.mac = mac.take 31) ∧
    parse_linux_line "1234567890123456789 lladdr aa\n".toList
      = some { ip := "123456789012345".toList, mac := "aa".toList } ∧
    parse_macos_line "? (1234567890123456789) at aa on en0\n".toList
      = some { ip := "123456789012345".toList, mac := "aa".toList } ∧
    parse_windows_line "1234567890123456789 aa-bb dynamic\n".toList
      = some { ip := "123456789012345".toList, mac := "aa:bb".toList } := by
  refine ⟨?_, ?_, ?_, by decide, by decide, by decide⟩
  · intro h
    unfold parse_linux_line at h
    cases hf : linux_fields line with
    | none => simp [hf] at h
    | some f =>
      obtain ⟨ip, mac⟩ := f
      simp only [hf, Option.some.injEq] at h
      subst h
      exact ⟨(store_entry_fits ip mac).1, (store_entry_fits ip mac).2, ip, mac, rfl,
        linux_fields_ip line ip mac hf, rfl, rfl⟩
  · intro h
    unfold parse_macos_line at h
    cases hf : macos_fields line with
    | none => simp [hf] at h
    | some f =>
      obtain ⟨ip, mac⟩ := f
      simp only [hf, Option.some.injEq] at h
      subst h
      exact ⟨(store_entry_fits ip mac).1, (store_entry_fits ip mac).2, ip, mac, rfl,
        macos_fields_ip line ip mac hf, rfl, rfl⟩
  · intro h
    unfold parse_windows_line at h
    cases hf : windows_fields line with
    | none => simp [hf] at h
    | some f =>
      obtain ⟨ip, mac⟩ := f
      simp only [hf, Option.some.injEq] at h
      subst h
      exact ⟨(store_entry_fits ip mac).1, (store_entry_fits ip mac).2, ip, mac, rfl,
        windows_fields_ip line ip mac hf, rfl, rfl⟩

theorem c20_fields_fit_witness :
    ({ ip := "123456789012345".toList, mac := "aa".toList } : arp_entry_t).ip.length ≤ 15 ∧
      ({ ip := "123456789012345".toList, mac := "aa".toList } : arp_entry_t).mac.length ≤ 31 :=
  let ⟨h1, h2, _⟩ := (c20_fields_fit "1234567890123456789 lladdr aa\n".toList
    { ip := "123456789012345".toList, mac := "aa".toList }).1 (by decide)
  ⟨h1, h2⟩


end AssetDiscovery
